import Mathlib

/-!
# OFDM modem encoder (`encode.cc`)

A shallow embedding of the encoder's integer and index logic.

* C `int` / `long long int` values are `Int`; `/` and `%` of the source are the
  truncating `Int.tdiv` and `Int.tmod`.  `long long` arithmetic of
  `base37_encoder` is reduced with `wrap64` after every operation.
* A C string is a `List Char`; a NUL character (or the end of the list) ends it.
* Sample values (`cmplx`, `value`) are an arbitrary type `α`; everything the
  source takes from the DSP and CODE libraries is a field of `Ext α`.
* An array is a function from its index to its content, a store is
  `Function.update`; a `for` loop is `forLoop`, a left fold over its index values.
-/

set_option linter.unusedSectionVars false

namespace Modem

/-! ## `base37_encoder` (encode.cc:260-275) -/

/-- Two's-complement reduction of an integer to the range of `long long int`. -/
def wrap64 (x : Int) : Int := (x + 2 ^ 63) % 2 ^ 64 - 2 ^ 63

/-- The loop of `base37_encoder`: `acc` is the running value, the list holds the
characters from `str` on.  Each round first does `acc *= 37`, then adds the digit
value of the character, returns `-1` on a character outside the alphabet, and adds
nothing for a space. -/
def base37_loop : List Char → Int → Int
  | [], acc => acc
  | c :: str, acc =>
    if c.toNat = 0 then acc
    else
      let acc1 := wrap64 (acc * 37)
      if '0'.toNat ≤ c.toNat ∧ c.toNat ≤ '9'.toNat then
        base37_loop str (wrap64 (acc1 + ((c.toNat : Int) - '0'.toNat + 1)))
      else if 'a'.toNat ≤ c.toNat ∧ c.toNat ≤ 'z'.toNat then
        base37_loop str (wrap64 (acc1 + ((c.toNat : Int) - 'a'.toNat + 11)))
      else if 'A'.toNat ≤ c.toNat ∧ c.toNat ≤ 'Z'.toNat then
        base37_loop str (wrap64 (acc1 + ((c.toNat : Int) - 'A'.toNat + 11)))
      else if c ≠ ' ' then -1
      else base37_loop str acc1

/-- `base37_encoder(str)`: the loop started with `acc = 0`. -/
def base37_encoder (str : List Char) : Int := base37_loop str 0

/-! ### Vocabulary for statements about call signs -/

/-- The characters `base37_encoder` gives a digit value: `0-9`, `a-z`, `A-Z`, space. -/
def isCallChar (c : Char) : Prop :=
  ('0'.toNat ≤ c.toNat ∧ c.toNat ≤ '9'.toNat) ∨ ('a'.toNat ≤ c.toNat ∧ c.toNat ≤ 'z'.toNat) ∨
    ('A'.toNat ≤ c.toNat ∧ c.toNat ≤ 'Z'.toNat) ∨ c = ' '

instance (c : Char) : Decidable (isCallChar c) := by
  unfold isCallChar; infer_instance

/-- The digit value `v(c)` of the interface description: `0..9 ↦ 1..10`,
letters of either case `↦ 11..36`, space `↦ 0`. -/
def digitValue (c : Char) : Int :=
  if '0'.toNat ≤ c.toNat ∧ c.toNat ≤ '9'.toNat then (c.toNat : Int) - '0'.toNat + 1
  else if 'a'.toNat ≤ c.toNat ∧ c.toNat ≤ 'z'.toNat then (c.toNat : Int) - 'a'.toNat + 11
  else if 'A'.toNat ≤ c.toNat ∧ c.toNat ≤ 'Z'.toNat then (c.toNat : Int) - 'A'.toNat + 11
  else 0

/-- The left fold `acc = 37 * acc + v(c)` of the interface description, from `0`. -/
def base37_fold (s : List Char) : Int :=
  s.foldl (fun acc c => 37 * acc + digitValue c) 0

/-- Replace a lower-case ASCII letter by its upper-case letter. -/
def upperChar (c : Char) : Char :=
  if 'a'.toNat ≤ c.toNat ∧ c.toNat ≤ 'z'.toNat then Char.ofNat (c.toNat - 32) else c

/-! ## Argument validation of `main` (encode.cc:290-335) -/

/-- The sample rates for which `main` instantiates an `Encoder` (encode.cc:356-368). -/
def supportedRate (rate : Int) : Prop :=
  rate = 8000 ∨ rate = 16000 ∨ rate = 44100 ∨ rate = 48000

instance (rate : Int) : Decidable (supportedRate rate) := by
  unfold supportedRate; infer_instance

/-- The operation modes `main` lets through (encode.cc:306). -/
def validMode (mode : Int) : Prop := mode = 2 ∨ mode = 3 ∨ mode = 4 ∨ mode = 5

instance (mode : Int) : Decidable (validMode mode) := by
  unfold validMode; infer_instance

/-- The call-sign test of encode.cc:298: `true` when `main` goes on. -/
def call_sign_ok (call_sign : Int) : Bool :=
  !(call_sign ≤ 0 || call_sign ≥ 129961739795077)

/-- The mode test of encode.cc:306. -/
def oper_mode_ok (oper_mode : Int) : Bool :=
  !(oper_mode < 2 || oper_mode > 5)

/-- The `switch` of encode.cc:311-325; `none` is its `default: return 1`. -/
def band_width (oper_mode : Int) : Option Int :=
  if oper_mode = 2 then some 2700
  else if oper_mode = 3 ∨ oper_mode = 4 then some 2500
  else if oper_mode = 5 then some 2250
  else none

/-- The range test of encode.cc:327: `true` when `main` goes on. -/
def freq_range_ok (output_chan output_rate bw freq_off : Int) : Bool :=
  !((output_chan = 1 && freq_off < bw.tdiv 2) ||
      freq_off < bw.tdiv 2 - output_rate.tdiv 2 ||
      freq_off > output_rate.tdiv 2 - bw.tdiv 2)

/-- The divisibility test of encode.cc:332: `true` when `main` goes on. -/
def freq_div_ok (freq_off : Int) : Bool := !(freq_off.tmod 50 != 0)

/-- The command line after `atoi`: `argc`, the numbers `RATE BITS CHANNELS`, and
the optional arguments `OFFSET CALLSIGN MODE`, read only when `argc` reaches them. -/
structure Args where
  argc : Int
  output_rate : Int
  output_bits : Int
  output_chan : Int
  argv6 : Int
  argv7 : List Char
  argv8 : Int

/-- The values `main` has validated when it reaches encode.cc:337. -/
structure Checked where
  freq_off : Int
  call_sign : Int
  oper_mode : Int
deriving DecidableEq, Repr

/-- The frequency offset of encode.cc:290-292. -/
def arg_freq_off (a : Args) : Int :=
  if a.argc ≥ 7 then a.argv6 else if a.output_chan = 1 then 2000 else 0

/-- The call-sign value of encode.cc:294-296. -/
def arg_call_sign (a : Args) : Int :=
  if a.argc ≥ 8 then base37_encoder a.argv7 else base37_encoder "ANONYMOUS".toList

/-- The operation mode of encode.cc:303-305. -/
def arg_oper_mode (a : Args) : Int := if a.argc ≥ 9 then a.argv8 else 2

/-- Lines 279-335 of `main`: `none` stands for `return 1`. -/
def main_checks (a : Args) : Option Checked :=
  if a.argc < 6 ∨ a.argc > 9 then none
  else if !call_sign_ok (arg_call_sign a) then none
  else if !oper_mode_ok (arg_oper_mode a) then none
  else
    match band_width (arg_oper_mode a) with
    | none => none
    | some bw =>
      if !freq_range_ok a.output_chan a.output_rate bw (arg_freq_off a) then none
      else if !freq_div_ok (arg_freq_off a) then none
      else some ⟨arg_freq_off a, arg_call_sign a, arg_oper_mode a⟩

/-! ## External collaborators and helpers -/

/-- What `Encoder` and `main` take from the DSP and CODE libraries (FFT, square
roots, clipping, crossfade, sequence generators, CRC, BCH and LDPC encoders,
PSK mappers, scrambler).  None of it is in `encode.cc`; the encoder is embedded
over an arbitrary choice of these. -/
structure Ext (α : Type) where
  /-- conversion of an `int` to a sample value -/
  ofInt : Int → α
  /-- the value `cmplx(re, im)` for integer arguments (encode.cc:232) -/
  cmplx : Int → Int → α
  /-- the factor `std::sqrt(value(a) / value(b))` -/
  sqrt_ratio : Int → Int → α
  /-- the quotient `x / std::sqrt(value(n))` -/
  div_sqrt : α → Int → α
  /-- the clipping of one sample, encode.cc:84-86 -/
  clip : α → α
  /-- the test `norm(x)` of encode.cc:90: `true` when `norm(x)` is not zero -/
  norm_nonzero : α → Bool
  /-- the transform `FastFourierTransform<size, cmplx, sign>`, output from input -/
  fft : Int → Int → (Int → α) → (Int → α)
  /-- the crossfade of encode.cc:105-107 at index `i` of `guard_len` -/
  crossfade : Int → Int → α → α → α
  /-- the statistics of encode.cc:109-120: new `(papr_min, papr_max)` -/
  papr_stats : Int → (Int → α) → α × α → α × α
  /-- the bits returned by successive calls of a fresh `CODE::MLS(poly)` -/
  mls : Int → Nat → Bool
  /-- the value `crc0(x)` after `crc0.reset()`, for the CRC with polynomial `0xA8F4` -/
  crc0 : Nat → Nat
  /-- the 23 parity bytes `bchenc0` computes from the 9 data bytes -/
  bchenc0 : (Nat → Nat) → (Nat → Nat)
  /-- the 20 parity bytes `bchenc1` computes from the message bytes -/
  bchenc1 : (Nat → Nat) → Int → (Nat → Nat)
  /-- the 21600 parity values `ldpcenc` computes from the 43200 message values -/
  ldpcenc : (Int → Int) → (Int → Int)
  /-- the point `PhaseShiftKeying<8, cmplx, int8_t>::map(b)` -/
  psk8 : (Int → Int) → α
  /-- the point `PhaseShiftKeying<4, cmplx, int8_t>::map(b)` -/
  psk4 : (Int → Int) → α
  /-- the values returned by successive calls of a fresh `CODE::Xorshift32` -/
  scrambler : Nat → Nat

/-- The loop `for (int i = lo; i < lo + n; ++i) s = body i s`. -/
def loopN {σ : Type} (n : Nat) (lo : Int) (body : Int → σ → σ) (s : σ) : σ :=
  (List.range n).foldl (fun s k => body (lo + (k : Int)) s) s

/-- The loop `for (int i = lo; i < hi; ++i) s = body i s`. -/
def forLoop {σ : Type} (lo hi : Int) (body : Int → σ → σ) (s : σ) : σ :=
  loopN (hi - lo).toNat lo body s

/-- Write `val` at bit `k` of the number `n`. -/
def writeBit (n k : Nat) (val : Bool) : Nat :=
  if n.testBit k = val then n else n ^^^ 2 ^ k

/-- Modelled from the spec: `CODE::set_be_bit` of `bitman.hh`, which is not in
`encode.cc`: write bit `pos` of a byte buffer, bits numbered big-endian within each
byte. -/
def set_be_bit (buf : Nat → Nat) (pos : Nat) (val : Bool) : Nat → Nat :=
  Function.update buf (pos / 8) (writeBit (buf (pos / 8)) (7 - pos % 8) val)

/-- Modelled from the spec: `CODE::get_be_bit` of `bitman.hh`, which is not in
`encode.cc`: read bit `pos` of a byte buffer, bits numbered big-endian within each
byte. -/
def get_be_bit (buf : Nat → Nat) (pos : Nat) : Bool :=
  (buf (pos / 8)).testBit (7 - pos % 8)

/-- Modelled from the spec: `CODE::get_le_bit` of `bitman.hh`, which is not in
`encode.cc`: read bit `pos` of a byte buffer, bits numbered little-endian within each
byte. -/
def get_le_bit (buf : Nat → Nat) (pos : Nat) : Bool :=
  (buf (pos / 8)).testBit (pos % 8)

/-! ## `struct Encoder` (encode.cc:26-258) -/

/-- `symbol_len` (encode.cc:29) for the template argument `rate`. -/
def symbol_len (rate : Int) : Int := (1280 * rate).tdiv 8000

/-- `guard_len` (encode.cc:30). -/
def guard_len (rate : Int) : Int := (symbol_len rate).tdiv 8

def ldpc_bits : Int := 64800
def bch_bits : Int := ldpc_bits - 21600
def data_bits : Int := bch_bits - 10 * 16
def mls0_len : Int := 127
def mls0_poly : Int := 0b10001001
def mls1_len : Int := 255
def mls1_poly : Int := 0b100101011
def mls2_poly : Int := 0b100101010001

/-- The data members of `Encoder`; `pcm` is the sequence of samples written to the
sink so far, one entry per sample frame. -/
structure Encoder (α : Type) where
  pcm : List α
  code : Int → Int
  bint : Int → Int
  fdom : Int → α
  fdom4 : Int → α
  tdom : Int → α
  tdom4 : Int → α
  temp : Int → α
  guard : Int → α
  papr_min : α
  papr_max : α
  oper_mode : Int
  mod_bits : Int
  cons_cnt : Int
  code_cols : Int
  code_rows : Int
  code_off : Int
  mls0_off : Int
  mls1_off : Int

/-- `bin` (encode.cc:62). -/
def bin (rate : Int) (carrier : Int) : Int :=
  (carrier + symbol_len rate).tmod (symbol_len rate)

/-- `bin4` (encode.cc:66). -/
def bin4 (rate : Int) (carrier : Int) : Int :=
  (carrier + 4 * symbol_len rate).tmod (4 * symbol_len rate)

/-- `nrz` (encode.cc:70). -/
def nrz (bit : Bool) : Int := 1 - 2 * (if bit then 1 else 0)

variable {α : Type} [Zero α] [Mul α]

/-- `improve_papr` (encode.cc:74-94). -/
def improve_papr (ext : Ext α) (rate : Int) (e : Encoder α) : Encoder α :=
  let n := symbol_len rate
  let e := { e with fdom4 := forLoop 0 (4 * n) (fun i f => Function.update f i 0) e.fdom4 }
  let e := { e with
    fdom4 := forLoop ((-n).tdiv 2) (n.tdiv 2)
      (fun i f => Function.update f (bin4 rate i) (e.fdom (bin rate i))) e.fdom4 }
  let e := { e with tdom4 := ext.fft (4 * n) 1 e.fdom4 }
  let e := { e with
    tdom4 := forLoop 0 (4 * n)
      (fun i t => Function.update t i (ext.div_sqrt (t i) (4 * n))) e.tdom4 }
  let e := { e with
    tdom4 := forLoop 0 (4 * n) (fun i t => Function.update t i (ext.clip (t i))) e.tdom4 }
  let e := { e with fdom4 := ext.fft (4 * n) (-1) e.tdom4 }
  { e with
    temp := forLoop ((-n).tdiv 2) (n.tdiv 2)
      (fun i t =>
        if ext.norm_nonzero (t (bin rate i)) then
          Function.update t (bin rate i) (ext.div_sqrt (e.fdom4 (bin4 rate i)) (4 * n))
        else Function.update t (bin rate i) 0) e.temp }

/-- `symbol` (encode.cc:95-125). -/
def symbol (ext : Ext α) (rate : Int) (papr_reduction : Bool) (e : Encoder α) : Encoder α :=
  let n := symbol_len rate
  let g := guard_len rate
  let e := { e with temp := forLoop 0 n (fun i t => Function.update t i (e.fdom i)) e.temp }
  let e := if papr_reduction then improve_papr ext rate e else e
  let e := { e with tdom := ext.fft n 1 e.temp }
  let e := { e with
    tdom := forLoop 0 n (fun i t => Function.update t i (ext.div_sqrt (t i) (8 * n))) e.tdom }
  let e := { e with
    guard := forLoop 0 g
      (fun i gd => Function.update gd i (ext.crossfade i g (gd i) (e.tdom (i + n - g)))) e.guard }
  let stats := ext.papr_stats n e.tdom (e.papr_min, e.papr_max)
  let e := { e with papr_min := stats.1, papr_max := stats.2 }
  let e := { e with pcm := e.pcm ++ (List.range g.toNat).map (fun (i : Nat) => e.guard (i : Int)) }
  let e := { e with pcm := e.pcm ++ (List.range n.toNat).map (fun (i : Nat) => e.tdom (i : Int)) }
  { e with guard := forLoop 0 g (fun i gd => Function.update gd i (e.tdom i)) e.guard }

/-- Lines 128-133 of `pilot_block`: the frequency-domain buffer of a pilot symbol. -/
def pilot_fill (ext : Ext α) (rate : Int) (e : Encoder α) : Encoder α :=
  let n := symbol_len rate
  let code_fac := ext.sqrt_ratio n e.code_cols
  let e := { e with fdom := forLoop 0 n (fun i f => Function.update f i 0) e.fdom }
  { e with
    fdom := forLoop e.code_off (e.code_off + e.code_cols)
      (fun i f => Function.update f (bin rate i)
        (code_fac * ext.ofInt (nrz (ext.mls mls2_poly (i - e.code_off).toNat)))) e.fdom }

/-- `pilot_block` (encode.cc:126-135). -/
def pilot_block (ext : Ext α) (rate : Int) (e : Encoder α) : Encoder α :=
  symbol ext rate true (pilot_fill ext rate e)

/-- Lines 138-146 of `schmidl_cox`: the frequency-domain buffer of a sync symbol. -/
def schmidl_cox_fill (ext : Ext α) (rate : Int) (e : Encoder α) : Encoder α :=
  let n := symbol_len rate
  let mls0_fac := ext.sqrt_ratio (2 * n) mls0_len
  let e := { e with fdom := forLoop 0 n (fun i f => Function.update f i 0) e.fdom }
  let e := { e with fdom := Function.update e.fdom (bin rate (e.mls0_off - 2)) mls0_fac }
  let e := { e with
    fdom := forLoop 0 mls0_len
      (fun i f => Function.update f (bin rate (2 * i + e.mls0_off))
        (ext.ofInt (nrz (ext.mls mls0_poly i.toNat)))) e.fdom }
  { e with
    fdom := forLoop 0 mls0_len
      (fun i f => Function.update f (bin rate (2 * i + e.mls0_off))
        (f (bin rate (2 * i + e.mls0_off)) * f (bin rate (2 * (i - 1) + e.mls0_off)))) e.fdom }

/-- `schmidl_cox` (encode.cc:136-148). -/
def schmidl_cox (ext : Ext α) (rate : Int) (e : Encoder α) : Encoder α :=
  symbol ext rate false (schmidl_cox_fill ext rate e)

/-- Lines 151-153 of `meta_data`: the buffer `data` after the 55 bits of `md` have
been stored. -/
def meta_bits (md : Nat) : Nat → Nat :=
  loopN 55 0 (fun i data => set_be_bit data i.toNat (((md >>> i.toNat) &&& 1) != 0))
    (fun _ => 0)

/-- Lines 151-157 of `meta_data`: the buffer `data` with the 55 bits of `md` and the
16 bits of the checksum. -/
def meta_info (ext : Ext α) (md : Nat) : Nat → Nat :=
  let cs := ext.crc0 ((md <<< 9) % 2 ^ 64) % 2 ^ 16
  loopN 16 0
    (fun i data => set_be_bit data (i.toNat + 55) (((cs >>> i.toNat) &&& 1) != 0))
    (meta_bits md)

/-- Lines 151-171 of `meta_data`: the frequency-domain buffer of a header symbol. -/
def meta_fill (ext : Ext α) (rate : Int) (md : Nat) (e : Encoder α) : Encoder α :=
  let n := symbol_len rate
  let data := meta_info ext md
  let parity := ext.bchenc0 data
  let mls1_fac := ext.sqrt_ratio n mls1_len
  let e := { e with fdom := forLoop 0 n (fun i f => Function.update f i 0) e.fdom }
  let e := { e with fdom := Function.update e.fdom (bin rate (e.mls1_off - 1)) mls1_fac }
  let e := { e with
    fdom := forLoop 0 71
      (fun i f => Function.update f (bin rate (i + e.mls1_off))
        (ext.ofInt (nrz (get_be_bit data i.toNat)))) e.fdom }
  let e := { e with
    fdom := forLoop 71 mls1_len
      (fun i f => Function.update f (bin rate (i + e.mls1_off))
        (ext.ofInt (nrz (get_be_bit parity (i - 71).toNat)))) e.fdom }
  let e := { e with
    fdom := forLoop 0 mls1_len
      (fun i f => Function.update f (bin rate (i + e.mls1_off))
        (f (bin rate (i + e.mls1_off)) * f (bin rate (i - 1 + e.mls1_off)))) e.fdom }
  { e with
    fdom := forLoop 0 mls1_len
      (fun i f => Function.update f (bin rate (i + e.mls1_off))
        (f (bin rate (i + e.mls1_off)) * ext.ofInt (nrz (ext.mls mls1_poly i.toNat)))) e.fdom }

/-- `meta_data` (encode.cc:149-173). -/
def meta_data (ext : Ext α) (rate : Int) (md : Nat) (e : Encoder α) : Encoder α :=
  symbol ext rate true (meta_fill ext rate md e)

/-- `mod_map` (encode.cc:174-185); `b` is the array the pointer argument points at. -/
def mod_map (ext : Ext α) (oper_mode : Int) (b : Int → Int) : α :=
  if oper_mode = 2 ∨ oper_mode = 3 then ext.psk8 b
  else if oper_mode = 4 ∨ oper_mode = 5 then ext.psk4 b
  else 0

/-- `interleave` (encode.cc:186-191). -/
def interleave (e : Encoder α) : Encoder α :=
  { e with
    bint := forLoop 0 e.cons_cnt
      (fun i b => forLoop 0 e.mod_bits
        (fun k b => Function.update b (e.mod_bits * i + k) (e.code (e.cons_cnt * k + i))) b)
      e.bint }

/-- The `switch` of encode.cc:206-225: `(code_cols, mod_bits)` of a mode; `none` is
its `default: return`. -/
def mode_table (oper_mode : Int) : Option (Int × Int) :=
  if oper_mode = 2 then some (432, 3)
  else if oper_mode = 3 then some (400, 3)
  else if oper_mode = 4 then some (400, 2)
  else if oper_mode = 5 then some (360, 2)
  else none

/-- The bin offset of encode.cc:228.  For the offsets `main` lets through,
`|freq_off| ≤ 24000`, so the product stays below `2 ^ 31`. -/
def bin_offset (rate freq_off : Int) : Int := (freq_off * symbol_len rate).tdiv rate

/-- Lines 204-232 of the constructor: the mode and frequency plan; `none` when the
constructor returns at `default`. -/
def Encoder_params (ext : Ext α) (rate freq_off oper_mode : Int) (e0 : Encoder α) :
    Option (Encoder α) :=
  match mode_table oper_mode with
  | none => none
  | some (cols, bits) =>
    let e := { e0 with oper_mode := oper_mode, code_cols := cols, mod_bits := bits }
    let e := { e with cons_cnt := ldpc_bits.tdiv e.mod_bits }
    let e := { e with code_rows := e.cons_cnt.tdiv e.code_cols }
    let offset := bin_offset rate freq_off
    let e := { e with code_off := offset - e.code_cols.tdiv 2 }
    let e := { e with mls0_off := offset - mls0_len + 1 }
    let e := { e with mls1_off := offset - mls1_len.tdiv 2 }
    some { e with papr_min := ext.cmplx 1000 1000, papr_max := ext.cmplx (-1000) (-1000) }

/-- The argument `(call_sign << 8) | oper_mode` of `meta_data` (encode.cc:235), a
`uint64_t`. -/
def meta_word (call_sign : Nat) (oper_mode : Int) : Nat :=
  ((call_sign <<< 8) % 2 ^ 64) ||| (oper_mode % 2 ^ 64).toNat

/-- Lines 233-236 of the constructor: pilot, sync, header, pilot. -/
def Encoder_preamble (ext : Ext α) (rate : Int) (call_sign : Nat) (e : Encoder α) :
    Encoder α :=
  let e := pilot_block ext rate e
  let e := schmidl_cox ext rate e
  let e := meta_data ext rate (meta_word call_sign e.oper_mode) e
  pilot_block ext rate e

/-- Modelled from the spec: the number of parity bytes `bchenc1` writes (the encoder
itself is not in `encode.cc`): the 160 parity bits of the BCH(65535, 65375) code are
appended after the message, `(65535 - 65375) / 8` bytes. -/
def bch1_parity_bytes : Nat := (65535 - 65375) / 8

/-- Line 237 of the constructor: `inp` after `bchenc1` has put its parity bytes at
`inp + data_bits / 8`. -/
def bch_encode (ext : Ext α) (inp : Nat → Nat) : Nat → Nat :=
  let parity := ext.bchenc1 inp data_bits
  loopN bch1_parity_bytes 0
    (fun i b => Function.update b ((data_bits.tdiv 8).toNat + i.toNat) (parity i.toNat)) inp

/-- Lines 237-241 of the constructor: outer code, inner code, interleaver. -/
def Encoder_coding (ext : Ext α) (inp : Nat → Nat) (e : Encoder α) : Encoder α :=
  let inp := bch_encode ext inp
  let e := { e with
    code := forLoop 0 bch_bits
      (fun i c => Function.update c i (nrz (get_le_bit inp i.toNat))) e.code }
  let parity := ext.ldpcenc e.code
  let e := { e with
    code := forLoop 0 (ldpc_bits - bch_bits)
      (fun i c => Function.update c (bch_bits + i) (parity i)) e.code }
  interleave e

/-- Lines 243-245 of the constructor: the frequency-domain buffer of data row `j`. -/
def data_fill (ext : Ext α) (rate : Int) (j : Int) (e : Encoder α) : Encoder α :=
  { e with
    fdom := forLoop 0 e.code_cols
      (fun i f => Function.update f (bin rate (i + e.code_off))
        (f (bin rate (i + e.code_off)) *
          mod_map ext e.oper_mode (fun t => e.bint (e.mod_bits * (e.code_cols * j + i) + t))))
      e.fdom }

/-- The body of the loop of encode.cc:242-247. -/
def data_symbol (ext : Ext α) (rate : Int) (j : Int) (e : Encoder α) : Encoder α :=
  symbol ext rate true (data_fill ext rate j e)

/-- The encoder after the first `rows` rounds of the loop of encode.cc:242-247. -/
def data_rows (ext : Ext α) (rate : Int) (rows : Nat) (e : Encoder α) : Encoder α :=
  loopN rows 0 (data_symbol ext rate) e

/-- Lines 242-247 of the constructor: the data symbols. -/
def Encoder_data (ext : Ext α) (rate : Int) (e : Encoder α) : Encoder α :=
  data_rows ext rate e.code_rows.toNat e

/-- Lines 248-253 of the constructor: sync, header, pilot and the silent symbol. -/
def Encoder_tail (ext : Ext α) (rate : Int) (call_sign : Nat) (e : Encoder α) : Encoder α :=
  let e := schmidl_cox ext rate e
  let e := meta_data ext rate (meta_word call_sign e.oper_mode) e
  let e := pilot_block ext rate e
  let e := { e with
    fdom := forLoop 0 (symbol_len rate) (fun i f => Function.update f i 0) e.fdom }
  symbol ext rate true e

/-- The constructor `Encoder::Encoder` (encode.cc:192-257) run on an object whose
members hold `e0`; `e0.pcm` is what the sink holds already. -/
def Encoder_ctor (ext : Ext α) (rate : Int) (e0 : Encoder α) (inp : Nat → Nat)
    (freq_off : Int) (call_sign : Nat) (oper_mode : Int) : Encoder α :=
  match Encoder_params ext rate freq_off oper_mode e0 with
  | none => { e0 with oper_mode := oper_mode }
  | some e =>
    let e := Encoder_preamble ext rate call_sign e
    let e := Encoder_coding ext inp e
    let e := Encoder_data ext rate e
    Encoder_tail ext rate call_sign e

/-! ## `main` (encode.cc:277-377) -/

/-- Lines 345-352 of `main`: the input buffer after reading and scrambling
`data_len` bytes; `heap` is the content of the fresh buffer.  `input_file i` is the
value of the `i`-th `get()` as an unsigned number (end of file, `-1`, is
`4294967295`) and `ext.scrambler i` the 32-bit value of the `i`-th `scrambler()`;
both stores go into a `uint8_t`, which keeps the low byte. -/
def read_input (ext : Ext α) (input_file heap : Nat → Nat) : Nat → Nat :=
  let code_len : Int := (64800 : Int).tdiv 8
  let data_len : Int := code_len - ((10 * 16 + 21600 : Int)).tdiv 8
  let input_data := forLoop 0 data_len
    (fun i b => Function.update b i.toNat (input_file i.toNat % 256)) heap
  forLoop 0 data_len
    (fun i b => Function.update b i.toNat ((b i.toNat ^^^ ext.scrambler i.toNat) % 256))
    input_data

/-- `main`: the exit code and the samples written to `OUTPUT`.  `input_bad` is the
result of `input_file.bad()`, `input_file` the values `get()` returns, `e0` the
members of the new `Encoder` object. -/
def main (ext : Ext α) (a : Args) (input_bad : Bool) (input_file heap : Nat → Nat)
    (e0 : Encoder α) : Int × List α :=
  match main_checks a with
  | none => (1, [])
  | some ck =>
    if input_bad then (1, [])
    else
      let input_data := read_input ext input_file heap
      let out : List α := List.replicate a.output_rate.toNat 0
      if a.output_rate = 8000 ∨ a.output_rate = 16000 ∨ a.output_rate = 44100 ∨
          a.output_rate = 48000 then
        let e := Encoder_ctor ext a.output_rate { e0 with pcm := out } input_data
          ck.freq_off ck.call_sign.toNat ck.oper_mode
        (0, e.pcm ++ List.replicate a.output_rate.toNat 0)
      else (1, out)


/-! ## Vocabulary for the statements -/

/-- The members `symbol` never writes: the coded bits, the frequency-domain buffer
and the frame parameters. -/
def kept (e : Encoder α) :=
  (e.code, e.bint, e.fdom, e.oper_mode, e.mod_bits, e.cons_cnt, e.code_cols, e.code_rows,
    e.code_off, e.mls0_off, e.mls1_off)

/-- The frame parameters set by lines 204-231 of the constructor. -/
def params (e : Encoder α) :=
  (e.oper_mode, e.mod_bits, e.cons_cnt, e.code_cols, e.code_rows, e.code_off, e.mls0_off,
    e.mls1_off)

/-- State `e2` has written `n` more samples than `e1`, after those of `e1`. -/
def Appends (e1 e2 : Encoder α) (n : Nat) : Prop :=
  ∃ l : List α, e2.pcm = e1.pcm ++ l ∧ l.length = n

/-- The number of samples one call of `symbol` writes. -/
def symbol_samples (rate : Int) : Nat := (guard_len rate).toNat + (symbol_len rate).toNat

/-- The bandwidth of the mode table of the data model, in Hz. -/
def bandwidthHz (mode : Int) : Int :=
  if mode = 2 then 2700 else if mode = 3 then 2500 else if mode = 4 then 2500 else 2250

/-- The code rows of the four modes: `64800 / mod_bits / code_cols`. -/
def codeRows (mode : Int) : Int :=
  if mode = 2 then 50 else if mode = 3 then 54 else if mode = 4 then 81 else 90


/-- The frame parameters lines 206-231 of the constructor compute from the rate, the
frequency offset and the mode, in the order of `params`; `none` for a mode outside
the table. -/
def plan (rate freq_off oper_mode : Int) :
    Option (Int × Int × Int × Int × Int × Int × Int × Int) :=
  match mode_table oper_mode with
  | none => none
  | some (cols, bits) =>
    some (oper_mode, bits, ldpc_bits.tdiv bits, cols, (ldpc_bits.tdiv bits).tdiv cols,
      bin_offset rate freq_off - cols.tdiv 2, bin_offset rate freq_off - mls0_len + 1,
      bin_offset rate freq_off - mls1_len.tdiv 2)

/-- The encoder state `e` carries the frame parameters the constructor computes for
`rate`, `freq_off` and `oper_mode`. -/
def Planned (rate freq_off oper_mode : Int) (e : Encoder α) : Prop :=
  plan rate freq_off oper_mode = some (params e)

/-- The frequency offset passes the two tests of encode.cc:327-335 for the given
channel count, rate and mode. -/
def Accepted (chan rate mode freq_off : Int) : Prop :=
  ∃ bw, band_width mode = some bw ∧ freq_range_ok chan rate bw freq_off = true ∧
    freq_div_ok freq_off = true

/-! ## A concrete instance, for evaluating the model -/

/-- An instance of the external collaborators over the integers: identity
transforms, constant sequences. -/
def testExt : Ext Int where
  ofInt := fun x => x
  cmplx := fun re _ => re
  sqrt_ratio := fun _ _ => 1
  div_sqrt := fun x _ => x
  clip := fun x => x
  norm_nonzero := fun x => x != 0
  fft := fun _ _ f => f
  crossfade := fun _ _ _ b => b
  papr_stats := fun _ _ p => p
  mls := fun _ _ => false
  crc0 := fun _ => 0
  bchenc0 := fun _ _ => 0
  bchenc1 := fun _ _ _ => 0
  ldpcenc := fun _ _ => 1
  psk8 := fun _ => 1
  psk4 := fun _ => 1
  scrambler := fun _ => 0

/-- An `Encoder` object with all members zero and nothing written yet. -/
def testEncoder : Encoder Int where
  pcm := []
  code := fun _ => 0
  bint := fun _ => 0
  fdom := fun _ => 0
  fdom4 := fun _ => 0
  tdom := fun _ => 0
  tdom4 := fun _ => 0
  temp := fun _ => 0
  guard := fun _ => 0
  papr_min := 0
  papr_max := 0
  oper_mode := 0
  mod_bits := 0
  cons_cnt := 0
  code_cols := 0
  code_rows := 0
  code_off := 0
  mls0_off := 0
  mls1_off := 0

/-- The `Encoder` object `testEncoder` with the frame plan of rate 8000, offset
1350 Hz and mode 2. -/
def testPlanned : Encoder Int :=
  { testEncoder with
    oper_mode := 2, mod_bits := 3, cons_cnt := 21600, code_cols := 432, code_rows := 50,
    code_off := 0, mls0_off := 90, mls1_off := 89 }
/-! ## Vocabulary for the payload, the header codeword and scenario S1 -/

/-- `code_len` of encode.cc:345. -/
def code_len : Int := (64800 : Int).tdiv 8

/-- `data_len` of encode.cc:346. -/
def data_len : Int := code_len - ((10 * 16 + 21600 : Int)).tdiv 8

/-- Bit `i` of the 255-bit header codeword `meta_data` modulates (encode.cc:164-167):
the 71 bits of `data`, then the 184 bits of `parity`. -/
def header_bit (ext : Ext α) (md : Nat) (i : Nat) : Bool :=
  if i < 71 then get_be_bit (meta_info ext md) i
  else get_be_bit (ext.bchenc0 (meta_info ext md)) (i - 71)

/-- The command line of scenario S1: rate 8000, 16 bits, mono, offset 1350 Hz, call
sign `ANONYMOUS`, mode 2. -/
def scenarioS1 : Args := ⟨9, 8000, 16, 1, 1350, "ANONYMOUS".toList, 2⟩

/-! ## Lemmas on `base37_encoder` -/

theorem wrap64_id (x : Int) (h0 : -2 ^ 63 ≤ x) (h1 : x < 2 ^ 63) : wrap64 x = x := by
  unfold wrap64; omega

theorem digitValue_nonneg (c : Char) : 0 ≤ digitValue c := by
  unfold digitValue
  simp only [Char.reduceToNat]
  split_ifs <;> omega

theorem digitValue_le (c : Char) : digitValue c ≤ 36 := by
  unfold digitValue
  simp only [Char.reduceToNat]
  split_ifs <;> omega

theorem isCallChar_ne_nul {c : Char} (hc : isCallChar c) : c.toNat ≠ 0 := by
  unfold isCallChar at hc
  simp only [Char.reduceToNat] at hc
  rcases hc with h | h | h | h
  · omega
  · omega
  · omega
  · subst h; decide

theorem digitValue_space : digitValue ' ' = 0 := by decide

/-- One round of the loop on a character of the alphabet, when `37 * acc + 36` fits. -/
theorem base37_loop_cons (c : Char) (s : List Char) (acc : Int) (hc : isCallChar c)
    (h0 : 0 ≤ acc) (h1 : acc < 37 ^ 11) :
    base37_loop (c :: s) acc = base37_loop s (37 * acc + digitValue c) := by
  have hnul := isCallChar_ne_nul hc
  have hw : wrap64 (acc * 37) = 37 * acc := by
    rw [wrap64_id] <;> omega
  unfold isCallChar at hc
  unfold digitValue
  simp only [base37_loop, if_neg hnul, hw]
  simp only [Char.reduceToNat] at hc ⊢
  by_cases hd : 48 ≤ c.toNat ∧ c.toNat ≤ 57
  · rw [if_pos hd, if_pos hd, wrap64_id] <;> omega
  · rw [if_neg hd, if_neg hd]
    by_cases hl : 97 ≤ c.toNat ∧ c.toNat ≤ 122
    · rw [if_pos hl, if_pos hl, wrap64_id] <;> omega
    · rw [if_neg hl, if_neg hl]
      by_cases hu : 65 ≤ c.toNat ∧ c.toNat ≤ 90
      · rw [if_pos hu, if_pos hu, wrap64_id] <;> omega
      · rw [if_neg hu, if_neg hu]
        have hsp : c = ' ' := by
          rcases hc with h | h | h | h
          · exact absurd h hd
          · exact absurd h hl
          · exact absurd h hu
          · exact h
        simp [hsp]

/-- The loop on a string over the alphabet is the fold, as long as the value fits:
`acc < 37 ^ n` and at most `12 - n` characters remain. -/
theorem base37_loop_eq_foldl (s : List Char) :
    ∀ (acc : Int) (n : Nat), (∀ c ∈ s, isCallChar c) → 0 ≤ acc → acc < 37 ^ n →
      n + s.length ≤ 12 →
      base37_loop s acc = s.foldl (fun a c => 37 * a + digitValue c) acc ∧
        0 ≤ base37_loop s acc ∧ base37_loop s acc < 37 ^ (n + s.length) := by
  induction s with
  | nil =>
    intro acc n _ h0 h1 _
    simpa [base37_loop] using ⟨h0, h1⟩
  | cons c s ih =>
    intro acc n hs h0 h1 hlen
    have hc : isCallChar c := hs c (List.mem_cons_self c s)
    have hs2 : ∀ d ∈ s, isCallChar d := fun d hd => hs d (List.mem_cons_of_mem c hd)
    simp only [List.length_cons] at hlen
    have hn : n ≤ 11 := by omega
    have hpow : (37 : Int) ^ n ≤ 37 ^ 11 := pow_le_pow_right₀ (by norm_num) hn
    have hv0 := digitValue_nonneg c
    have hv1 := digitValue_le c
    rw [base37_loop_cons c s acc hc h0 (lt_of_lt_of_le h1 hpow)]
    have hstep : 37 * acc + digitValue c < 37 ^ (n + 1) := by
      rw [pow_succ]; omega
    have := ih (37 * acc + digitValue c) (n + 1) hs2 (by omega) hstep (by omega)
    simp only [List.foldl_cons, List.length_cons]
    have e : n + 1 + s.length = n + (s.length + 1) := by omega
    rw [e] at this
    exact this

/-- A character outside the alphabet makes the encoder return `-1`, whatever came
before it. -/
theorem base37_loop_invalid (s : List Char) :
    ∀ acc : Int, (∀ c ∈ s, c.toNat ≠ 0) → (∃ c ∈ s, ¬ isCallChar c) →
      base37_loop s acc = -1 := by
  induction s with
  | nil => intro acc _ h; simp at h
  | cons c s ih =>
    intro acc hnul hbad
    have hc0 : c.toNat ≠ 0 := hnul c (List.mem_cons_self c s)
    have hnul2 : ∀ d ∈ s, d.toNat ≠ 0 := fun d hd => hnul d (List.mem_cons_of_mem c hd)
    by_cases hc : isCallChar c
    · have hbad2 : ∃ d ∈ s, ¬ isCallChar d := by
        obtain ⟨d, hd, hdb⟩ := hbad
        rcases List.mem_cons.mp hd with h | h
        · subst h; exact absurd hc hdb
        · exact ⟨d, h, hdb⟩
      simp only [base37_loop, if_neg hc0]
      split_ifs
      · exact ih _ hnul2 hbad2
      · exact ih _ hnul2 hbad2
      · exact ih _ hnul2 hbad2
      · rfl
      · exact ih _ hnul2 hbad2
    · unfold isCallChar at hc
      simp only [not_or] at hc
      obtain ⟨h1, h2, h3, h4⟩ := hc
      simp only [base37_loop, if_neg hc0, if_neg h1, if_neg h2, if_neg h3]
      simp [h4]

theorem base37_loop_spaces (s : List Char) (hs : ∀ c ∈ s, c = ' ') :
    base37_loop s 0 = 0 := by
  induction s with
  | nil => rfl
  | cons c s ih =>
    have hc : c = ' ' := hs c (List.mem_cons_self c s)
    subst hc
    rw [base37_loop_cons ' ' s 0 (by decide) (by norm_num) (by norm_num)]
    simpa [digitValue_space] using ih (fun d hd => hs d (List.mem_cons_of_mem _ hd))

theorem foldl_digit_nonneg (s : List Char) :
    ∀ acc : Int, 0 ≤ acc → acc ≤ s.foldl (fun a c => 37 * a + digitValue c) acc := by
  induction s with
  | nil => intro acc _; simp
  | cons c s ih =>
    intro acc h0
    have hv0 := digitValue_nonneg c
    simp only [List.foldl_cons]
    exact le_trans (by omega) (ih (37 * acc + digitValue c) (by omega))

theorem foldl_digit_pos (s : List Char) :
    ∀ acc : Int, 0 ≤ acc → (0 < acc ∨ ∃ c ∈ s, 0 < digitValue c) →
      0 < s.foldl (fun a c => 37 * a + digitValue c) acc := by
  induction s with
  | nil =>
    intro acc _ h
    rcases h with h | ⟨c, hc, _⟩
    · simpa using h
    · simp at hc
  | cons c s ih =>
    intro acc h0 h
    have hv0 := digitValue_nonneg c
    simp only [List.foldl_cons]
    apply ih _ (by omega)
    rcases h with h | ⟨d, hd, hdv⟩
    · left; omega
    · rcases List.mem_cons.mp hd with e | e
      · subst e; left; omega
      · right; exact ⟨d, e, hdv⟩

theorem digitValue_pos {c : Char} (hc : isCallChar c) (hsp : c ≠ ' ') : 0 < digitValue c := by
  unfold isCallChar at hc
  unfold digitValue
  simp only [Char.reduceToNat] at hc ⊢
  rcases hc with h | h | h | h
  · rw [if_pos h]; omega
  · split_ifs <;> omega
  · split_ifs <;> omega
  · exact absurd h hsp

theorem toNat_ofNat_small (n : Nat) (h : n < 55296) : (Char.ofNat n).toNat = n := by
  unfold Char.ofNat
  have hv : n.isValidChar := Or.inl h
  rw [dif_pos hv]
  rfl

theorem digitValue_upperChar (c : Char) : digitValue (upperChar c) = digitValue c := by
  unfold upperChar
  simp only [Char.reduceToNat]
  by_cases hl : 97 ≤ c.toNat ∧ c.toNat ≤ 122
  · rw [if_pos hl]
    have ht : (Char.ofNat (c.toNat - 32)).toNat = c.toNat - 32 :=
      toNat_ofNat_small _ (by omega)
    unfold digitValue
    simp only [Char.reduceToNat, ht]
    split_ifs <;> omega
  · rw [if_neg hl]

theorem isCallChar_upperChar {c : Char} (hc : isCallChar c) : isCallChar (upperChar c) := by
  unfold upperChar
  simp only [Char.reduceToNat]
  by_cases hl : 97 ≤ c.toNat ∧ c.toNat ≤ 122
  · rw [if_pos hl]
    have ht : (Char.ofNat (c.toNat - 32)).toNat = c.toNat - 32 :=
      toNat_ofNat_small _ (by omega)
    unfold isCallChar
    simp only [Char.reduceToNat, ht]
    right; right; left; omega
  · rw [if_neg hl]; exact hc

theorem foldl_digit_upper (s : List Char) :
    ∀ acc : Int, (s.map upperChar).foldl (fun a c => 37 * a + digitValue c) acc =
      s.foldl (fun a c => 37 * a + digitValue c) acc := by
  induction s with
  | nil => intro acc; rfl
  | cons c s ih =>
    intro acc
    simp only [List.map_cons, List.foldl_cons, digitValue_upperChar]
    exact ih _

/-- The encoder on a string over the alphabet of at most 12 characters. -/
theorem base37_encoder_valid (s : List Char) (hs : ∀ c ∈ s, isCallChar c)
    (hlen : s.length ≤ 12) :
    base37_encoder s = base37_fold s ∧ 0 ≤ base37_encoder s ∧
      base37_encoder s < 37 ^ s.length := by
  have h := base37_loop_eq_foldl s 0 0 hs (le_refl 0) (by norm_num) (by omega)
  simpa [base37_encoder, base37_fold] using h

/-! ## Lemmas on loops -/

theorem loopN_zero {σ : Type} (lo : Int) (body : Int → σ → σ) (s : σ) :
    loopN 0 lo body s = s := rfl

theorem loopN_succ {σ : Type} (n : Nat) (lo : Int) (body : Int → σ → σ) (s : σ) :
    loopN (n + 1) lo body s = body (lo + (n : Int)) (loopN n lo body s) := by
  simp [loopN, List.range_succ, List.foldl_append]

/-- A loop of writes leaves every cell it never addresses as it was. -/
theorem loopN_update_other {β : Type} (n : Nat) (lo : Int) (f : Int → Int)
    (v : Int → (Int → β) → β) (a0 : Int → β) (x : Int)
    (hx : ∀ k : Nat, k < n → f (lo + (k : Int)) ≠ x) :
    loopN n lo (fun i a => Function.update a (f i) (v i a)) a0 x = a0 x := by
  induction n with
  | zero => rfl
  | succ n ih =>
    rw [loopN_succ]
    have h1 : x ≠ f (lo + (n : Int)) := fun h => hx n (Nat.lt_succ_self n) h.symm
    rw [Function.update_noteq h1]
    exact ih (fun k hk => hx k (Nat.lt_succ_of_lt hk))

/-- A loop that rewrites one cell per round, each round a different cell, applies to
every addressed cell the update of its round. -/
theorem loopN_update_same {β : Type} (n : Nat) (lo : Int) (f : Int → Int)
    (w : Int → β → β) (a0 : Int → β)
    (hinj : ∀ j k : Nat, j < n → k < n → f (lo + (j : Int)) = f (lo + (k : Int)) → j = k)
    (k : Nat) (hk : k < n) :
    loopN n lo (fun i a => Function.update a (f i) (w i (a (f i)))) a0 (f (lo + (k : Int))) =
      w (lo + (k : Int)) (a0 (f (lo + (k : Int)))) := by
  induction n with
  | zero => omega
  | succ n ih =>
    rw [loopN_succ]
    have hinj2 : ∀ j k : Nat, j < n → k < n → f (lo + (j : Int)) = f (lo + (k : Int)) → j = k :=
      fun j k hj hk2 h => hinj j k (Nat.lt_succ_of_lt hj) (Nat.lt_succ_of_lt hk2) h
    by_cases hkn : k = n
    · subst hkn
      rw [Function.update_same]
      congr 1
      exact loopN_update_other k lo f (fun i a => w i (a (f i))) a0 _
        (fun j hj h => absurd (hinj j k (Nat.lt_succ_of_lt hj) (Nat.lt_succ_self k) h)
          (Nat.ne_of_lt hj))
    · have hk2 : k < n := by omega
      have hne : f (lo + (k : Int)) ≠ f (lo + (n : Int)) := fun h =>
        hkn (hinj k n hk (Nat.lt_succ_self n) h)
      rw [Function.update_noteq hne]
      exact ih hinj2 hk2

/-- A loop that zeroes the cells `0 .. n-1`. -/
theorem loopN_zero_fill {β : Type} [Zero β] (n : Nat) (a0 : Int → β) (x : Int)
    (h0 : 0 ≤ x) (h1 : x < n) :
    loopN n 0 (fun i a => Function.update a i 0) a0 x = 0 := by
  have h := loopN_update_same n 0 (fun i => i) (fun _ _ => (0 : β)) a0
    (fun j k _ _ h => by simpa using h) x.toNat (by omega)
  have e : (0 : Int) + (x.toNat : Int) = x := by omega
  rw [e] at h
  exact h

/-! ## Frame conditions of `symbol` and `improve_papr` -/

theorem improve_papr_fdom (ext : Ext α) (rate : Int) (e : Encoder α) :
    (improve_papr ext rate e).fdom = e.fdom := rfl

theorem symbol_fdom (ext : Ext α) (rate : Int) (pr : Bool) (e : Encoder α) :
    (symbol ext rate pr e).fdom = e.fdom := by
  cases pr <;> rfl

theorem improve_papr_kept (ext : Ext α) (rate : Int) (e : Encoder α) :
    kept (improve_papr ext rate e) = kept e ∧ (improve_papr ext rate e).pcm = e.pcm := ⟨rfl, rfl⟩

theorem symbol_kept (ext : Ext α) (rate : Int) (pr : Bool) (e : Encoder α) :
    kept (symbol ext rate pr e) = kept e := by
  cases pr <;> rfl

theorem symbol_pcm (ext : Ext α) (rate : Int) (pr : Bool) (e : Encoder α) :
    ((symbol ext rate pr e).pcm).length =
      e.pcm.length + ((guard_len rate).toNat + (symbol_len rate).toNat) := by
  cases pr <;> simp [symbol, (improve_papr_kept _ _ _).2, Nat.add_assoc]

/-! ## Geometry of the supported rates -/

theorem symbol_len_values :
    symbol_len 8000 = 1280 ∧ symbol_len 16000 = 2560 ∧ symbol_len 44100 = 7056 ∧
      symbol_len 48000 = 7680 := by decide

theorem guard_len_values :
    guard_len 8000 = 160 ∧ guard_len 16000 = 320 ∧ guard_len 44100 = 882 ∧
      guard_len 48000 = 960 := by decide

/-! ## Samples written by the constructor -/

theorem Appends.trans {e1 e2 e3 : Encoder α} {m n : Nat} (h1 : Appends e1 e2 m)
    (h2 : Appends e2 e3 n) : Appends e1 e3 (m + n) := by
  obtain ⟨l1, p1, q1⟩ := h1
  obtain ⟨l2, p2, q2⟩ := h2
  exact ⟨l1 ++ l2, by rw [p2, p1, List.append_assoc], by simp [q1, q2]⟩

theorem Appends.of_eq {e1 e2 : Encoder α} (h : e2.pcm = e1.pcm) : Appends e1 e2 0 :=
  ⟨[], by simp [h], rfl⟩

theorem symbol_appends (ext : Ext α) (rate : Int) (pr : Bool) (e : Encoder α) :
    Appends e (symbol ext rate pr e) (symbol_samples rate) := by
  cases pr
  · exact ⟨_, by simp only [symbol, List.append_assoc]; rfl, by simp [symbol_samples]⟩
  · exact ⟨_, by simp only [symbol, List.append_assoc, (improve_papr_kept _ _ _).2]; rfl,
      by simp [symbol_samples]⟩

theorem symbol_params (ext : Ext α) (rate : Int) (pr : Bool) (e : Encoder α) :
    params (symbol ext rate pr e) = params e := by
  cases pr <;> rfl

theorem pilot_block_appends (ext : Ext α) (rate : Int) (e : Encoder α) :
    Appends e (pilot_block ext rate e) (symbol_samples rate) :=
  symbol_appends ext rate true (pilot_fill ext rate e)

theorem schmidl_cox_appends (ext : Ext α) (rate : Int) (e : Encoder α) :
    Appends e (schmidl_cox ext rate e) (symbol_samples rate) :=
  symbol_appends ext rate false (schmidl_cox_fill ext rate e)

theorem meta_data_appends (ext : Ext α) (rate : Int) (md : Nat) (e : Encoder α) :
    Appends e (meta_data ext rate md e) (symbol_samples rate) :=
  symbol_appends ext rate true (meta_fill ext rate md e)

theorem data_symbol_appends (ext : Ext α) (rate : Int) (j : Int) (e : Encoder α) :
    Appends e (data_symbol ext rate j e) (symbol_samples rate) :=
  symbol_appends ext rate true (data_fill ext rate j e)

theorem pilot_block_params (ext : Ext α) (rate : Int) (e : Encoder α) :
    params (pilot_block ext rate e) = params e :=
  symbol_params ext rate true (pilot_fill ext rate e)

theorem schmidl_cox_params (ext : Ext α) (rate : Int) (e : Encoder α) :
    params (schmidl_cox ext rate e) = params e :=
  symbol_params ext rate false (schmidl_cox_fill ext rate e)

theorem meta_data_params (ext : Ext α) (rate : Int) (md : Nat) (e : Encoder α) :
    params (meta_data ext rate md e) = params e :=
  symbol_params ext rate true (meta_fill ext rate md e)

theorem data_symbol_params (ext : Ext α) (rate : Int) (j : Int) (e : Encoder α) :
    params (data_symbol ext rate j e) = params e :=
  symbol_params ext rate true (data_fill ext rate j e)

theorem data_rows_succ (ext : Ext α) (rate : Int) (n : Nat) (e : Encoder α) :
    data_rows ext rate (n + 1) e = data_symbol ext rate (n : Int) (data_rows ext rate n e) := by
  unfold data_rows
  rw [loopN_succ]
  simp

theorem data_rows_params (ext : Ext α) (rate : Int) (n : Nat) (e : Encoder α) :
    params (data_rows ext rate n e) = params e := by
  induction n with
  | zero => rfl
  | succ n ih => rw [data_rows_succ, data_symbol_params, ih]

theorem data_rows_appends (ext : Ext α) (rate : Int) (n : Nat) (e : Encoder α) :
    Appends e (data_rows ext rate n e) (n * symbol_samples rate) := by
  induction n with
  | zero => exact ⟨[], by simp [data_rows, loopN], by simp⟩
  | succ n ih =>
    rw [data_rows_succ]
    have h := ih.trans (data_symbol_appends ext rate (n : Int) (data_rows ext rate n e))
    have e2 : n * symbol_samples rate + symbol_samples rate = (n + 1) * symbol_samples rate := by
      ring
    rw [e2] at h
    exact h

theorem Encoder_preamble_appends (ext : Ext α) (rate : Int) (cs : Nat) (e : Encoder α) :
    Appends e (Encoder_preamble ext rate cs e) (4 * symbol_samples rate) := by
  have h := (((pilot_block_appends ext rate e).trans
    (schmidl_cox_appends ext rate _)).trans
    (meta_data_appends ext rate (meta_word cs (schmidl_cox ext rate (pilot_block ext rate e)).oper_mode)
      _)).trans (pilot_block_appends ext rate _)
  have e4 : symbol_samples rate + symbol_samples rate + symbol_samples rate + symbol_samples rate
      = 4 * symbol_samples rate := by ring
  rw [e4] at h
  exact h

theorem Encoder_preamble_params (ext : Ext α) (rate : Int) (cs : Nat) (e : Encoder α) :
    params (Encoder_preamble ext rate cs e) = params e := by
  unfold Encoder_preamble
  simp only [pilot_block_params, meta_data_params, schmidl_cox_params]

theorem Encoder_coding_params (ext : Ext α) (inp : Nat → Nat) (e : Encoder α) :
    params (Encoder_coding ext inp e) = params e ∧ (Encoder_coding ext inp e).pcm = e.pcm ∧
      (Encoder_coding ext inp e).fdom = e.fdom := by
  unfold Encoder_coding interleave params
  exact ⟨rfl, rfl, rfl⟩

theorem Encoder_tail_appends (ext : Ext α) (rate : Int) (cs : Nat) (e : Encoder α) :
    Appends e (Encoder_tail ext rate cs e) (4 * symbol_samples rate) := by
  let e1 := schmidl_cox ext rate e
  let e2 := meta_data ext rate (meta_word cs e1.oper_mode) e1
  let e3 := pilot_block ext rate e2
  let e4 : Encoder α :=
    { e3 with fdom := forLoop 0 (symbol_len rate) (fun i f => Function.update f i 0) e3.fdom }
  have h1 : Appends e e1 _ := schmidl_cox_appends ext rate e
  have h2 : Appends e1 e2 _ := meta_data_appends ext rate _ e1
  have h3 : Appends e2 e3 _ := pilot_block_appends ext rate e2
  have h4 : Appends e3 e4 0 := Appends.of_eq rfl
  have h5 : Appends e4 (symbol ext rate true e4) _ := symbol_appends ext rate true e4
  have h := (((h1.trans h2).trans h3).trans h4).trans h5
  have e5 : symbol_samples rate + symbol_samples rate + symbol_samples rate + 0 +
      symbol_samples rate = 4 * symbol_samples rate := by ring
  rw [e5] at h
  exact h

theorem Encoder_tail_params (ext : Ext α) (rate : Int) (cs : Nat) (e : Encoder α) :
    params (Encoder_tail ext rate cs e) = params e := by
  let e1 := schmidl_cox ext rate e
  let e2 := meta_data ext rate (meta_word cs e1.oper_mode) e1
  let e3 := pilot_block ext rate e2
  let e4 : Encoder α :=
    { e3 with fdom := forLoop 0 (symbol_len rate) (fun i f => Function.update f i 0) e3.fdom }
  have h1 : params e1 = params e := schmidl_cox_params ext rate e
  have h2 : params e2 = params e1 := meta_data_params ext rate _ e1
  have h3 : params e3 = params e2 := pilot_block_params ext rate e2
  have h4 : params e4 = params e3 := by unfold params; rfl
  have h5 : params (symbol ext rate true e4) = params e4 := symbol_params ext rate true e4
  exact h5.trans (h4.trans (h3.trans (h2.trans h1)))

theorem validMode_of_ok {m : Int} (h : oper_mode_ok m = true) : validMode m := by
  unfold oper_mode_ok at h
  simp only [Bool.not_eq_true', Bool.or_eq_false_iff, decide_eq_false_iff_not, not_lt] at h
  unfold validMode
  omega

theorem oper_mode_ok_of_valid {m : Int} (h : validMode m) : oper_mode_ok m = true := by
  rcases h with rfl | rfl | rfl | rfl <;> decide

theorem band_width_valid {m : Int} (h : validMode m) : band_width m = some (bandwidthHz m) := by
  rcases h with rfl | rfl | rfl | rfl <;> decide

/-- What `main` has checked when it goes on to read the input. -/
theorem main_checks_eq_some (a : Args) (ck : Checked) :
    main_checks a = some ck ↔
      (6 ≤ a.argc ∧ a.argc ≤ 9 ∧ call_sign_ok (arg_call_sign a) = true ∧
        validMode (arg_oper_mode a) ∧
        freq_range_ok a.output_chan a.output_rate (bandwidthHz (arg_oper_mode a))
          (arg_freq_off a) = true ∧
        freq_div_ok (arg_freq_off a) = true ∧
        ck = ⟨arg_freq_off a, arg_call_sign a, arg_oper_mode a⟩) := by
  unfold main_checks
  constructor
  · intro h
    by_cases h1 : a.argc < 6 ∨ a.argc > 9
    · rw [if_pos h1] at h; cases h
    rw [if_neg h1] at h
    by_cases h2 : (!call_sign_ok (arg_call_sign a)) = true
    · rw [if_pos h2] at h; cases h
    rw [if_neg h2] at h
    by_cases h3 : (!oper_mode_ok (arg_oper_mode a)) = true
    · rw [if_pos h3] at h; cases h
    rw [if_neg h3] at h
    have h2 : call_sign_ok (arg_call_sign a) = true := by simpa using h2
    have h3 : oper_mode_ok (arg_oper_mode a) = true := by simpa using h3
    have hv := validMode_of_ok h3
    rw [band_width_valid hv] at h
    simp only at h
    by_cases h4 : (!freq_range_ok a.output_chan a.output_rate (bandwidthHz (arg_oper_mode a))
        (arg_freq_off a)) = true
    · rw [if_pos h4] at h; cases h
    rw [if_neg h4] at h
    by_cases h5 : (!freq_div_ok (arg_freq_off a)) = true
    · rw [if_pos h5] at h; cases h
    rw [if_neg h5] at h
    have h4 : freq_range_ok a.output_chan a.output_rate (bandwidthHz (arg_oper_mode a))
        (arg_freq_off a) = true := by simpa using h4
    have h5 : freq_div_ok (arg_freq_off a) = true := by simpa using h5
    exact ⟨by omega, by omega, h2, hv, h4, h5, (Option.some.inj h).symm⟩
  · rintro ⟨h1, h2, h3, h4, h5, h6, rfl⟩
    rw [if_neg (by omega), if_neg (by simp [h3]), if_neg (by simp [oper_mode_ok_of_valid h4]),
      band_width_valid h4]
    simp only
    rw [if_neg (by simp [h5]), if_neg (by simp [h6])]

/-- The frame plan the constructor computes for a valid mode. -/
theorem Encoder_params_valid (ext : Ext α) (rate freq_off mode : Int) (e0 : Encoder α)
    (hm : validMode mode) :
    ∃ ep, Encoder_params ext rate freq_off mode e0 = some ep ∧ ep.pcm = e0.pcm ∧
      ep.oper_mode = mode ∧ mode_table mode = some (ep.code_cols, ep.mod_bits) ∧
      ep.cons_cnt = ldpc_bits.tdiv ep.mod_bits ∧ ep.code_rows = ep.cons_cnt.tdiv ep.code_cols ∧
      ep.code_rows = codeRows mode ∧
      ep.code_off = bin_offset rate freq_off - ep.code_cols.tdiv 2 ∧
      ep.mls0_off = bin_offset rate freq_off - mls0_len + 1 ∧
      ep.mls1_off = bin_offset rate freq_off - mls1_len.tdiv 2 := by
  rcases hm with rfl | rfl | rfl | rfl <;>
    exact ⟨_, rfl, rfl, rfl, rfl, rfl, rfl, rfl, rfl, rfl, rfl⟩

/-- The samples the constructor writes for a valid mode: four preamble symbols, the
data symbols, four closing symbols. -/
theorem Encoder_ctor_appends (ext : Ext α) (rate : Int) (e0 : Encoder α) (inp : Nat → Nat)
    (freq_off : Int) (call_sign : Nat) (mode : Int) (hm : validMode mode) :
    params (Encoder_ctor ext rate e0 inp freq_off call_sign mode) =
        (mode, (Encoder_ctor ext rate e0 inp freq_off call_sign mode).mod_bits,
          ldpc_bits.tdiv (Encoder_ctor ext rate e0 inp freq_off call_sign mode).mod_bits,
          (Encoder_ctor ext rate e0 inp freq_off call_sign mode).code_cols, codeRows mode,
          bin_offset rate freq_off -
            (Encoder_ctor ext rate e0 inp freq_off call_sign mode).code_cols.tdiv 2,
          bin_offset rate freq_off - mls0_len + 1, bin_offset rate freq_off - mls1_len.tdiv 2) ∧
      mode_table mode = some ((Encoder_ctor ext rate e0 inp freq_off call_sign mode).code_cols,
        (Encoder_ctor ext rate e0 inp freq_off call_sign mode).mod_bits) ∧
      Appends e0 (Encoder_ctor ext rate e0 inp freq_off call_sign mode)
        ((8 + (codeRows mode).toNat) * symbol_samples rate) := by
  obtain ⟨ep, h1, hpcm, h2, h3, h4, h5, h6, h7, h8, h9⟩ :=
    Encoder_params_valid ext rate freq_off mode e0 hm
  unfold Encoder_ctor
  rw [h1]
  simp only
  let e1 := Encoder_preamble ext rate call_sign ep
  let e2 := Encoder_coding ext inp e1
  let e3 := Encoder_data ext rate e2
  have p1 : params e1 = params ep := Encoder_preamble_params ext rate call_sign ep
  have p2 : params e2 = params e1 := (Encoder_coding_params ext inp e1).1
  have p3 : params e3 = params e2 := data_rows_params ext rate _ e2
  have p4 : params (Encoder_tail ext rate call_sign e3) = params e3 :=
    Encoder_tail_params ext rate call_sign e3
  have pall : params (Encoder_tail ext rate call_sign e3) = params ep :=
    p4.trans (p3.trans (p2.trans p1))
  have hrows : e2.code_rows = codeRows mode := by
    have : params e2 = params ep := p2.trans p1
    have h := congrArg (fun p => p.2.2.2.2.1) this
    simp only [params] at h
    rw [h, h6]
  have a0 : Appends e0 ep 0 := Appends.of_eq hpcm
  have a1 : Appends ep e1 _ := Encoder_preamble_appends ext rate call_sign ep
  have a2 : Appends e1 e2 0 := Appends.of_eq (Encoder_coding_params ext inp e1).2.1
  have a3 : Appends e2 e3 _ := data_rows_appends ext rate e2.code_rows.toNat e2
  have a4 : Appends e3 (Encoder_tail ext rate call_sign e3) _ :=
    Encoder_tail_appends ext rate call_sign e3
  have a := (((a0.trans a1).trans a2).trans a3).trans a4
  rw [hrows] at a
  have en : 0 + 4 * symbol_samples rate + 0 + (codeRows mode).toNat * symbol_samples rate +
      4 * symbol_samples rate = (8 + (codeRows mode).toNat) * symbol_samples rate := by ring
  rw [en] at a
  have hfields := pall
  simp only [params, Prod.mk.injEq] at hfields
  obtain ⟨f1, f2, f3, f4, f5, f6, f7, f8⟩ := hfields
  refine ⟨?_, ?_, a⟩
  · simp only [params, Prod.mk.injEq]
    refine ⟨f1.trans h2, trivial, ?_, trivial, f5.trans h6, ?_, f7.trans h8, f8.trans h9⟩
    · rw [f3, f2, h4]
    · rw [f6, f4, h7]
  · rw [f4, f2]; exact h3

/-! ## Validation in `main` -/

theorem main_rejected (ext : Ext α) (a : Args) (input_bad : Bool) (input_file heap : Nat → Nat)
    (e0 : Encoder α) (h : main_checks a = none) :
    (main ext a input_bad input_file heap e0).1 = 1 := by
  unfold main
  rw [h]

theorem freq_div_ok_iff (f : Int) : freq_div_ok f = true ↔ 50 ∣ f := by
  have key : f.tmod 50 = 0 ↔ 50 ∣ f := ⟨Int.dvd_of_tmod_eq_zero, Int.tmod_eq_zero_of_dvd⟩
  rw [← key]
  unfold freq_div_ok
  by_cases h : f.tmod 50 = 0 <;> simp [h]

theorem freq_range_ok_iff (chan rate bw f : Int) (hr : 0 ≤ rate) (hb : 0 ≤ bw) :
    freq_range_ok chan rate bw f = true ↔
      ((chan = 1 → bw / 2 ≤ f) ∧ bw / 2 - rate / 2 ≤ f ∧ f ≤ rate / 2 - bw / 2) := by
  unfold freq_range_ok
  rw [Int.tdiv_eq_ediv hb (by norm_num), Int.tdiv_eq_ediv hr (by norm_num)]
  simp only [Bool.not_eq_true', Bool.or_eq_false_iff, Bool.and_eq_false_imp,
    decide_eq_true_eq, decide_eq_false_iff_not, not_lt]
  tauto

theorem call_sign_ok_iff (v : Int) : call_sign_ok v = true ↔ 0 < v ∧ v < 37 ^ 9 := by
  unfold call_sign_ok
  simp only [Bool.not_eq_true', Bool.or_eq_false_iff, decide_eq_false_iff_not, not_le, ge_iff_le]
  norm_num


/-- What `main` returns once the checks have passed, the input is readable and the
rate is supported. -/
theorem main_accepted (ext : Ext α) (a : Args) (input_file heap : Nat → Nat) (e0 : Encoder α)
    (ck : Checked) (hck : main_checks a = some ck) (hr : supportedRate a.output_rate) :
    main ext a false input_file heap e0 =
      (0, (Encoder_ctor ext a.output_rate
        { e0 with pcm := List.replicate a.output_rate.toNat 0 }
        (read_input ext input_file heap) ck.freq_off ck.call_sign.toNat ck.oper_mode).pcm ++
        List.replicate a.output_rate.toNat 0) := by
  unfold main
  rw [hck]
  simp only [Bool.false_eq_true, if_false]
  have hr2 : a.output_rate = 8000 ∨ a.output_rate = 16000 ∨ a.output_rate = 44100 ∨
      a.output_rate = 48000 := hr
  rw [if_pos hr2]

theorem symbol_samples_cast (rate : Int) (hr : supportedRate rate) :
    ((symbol_samples rate : Nat) : Int) = symbol_len rate + guard_len rate := by
  rcases hr with rfl | rfl | rfl | rfl <;> decide

theorem codeRows_cast (mode : Int) (hm : validMode mode) :
    (((codeRows mode).toNat : Nat) : Int) = codeRows mode := by
  rcases hm with rfl | rfl | rfl | rfl <;> decide

theorem rate_cast (rate : Int) (hr : supportedRate rate) : ((rate.toNat : Nat) : Int) = rate := by
  rcases hr with rfl | rfl | rfl | rfl <;> decide

/-- C1 (as amended): for a supported rate and a mode in {2,3,4,5}, every call of
`symbol` appends `guard_len + symbol_len` samples, the constructor appends the
samples of `8 + code_rows` symbols (four before and four after the data symbols), that
is `(8 + code_rows) * (symbol_len + guard_len)` samples, and a run of `main` that
passes the checks writes `2 * RATE` samples of silence plus that frame. -/
theorem C1_frame_length (ext : Ext α) (rate mode : Int) (hr : supportedRate rate)
    (hm : validMode mode) :
    (∀ (pr : Bool) (e : Encoder α), ∃ blk : List α,
        (symbol ext rate pr e).pcm = e.pcm ++ blk ∧
          (blk.length : Int) = guard_len rate + symbol_len rate) ∧
    (∀ (e0 : Encoder α) (inp : Nat → Nat) (freq_off : Int) (call_sign : Nat),
      ∃ frame : List α,
        (Encoder_ctor ext rate e0 inp freq_off call_sign mode).pcm = e0.pcm ++ frame ∧
        (Encoder_ctor ext rate e0 inp freq_off call_sign mode).code_rows = codeRows mode ∧
        (frame.length : Int) =
          (8 + (Encoder_ctor ext rate e0 inp freq_off call_sign mode).code_rows) *
            (symbol_len rate + guard_len rate)) ∧
    (∀ (a : Args) (input_file heap : Nat → Nat) (e0 : Encoder α),
      a.output_rate = rate → arg_oper_mode a = mode → main_checks a ≠ none →
        (main ext a false input_file heap e0).1 = 0 ∧
        ((main ext a false input_file heap e0).2.length : Int) =
          2 * rate + (8 + codeRows mode) * (symbol_len rate + guard_len rate)) := by
  have hs := symbol_samples_cast rate hr
  have hc := codeRows_cast mode hm
  refine ⟨?_, ?_, ?_⟩
  · intro pr e
    obtain ⟨blk, h1, h2⟩ := symbol_appends ext rate pr e
    refine ⟨blk, h1, ?_⟩
    rw [h2, hs]; ring
  · intro e0 inp freq_off call_sign
    obtain ⟨hp, _, frame, h1, h2⟩ :=
      Encoder_ctor_appends ext rate e0 inp freq_off call_sign mode hm
    have hrows : (Encoder_ctor ext rate e0 inp freq_off call_sign mode).code_rows =
        codeRows mode := by
      have h := congrArg (fun p => p.2.2.2.2.1) hp
      simpa [params] using h
    refine ⟨frame, h1, hrows, ?_⟩
    rw [h2, hrows]
    push_cast
    rw [hs, hc]
  · intro a input_file heap e0 hrate hmode hne
    obtain ⟨ck, hck⟩ := Option.ne_none_iff_exists'.mp hne
    have hmk : ck.oper_mode = mode := by
      have h := ((main_checks_eq_some a ck).mp hck).2.2.2.2.2.2
      rw [h]; exact hmode
    subst hrate
    rw [main_accepted ext a input_file heap e0 ck hck hr]
    refine ⟨rfl, ?_⟩
    obtain ⟨_, _, frame, h1, h2⟩ :=
      Encoder_ctor_appends ext a.output_rate
        { e0 with pcm := List.replicate a.output_rate.toNat 0 }
        (read_input ext input_file heap) ck.freq_off ck.call_sign.toNat ck.oper_mode
        (hmk ▸ hm)
    simp only at h1
    rw [h1, hmk] at *
    simp only [List.length_append, List.length_replicate, h2]
    push_cast
    rw [hs, hc, rate_cast _ hr]
    ring

/-- C1, witness: rate 8000, mode 2. -/
theorem C1_frame_length_witness :
    supportedRate 8000 ∧ validMode 2 ∧
      ∃ frame : List Int,
        (Encoder_ctor testExt 8000 testEncoder (fun _ => 0) 1350 1 2).pcm =
          testEncoder.pcm ++ frame ∧
        (Encoder_ctor testExt 8000 testEncoder (fun _ => 0) 1350 1 2).code_rows = codeRows 2 ∧
        (frame.length : Int) =
          (8 + (Encoder_ctor testExt 8000 testEncoder (fun _ => 0) 1350 1 2).code_rows) *
            (symbol_len 8000 + guard_len 8000) :=
  ⟨by decide, by decide,
    (C1_frame_length testExt 8000 2 (by decide) (by decide)).2.1 testEncoder (fun _ => 0) 1350 1⟩

/-- C1, counterexample: at rate 8000 and mode 2 (50 data rows) the constructor does
not write the samples of `9 + code_rows` symbols: it writes those of 58 symbols,
83520 samples, where the claim has 59 symbols, 84960 samples. -/
theorem C1_counterexample :
    ¬ ∃ frame : List Int,
        (Encoder_ctor testExt 8000 testEncoder (fun _ => 0) 1350 1 2).pcm =
          testEncoder.pcm ++ frame ∧
        (frame.length : Int) =
          (9 + (Encoder_ctor testExt 8000 testEncoder (fun _ => 0) 1350 1 2).code_rows) *
            (symbol_len 8000 + guard_len 8000) := by
  rintro ⟨frame, h1, h2⟩
  obtain ⟨hp, _, frame2, g1, g2⟩ :=
    Encoder_ctor_appends testExt 8000 testEncoder (fun _ => 0) 1350 1 2 (by decide)
  have hrows : (Encoder_ctor testExt 8000 testEncoder (fun _ => 0) 1350 1 2).code_rows =
      codeRows 2 := by
    have h := congrArg (fun p => p.2.2.2.2.1) hp
    simpa [params] using h
  have hf : frame = frame2 := List.append_cancel_left (h1.symm.trans g1)
  rw [hrows, hf, g2] at h2
  revert h2
  decide

/-! ## The interleaver -/

theorem Encoder_params_planned (ext : Ext α) (rate freq_off mode : Int) (e0 ep : Encoder α)
    (h : Encoder_params ext rate freq_off mode e0 = some ep) : Planned rate freq_off mode ep := by
  unfold Encoder_params at h
  unfold Planned plan
  cases hmt : mode_table mode with
  | none => rw [hmt] at h; cases h
  | some cb =>
    obtain ⟨cols, bits⟩ := cb
    rw [hmt] at h
    simp only at h
    have h2 := Option.some.inj h
    rw [← h2]
    rfl

/-- The values of the mode-dependent parameters in a planned state. -/
theorem Planned.values {rate freq_off mode : Int} {e : Encoder α}
    (h : Planned rate freq_off mode e) (hm : validMode mode) :
    e.oper_mode = mode ∧
    ((mode = 2 ∧ e.mod_bits = 3 ∧ e.cons_cnt = 21600 ∧ e.code_cols = 432 ∧ e.code_rows = 50) ∨
      (mode = 3 ∧ e.mod_bits = 3 ∧ e.cons_cnt = 21600 ∧ e.code_cols = 400 ∧ e.code_rows = 54) ∨
      (mode = 4 ∧ e.mod_bits = 2 ∧ e.cons_cnt = 32400 ∧ e.code_cols = 400 ∧ e.code_rows = 81) ∨
      (mode = 5 ∧ e.mod_bits = 2 ∧ e.cons_cnt = 32400 ∧ e.code_cols = 360 ∧ e.code_rows = 90)) ∧
    e.code_off = bin_offset rate freq_off - e.code_cols.tdiv 2 ∧
    e.mls0_off = bin_offset rate freq_off - 126 ∧
    e.mls1_off = bin_offset rate freq_off - 127 := by
  unfold Planned at h
  rcases hm with rfl | rfl | rfl | rfl
  all_goals
    have h2 := Option.some.inj h
    simp only [params, Prod.mk.injEq] at h2
    obtain ⟨f1, f2, f3, f4, f5, f6, f7, f8⟩ := h2
    rw [← f1, ← f2, ← f3, ← f4, ← f5, ← f6, ← f7, ← f8]
    refine ⟨rfl, by decide, rfl, ?_, ?_⟩
    · rw [show mls0_len = 127 from rfl]; omega
    · rw [show mls1_len.tdiv 2 = 127 from rfl]

/-- The nested loops of `interleave`, for `mod_bits` 2 or 3: cell `mod_bits * i + k`
ends up holding `code[cons_cnt * k + i]`. -/
theorem interleave_loop (mb : Int) (m : Nat) (hm : mb = (m : Int)) (h23 : m = 2 ∨ m = 3)
    (cc : Int) (code b0 : Int → Int) (n : Nat) :
    ∀ (i k : Nat), i < n → k < m →
      loopN n 0
        (fun i b => loopN m 0
          (fun k b => Function.update b (mb * i + k) (code (cc * k + i))) b) b0
        (mb * (i : Int) + (k : Int)) = code (cc * (k : Int) + (i : Int)) := by
  induction n with
  | zero => intro i k hi; omega
  | succ n ih =>
    intro i k hi hk
    rw [loopN_succ]
    by_cases hin : i = n
    · subst hin
      have h := loopN_update_same m 0 (fun k => mb * ((0 : Int) + (i : Int)) + k)
        (fun k _ => code (cc * k + ((0 : Int) + (i : Int))))
        (loopN i 0
          (fun i b => loopN m 0
            (fun k b => Function.update b (mb * i + k) (code (cc * k + i))) b) b0)
        (fun j k _ _ h => by simp only at h; omega) k hk
      simp only [zero_add] at h ⊢
      exact h
    · have hlt : i < n := by omega
      have h := loopN_update_other m 0 (fun k => mb * ((0 : Int) + (n : Int)) + k)
        (fun k _ => code (cc * k + ((0 : Int) + (n : Int))))
        (loopN n 0
          (fun i b => loopN m 0
            (fun k b => Function.update b (mb * i + k) (code (cc * k + i))) b) b0)
        (mb * (i : Int) + (k : Int))
        (fun j hj => by
          simp only [zero_add]
          rcases h23 with h2 | h3
          · subst h2; subst hm; push_cast; omega
          · subst h3; subst hm; push_cast; omega)
      simp only [zero_add] at h ⊢
      rw [h]
      exact ih i k hlt hk

/-- C2: for every mode in {2,3,4,5}, `interleave` permutes the 64800 coded bits:
`bint[mod_bits*i + k] = code[cons_cnt*k + i]` for `i` in `[0, cons_cnt)` and `k` in
`[0, mod_bits)`, and both index maps are bijections from those pairs onto
`[0, 64800)`, so each cell of `bint` is written once and each coded bit appears
once. -/
theorem C2_interleave_permutation (rate freq_off mode : Int) (e : Encoder α)
    (hm : validMode mode) (hp : Planned rate freq_off mode e) :
    (∀ i k : Int, 0 ≤ i → i < e.cons_cnt → 0 ≤ k → k < e.mod_bits →
      (interleave e).bint (e.mod_bits * i + k) = e.code (e.cons_cnt * k + i)) ∧
    (interleave e).code = e.code ∧
    (∀ i k : Int, 0 ≤ i → i < e.cons_cnt → 0 ≤ k → k < e.mod_bits →
      (0 ≤ e.mod_bits * i + k ∧ e.mod_bits * i + k < 64800) ∧
        (0 ≤ e.cons_cnt * k + i ∧ e.cons_cnt * k + i < 64800)) ∧
    (∀ i k i2 k2 : Int, 0 ≤ i → i < e.cons_cnt → 0 ≤ k → k < e.mod_bits →
      0 ≤ i2 → i2 < e.cons_cnt → 0 ≤ k2 → k2 < e.mod_bits →
      (e.mod_bits * i + k = e.mod_bits * i2 + k2 → i = i2 ∧ k = k2) ∧
        (e.cons_cnt * k + i = e.cons_cnt * k2 + i2 → i = i2 ∧ k = k2)) ∧
    (∀ p : Int, 0 ≤ p → p < 64800 →
      (∃ i k : Int, 0 ≤ i ∧ i < e.cons_cnt ∧ 0 ≤ k ∧ k < e.mod_bits ∧
        e.mod_bits * i + k = p) ∧
      (∃ i k : Int, 0 ≤ i ∧ i < e.cons_cnt ∧ 0 ≤ k ∧ k < e.mod_bits ∧
        e.cons_cnt * k + i = p)) := by
  obtain ⟨_, hv, _⟩ := hp.values hm
  have hcase : (e.mod_bits = 3 ∧ e.cons_cnt = 21600) ∨ (e.mod_bits = 2 ∧ e.cons_cnt = 32400) := by
    rcases hv with h | h | h | h
    · exact Or.inl ⟨h.2.1, h.2.2.1⟩
    · exact Or.inl ⟨h.2.1, h.2.2.1⟩
    · exact Or.inr ⟨h.2.1, h.2.2.1⟩
    · exact Or.inr ⟨h.2.1, h.2.2.1⟩
  refine ⟨?_, rfl, ?_, ?_, ?_⟩
  · intro i k hi0 hi1 hk0 hk1
    have hbint : (interleave e).bint = forLoop 0 e.cons_cnt
        (fun i b => forLoop 0 e.mod_bits
          (fun k b => Function.update b (e.mod_bits * i + k) (e.code (e.cons_cnt * k + i))) b)
        e.bint := rfl
    rw [hbint]
    unfold forLoop
    have hmb : e.mod_bits = ((e.mod_bits - 0).toNat : Int) := by omega
    have h := interleave_loop e.mod_bits (e.mod_bits - 0).toNat hmb
      (by rcases hcase with h | h <;> rw [h.1] <;> decide)
      e.cons_cnt e.code e.bint (e.cons_cnt - 0).toNat i.toNat k.toNat (by omega) (by omega)
    have ei : ((i.toNat : Nat) : Int) = i := by omega
    have ek : ((k.toNat : Nat) : Int) = k := by omega
    rw [ei, ek] at h
    exact h
  · intro i k hi0 hi1 hk0 hk1
    generalize e.mod_bits = mb at *
    generalize e.cons_cnt = cc at *
    rcases hcase with ⟨h1, h2⟩ | ⟨h1, h2⟩ <;> subst h1 <;> subst h2 <;> omega
  · intro i k i2 k2 hi0 hi1 hk0 hk1 hj0 hj1 hl0 hl1
    generalize e.mod_bits = mb at *
    generalize e.cons_cnt = cc at *
    rcases hcase with ⟨h1, h2⟩ | ⟨h1, h2⟩ <;> subst h1 <;> subst h2 <;> constructor <;>
      intro heq <;> omega
  · intro p hp0 hp1
    rcases hcase with h | h <;> rw [h.1, h.2]
    · exact ⟨⟨p / 3, p % 3, by omega, by omega, by omega, by omega, by omega⟩,
        ⟨p % 21600, p / 21600, by omega, by omega, by omega, by omega, by omega⟩⟩
    · exact ⟨⟨p / 2, p % 2, by omega, by omega, by omega, by omega, by omega⟩,
        ⟨p % 32400, p / 32400, by omega, by omega, by omega, by omega, by omega⟩⟩

/-- C2, witness: the frame plan of rate 8000, offset 1350 Hz, mode 2. -/
theorem C2_interleave_permutation_witness :
    validMode 2 ∧ Planned 8000 1350 2 testPlanned ∧
      (∀ i k : Int, 0 ≤ i → i < testPlanned.cons_cnt → 0 ≤ k → k < testPlanned.mod_bits →
        (interleave testPlanned).bint (testPlanned.mod_bits * i + k) =
          testPlanned.code (testPlanned.cons_cnt * k + i)) :=
  ⟨by decide, by rfl,
    (C2_interleave_permutation 8000 1350 2 testPlanned (by decide) (by rfl)).1⟩

theorem Planned.of_params {rate freq_off mode : Int} {e e2 : Encoder α}
    (h : Planned rate freq_off mode e) (hp : params e2 = params e) :
    Planned rate freq_off mode e2 := by
  unfold Planned at h ⊢
  rw [hp]; exact h


/-! ## Carriers and bins -/

theorem main_checks_accepted (a : Args) (ck : Checked) (h : main_checks a = some ck) :
    Accepted a.output_chan a.output_rate ck.oper_mode ck.freq_off ∧ validMode ck.oper_mode := by
  obtain ⟨_, _, _, hv, h5, h6, rfl⟩ := (main_checks_eq_some a ck).mp h
  exact ⟨⟨_, band_width_valid hv, h5, h6⟩, hv⟩

theorem bin_offset_mul50 (rate q : Int) (hr : supportedRate rate) :
    bin_offset rate (50 * q) = 8 * q := by
  unfold bin_offset
  rcases hr with rfl | rfl | rfl | rfl
  · rw [symbol_len_values.1, show 50 * q * 1280 = 8 * q * 8000 by ring]
    exact Int.mul_tdiv_cancel _ (by norm_num)
  · rw [symbol_len_values.2.1, show 50 * q * 2560 = 8 * q * 16000 by ring]
    exact Int.mul_tdiv_cancel _ (by norm_num)
  · rw [symbol_len_values.2.2.1, show 50 * q * 7056 = 8 * q * 44100 by ring]
    exact Int.mul_tdiv_cancel _ (by norm_num)
  · rw [symbol_len_values.2.2.2, show 50 * q * 7680 = 8 * q * 48000 by ring]
    exact Int.mul_tdiv_cancel _ (by norm_num)

/-- The numbers behind an accepted offset: `freq_off = 50 * q`, the bin offset is
`8 * q`, and `25 * symbol_len = 4 * rate` turns the test of `main` into bounds on
the bin offset. -/
theorem Accepted.bounds {chan rate mode freq_off : Int}
    (h : Accepted chan rate mode freq_off) (hr : supportedRate rate) (hm : validMode mode) :
    ∃ q : Int, freq_off = 50 * q ∧ bin_offset rate freq_off = 8 * q ∧
      bandwidthHz mode / 2 - rate / 2 ≤ 50 * q ∧ 50 * q ≤ rate / 2 - bandwidthHz mode / 2 ∧
      (chan = 1 → bandwidthHz mode / 2 ≤ 50 * q) := by
  obtain ⟨bw, hbw, h1, h2⟩ := h
  rw [band_width_valid hm] at hbw
  have hbw2 := Option.some.inj hbw
  subst hbw2
  have hr0 : 0 ≤ rate := by
    rcases hr with h | h | h | h <;> rw [h] <;> norm_num
  have hb0 : 0 ≤ bandwidthHz mode := by
    rcases hm with h | h | h | h <;> rw [h] <;> decide
  rw [freq_range_ok_iff _ _ _ _ hr0 hb0] at h1
  rw [freq_div_ok_iff] at h2
  obtain ⟨q, rfl⟩ := h2
  exact ⟨q, rfl, bin_offset_mul50 rate q hr, h1.2.1, h1.2.2, h1.1⟩

theorem symbol_len_pos (rate : Int) (hr : supportedRate rate) :
    0 < symbol_len rate ∧ symbol_len rate % 2 = 0 ∧ 1280 ≤ symbol_len rate := by
  rcases hr with rfl | rfl | rfl | rfl <;> decide

theorem bin_of_nonneg (rate x : Int) (h0 : 0 ≤ x) (h1 : x < symbol_len rate) :
    bin rate x = x := by
  unfold bin
  rw [Int.tmod_eq_emod (by omega) (by omega), Int.add_emod_self, Int.emod_eq_of_lt h0 h1]

theorem bin_of_neg (rate x : Int) (h0 : -symbol_len rate ≤ x) (h1 : x < 0) :
    bin rate x = x + symbol_len rate := by
  unfold bin
  rw [Int.tmod_eq_emod (by omega) (by omega), Int.emod_eq_of_lt (by omega) (by omega)]

/-- On the carriers `-symbol_len ≤ x < symbol_len`, `bin` is `x` or `x + symbol_len`. -/
theorem bin_cases (rate x : Int) (h0 : -symbol_len rate ≤ x) (h1 : x < symbol_len rate) :
    (0 ≤ x ∧ bin rate x = x) ∨ (x < 0 ∧ bin rate x = x + symbol_len rate) := by
  by_cases hx : 0 ≤ x
  · exact Or.inl ⟨hx, bin_of_nonneg rate x hx h1⟩
  · exact Or.inr ⟨by omega, bin_of_neg rate x h0 (by omega)⟩

/-- The frame plan of an accepted offset: the bin offset is a multiple of 8 and the
data band lies within the carriers `[-symbol_len/2, symbol_len/2)`. -/
theorem band_bounds {chan rate mode freq_off : Int} {e : Encoder α}
    (hr : supportedRate rate) (hm : validMode mode) (ha : Accepted chan rate mode freq_off)
    (hp : Planned rate freq_off mode e) :
    ∃ q : Int, bin_offset rate freq_off = 8 * q ∧
      e.code_off = 8 * q - e.code_cols / 2 ∧ e.mls0_off = 8 * q - 126 ∧
      e.mls1_off = 8 * q - 127 ∧ 360 ≤ e.code_cols ∧ e.code_cols ≤ 432 ∧
      e.code_cols % 2 = 0 ∧
      -(symbol_len rate / 2) ≤ e.code_off ∧
      e.code_off + e.code_cols ≤ symbol_len rate / 2 := by
  obtain ⟨q, _, hq, hb1, hb2, _⟩ := ha.bounds hr hm
  obtain ⟨_, hv, h1, h2, h3⟩ := hp.values hm
  rw [hq] at h1 h2 h3
  refine ⟨q, hq, ?_, h2, h3, ?_⟩
  · rcases hv with h | h | h | h <;>
      rw [h1, Int.tdiv_eq_ediv (by rw [h.2.2.2.1]; norm_num) (by norm_num)]
  · generalize e.code_cols = cols at *
    generalize e.code_off = off at *
    rcases hv with ⟨rfl, _, _, rfl, _⟩ | ⟨rfl, _, _, rfl, _⟩ | ⟨rfl, _, _, rfl, _⟩ |
        ⟨rfl, _, _, rfl, _⟩ <;>
      rcases hr with rfl | rfl | rfl | rfl <;>
      simp only [symbol_len_values.1, symbol_len_values.2.1, symbol_len_values.2.2.1,
        symbol_len_values.2.2.2, show bandwidthHz 2 = 2700 from rfl,
        show bandwidthHz 3 = 2500 from rfl, show bandwidthHz 4 = 2500 from rfl,
        show bandwidthHz 5 = 2250 from rfl, show (432 : Int).tdiv 2 = 216 from rfl,
        show (400 : Int).tdiv 2 = 200 from rfl, show (360 : Int).tdiv 2 = 180 from rfl]
        at hb1 hb2 h1 ⊢ <;>
      omega

/-! ## The data symbols -/

/-- The bins of the data band of an accepted offset are cells of `fdom`, one per
carrier. -/
theorem band_bins {chan rate mode freq_off : Int} {e : Encoder α}
    (hr : supportedRate rate) (hm : validMode mode) (ha : Accepted chan rate mode freq_off)
    (hp : Planned rate freq_off mode e) :
    (∀ c : Int, 0 ≤ c → c < e.code_cols →
      0 ≤ bin rate (c + e.code_off) ∧ bin rate (c + e.code_off) < symbol_len rate) ∧
    (∀ c d : Int, 0 ≤ c → c < e.code_cols → 0 ≤ d → d < e.code_cols →
      bin rate (c + e.code_off) = bin rate (d + e.code_off) → c = d) := by
  obtain ⟨q, _, _, _, _, _, _, _, hlo, hhi⟩ := band_bounds hr hm ha hp
  obtain ⟨hN, _, _⟩ := symbol_len_pos rate hr
  constructor
  · intro c hc0 hc1
    rcases bin_cases rate (c + e.code_off) (by omega) (by omega) with h | h <;> omega
  · intro c d hc0 hc1 hd0 hd1 heq
    rcases bin_cases rate (c + e.code_off) (by omega) (by omega) with h | h <;>
      rcases bin_cases rate (d + e.code_off) (by omega) (by omega) with h2 | h2 <;> omega

/-- Outside the data band the buffer of a pilot symbol is zero. -/
theorem pilot_fill_outside (ext : Ext α) (rate : Int) (e : Encoder α) (b : Int)
    (hb0 : 0 ≤ b) (hb1 : b < symbol_len rate)
    (hout : ∀ c : Int, 0 ≤ c → c < e.code_cols → b ≠ bin rate (c + e.code_off)) :
    (pilot_fill ext rate e).fdom b = 0 := by
  have hf : (pilot_fill ext rate e).fdom =
      loopN (e.code_off + e.code_cols - e.code_off).toNat e.code_off
        (fun i f => Function.update f (bin rate i)
          (ext.sqrt_ratio (symbol_len rate) e.code_cols *
            ext.ofInt (nrz (ext.mls mls2_poly (i - e.code_off).toNat))))
        (loopN (symbol_len rate - 0).toNat 0 (fun i f => Function.update f i 0) e.fdom) := rfl
  rw [hf]
  rw [loopN_update_other _ _ (fun i => bin rate i) (fun i _ =>
      ext.sqrt_ratio (symbol_len rate) e.code_cols *
        ext.ofInt (nrz (ext.mls mls2_poly (i - e.code_off).toNat)))]
  · exact loopN_zero_fill _ _ b hb0 (by omega)
  · intro k hk heq
    refine hout (k : Int) (by omega) (by omega) ?_
    rw [← heq]
    congr 1
    omega

theorem data_fill_inside (ext : Ext α) (rate : Int) (j : Int) (e : Encoder α)
    (hinj : ∀ c d : Int, 0 ≤ c → c < e.code_cols → 0 ≤ d → d < e.code_cols →
      bin rate (c + e.code_off) = bin rate (d + e.code_off) → c = d)
    (c : Int) (hc0 : 0 ≤ c) (hc1 : c < e.code_cols) :
    (data_fill ext rate j e).fdom (bin rate (c + e.code_off)) =
      e.fdom (bin rate (c + e.code_off)) *
        mod_map ext e.oper_mode (fun t => e.bint (e.mod_bits * (e.code_cols * j + c) + t)) := by
  have h := loopN_update_same (e.code_cols - 0).toNat 0 (fun i => bin rate (i + e.code_off))
    (fun i x => x *
      mod_map ext e.oper_mode (fun t => e.bint (e.mod_bits * (e.code_cols * j + i) + t)))
    e.fdom
    (fun a b ha hb hab => by
      have := hinj ((0 : Int) + (a : Int)) ((0 : Int) + (b : Int)) (by omega) (by omega)
        (by omega) (by omega) hab
      omega)
    c.toNat (by omega)
  have ec : (0 : Int) + ((c.toNat : Nat) : Int) = c := by omega
  rw [ec] at h
  exact h

theorem data_fill_outside (ext : Ext α) (rate : Int) (j : Int) (e : Encoder α) (b : Int)
    (hout : ∀ c : Int, 0 ≤ c → c < e.code_cols → b ≠ bin rate (c + e.code_off)) :
    (data_fill ext rate j e).fdom b = e.fdom b := by
  have h := loopN_update_other (e.code_cols - 0).toNat 0 (fun i => bin rate (i + e.code_off))
    (fun i f => f (bin rate (i + e.code_off)) *
      mod_map ext e.oper_mode (fun t => e.bint (e.mod_bits * (e.code_cols * j + i) + t)))
    e.fdom b
    (fun k hk heq => hout ((0 : Int) + (k : Int)) (by omega) (by omega) heq.symm)
  exact h

theorem data_symbol_kept (ext : Ext α) (rate : Int) (j : Int) (e : Encoder α) :
    (data_symbol ext rate j e).bint = e.bint ∧
      (data_symbol ext rate j e).fdom = (data_fill ext rate j e).fdom := by
  unfold data_symbol
  have h := symbol_kept ext rate true (data_fill ext rate j e)
  simp only [kept, Prod.mk.injEq] at h
  exact ⟨h.2.1, h.2.2.1⟩

theorem data_rows_bint (ext : Ext α) (rate : Int) (n : Nat) (e : Encoder α) :
    (data_rows ext rate n e).bint = e.bint := by
  induction n with
  | zero => rfl
  | succ n ih => rw [data_rows_succ, (data_symbol_kept ext rate _ _).1, ih]

/-- The buffer handed to `symbol` in data row `j`, after the pilot block run on `e`
and the coding of `inp`. -/
theorem data_rows_fdom_succ (ext : Ext α) (rate : Int) (n : Nat) (e : Encoder α) :
    (data_rows ext rate (n + 1) e).fdom =
      (data_fill ext rate (n : Int) (data_rows ext rate n e)).fdom := by
  rw [data_rows_succ, (data_symbol_kept ext rate _ _).2]

/-- C3: for every data row `j` in `[0, code_rows)` and column `c` in `[0, code_cols)`,
the value at `bin(c + code_off)` handed to `symbol` is the value that bin held in the
previous symbol's buffer (the preceding pilot block for `j = 0`, row `j - 1`
otherwise) times `mod_map` of the bits from `bint[mod_bits*(code_cols*j + c)]` on;
`symbol` and `improve_papr` leave `fdom`, the coded bits and the frame parameters as
they are, and the bins outside the data band are zero in every data symbol. -/
theorem C3_data_symbol_bins (ext : Ext α) (chan rate mode freq_off : Int)
    (inp : Nat → Nat) (e : Encoder α) (hr : supportedRate rate) (hm : validMode mode)
    (ha : Accepted chan rate mode freq_off) (hp : Planned rate freq_off mode e) :
    (∀ (pr : Bool) (x : Encoder α),
      (symbol ext rate pr x).fdom = x.fdom ∧ kept (symbol ext rate pr x) = kept x) ∧
    (∀ x : Encoder α,
      (improve_papr ext rate x).fdom = x.fdom ∧ kept (improve_papr ext rate x) = kept x) ∧
    (Encoder_coding ext inp (pilot_block ext rate e)).fdom = (pilot_fill ext rate e).fdom ∧
    (∀ c : Int, 0 ≤ c → c < e.code_cols →
      (data_fill ext rate 0
          (data_rows ext rate 0 (Encoder_coding ext inp (pilot_block ext rate e)))).fdom
          (bin rate (c + e.code_off)) =
        (pilot_fill ext rate e).fdom (bin rate (c + e.code_off)) *
          mod_map ext mode (fun t =>
            (Encoder_coding ext inp (pilot_block ext rate e)).bint
              (e.mod_bits * (e.code_cols * 0 + c) + t))) ∧
    (∀ (j : Nat) (c : Int), ((j : Int) + 1) < e.code_rows → 0 ≤ c → c < e.code_cols →
      (data_fill ext rate ((j : Int) + 1)
          (data_rows ext rate (j + 1) (Encoder_coding ext inp (pilot_block ext rate e)))).fdom
          (bin rate (c + e.code_off)) =
        (data_fill ext rate (j : Int)
          (data_rows ext rate j (Encoder_coding ext inp (pilot_block ext rate e)))).fdom
          (bin rate (c + e.code_off)) *
          mod_map ext mode (fun t =>
            (Encoder_coding ext inp (pilot_block ext rate e)).bint
              (e.mod_bits * (e.code_cols * ((j : Int) + 1) + c) + t))) ∧
    (∀ (j : Nat) (b : Int), (j : Int) < e.code_rows → 0 ≤ b → b < symbol_len rate →
      (∀ c : Int, 0 ≤ c → c < e.code_cols → b ≠ bin rate (c + e.code_off)) →
      (data_fill ext rate (j : Int)
          (data_rows ext rate j (Encoder_coding ext inp (pilot_block ext rate e)))).fdom b =
        0) := by
  have hpar1 : params (Encoder_coding ext inp (pilot_block ext rate e)) = params e :=
    (Encoder_coding_params ext inp _).1.trans (pilot_block_params ext rate e)
  have hfd1 : (Encoder_coding ext inp (pilot_block ext rate e)).fdom =
      (pilot_fill ext rate e).fdom :=
    (Encoder_coding_params ext inp _).2.2.trans (symbol_fdom ext rate true _)
  generalize he1 : Encoder_coding ext inp (pilot_block ext rate e) = e1 at *
  have hrows : ∀ n : Nat, params (data_rows ext rate n e1) = params e := fun n =>
    (data_rows_params ext rate n e1).trans hpar1
  have fields : ∀ n : Nat, (data_rows ext rate n e1).oper_mode = mode ∧
      (data_rows ext rate n e1).mod_bits = e.mod_bits ∧
      (data_rows ext rate n e1).code_cols = e.code_cols ∧
      (data_rows ext rate n e1).code_off = e.code_off ∧
      (data_rows ext rate n e1).bint = e1.bint := by
    intro n
    have h := hrows n
    simp only [params, Prod.mk.injEq] at h
    obtain ⟨f1, f2, _, f4, _, f6, _, _⟩ := h
    exact ⟨f1.trans (hp.values hm).1, f2, f4, f6, data_rows_bint ext rate n e1⟩
  have hbins := band_bins hr hm ha hp
  have inside : ∀ (n : Nat) (c : Int), 0 ≤ c → c < e.code_cols →
      (data_fill ext rate (n : Int) (data_rows ext rate n e1)).fdom (bin rate (c + e.code_off)) =
        (data_rows ext rate n e1).fdom (bin rate (c + e.code_off)) *
          mod_map ext mode (fun t => e1.bint (e.mod_bits * (e.code_cols * (n : Int) + c) + t)) := by
    intro n c hc0 hc1
    obtain ⟨g1, g2, g3, g4, g5⟩ := fields n
    have h := data_fill_inside ext rate (n : Int) (data_rows ext rate n e1)
      (by rw [g3, g4]; exact hbins.2) c hc0 (by rw [g3]; exact hc1)
    rw [g1, g2, g3, g4, g5] at h
    exact h
  have outside : ∀ (n : Nat) (b : Int),
      (∀ c : Int, 0 ≤ c → c < e.code_cols → b ≠ bin rate (c + e.code_off)) →
      (data_fill ext rate (n : Int) (data_rows ext rate n e1)).fdom b =
        (data_rows ext rate n e1).fdom b := by
    intro n b hout
    obtain ⟨_, _, g3, g4, _⟩ := fields n
    exact data_fill_outside ext rate (n : Int) (data_rows ext rate n e1) b
      (by rw [g3, g4]; exact hout)
  refine ⟨fun pr x => ⟨symbol_fdom ext rate pr x, symbol_kept ext rate pr x⟩,
    fun x => ⟨improve_papr_fdom ext rate x, (improve_papr_kept ext rate x).1⟩, hfd1, ?_, ?_, ?_⟩
  · intro c hc0 hc1
    have h := inside 0 c hc0 hc1
    have h0 : (data_rows ext rate 0 e1).fdom = (pilot_fill ext rate e).fdom := hfd1
    rw [h0] at h
    exact h
  · intro j c _ hc0 hc1
    have h := inside (j + 1) c hc0 hc1
    rw [data_rows_fdom_succ] at h
    push_cast at h
    exact h
  · intro j b hj hb0 hb1 hout
    clear hj
    induction j with
    | zero =>
      rw [outside 0 b hout]
      have h0 : (data_rows ext rate 0 e1).fdom = (pilot_fill ext rate e).fdom := hfd1
      rw [h0]
      exact pilot_fill_outside ext rate e b hb0 hb1 hout
    | succ n ih =>
      rw [outside (n + 1) b hout, data_rows_fdom_succ]
      exact ih

/-- C3, witness: rate 8000, mono, offset 1350 Hz, mode 2, first data row. -/
theorem C3_data_symbol_bins_witness :
    supportedRate 8000 ∧ validMode 2 ∧ Accepted 1 8000 2 1350 ∧
      Planned 8000 1350 2 testPlanned ∧
      (∀ c : Int, 0 ≤ c → c < testPlanned.code_cols →
        (data_fill testExt 8000 0
            (data_rows testExt 8000 0
              (Encoder_coding testExt (fun _ => 0) (pilot_block testExt 8000 testPlanned)))).fdom
            (bin 8000 (c + testPlanned.code_off)) =
          (pilot_fill testExt 8000 testPlanned).fdom (bin 8000 (c + testPlanned.code_off)) *
            mod_map testExt 2 (fun t =>
              (Encoder_coding testExt (fun _ => 0) (pilot_block testExt 8000 testPlanned)).bint
                (testPlanned.mod_bits * (testPlanned.code_cols * 0 + c) + t))) :=
  ⟨by decide, by decide, ⟨2700, by decide, by decide, by decide⟩, by rfl,
    (C3_data_symbol_bins testExt 1 8000 2 1350 (fun _ => 0) testPlanned (by decide) (by decide)
      ⟨2700, by decide, by decide, by decide⟩ (by rfl)).2.2.2.1⟩

/-! ## PAPR reduction -/

theorem bin4_of_nonneg (rate x : Int) (h0 : 0 ≤ x) (h1 : x < 4 * symbol_len rate) :
    bin4 rate x = x := by
  unfold bin4
  rw [Int.tmod_eq_emod (by omega) (by omega), Int.add_emod_self, Int.emod_eq_of_lt h0 h1]

theorem bin4_of_neg (rate x : Int) (h0 : -(4 * symbol_len rate) ≤ x) (h1 : x < 0) :
    bin4 rate x = x + 4 * symbol_len rate := by
  unfold bin4
  rw [Int.tmod_eq_emod (by omega) (by omega), Int.emod_eq_of_lt (by omega) (by omega)]

/-- The bounds of the carrier loops of `improve_papr` for a supported rate. -/
theorem carrier_range (rate : Int) (hr : supportedRate rate) :
    (-symbol_len rate).tdiv 2 = -(symbol_len rate / 2) ∧
      (symbol_len rate).tdiv 2 = symbol_len rate / 2 ∧
      ((symbol_len rate).tdiv 2 - (-symbol_len rate).tdiv 2).toNat = (symbol_len rate).toNat ∧
      2 * (symbol_len rate / 2) = symbol_len rate ∧ 0 < symbol_len rate := by
  rcases hr with rfl | rfl | rfl | rfl <;> decide

/-- The last loop of `improve_papr`, one round. -/
theorem papr_round (ext : Ext α) (rate : Int) (f4 : Int → α) (n : Int) :
    (fun (i : Int) (t : Int → α) =>
      if ext.norm_nonzero (t (bin rate i)) then
        Function.update t (bin rate i) (ext.div_sqrt (f4 (bin4 rate i)) n)
      else Function.update t (bin rate i) 0) =
    (fun (i : Int) (t : Int → α) =>
      Function.update t (bin rate i)
        ((fun (i : Int) (x : α) =>
          if ext.norm_nonzero x then ext.div_sqrt (f4 (bin4 rate i)) n else 0) i
          (t (bin rate i)))) := by
  funext i t
  by_cases h : ext.norm_nonzero (t (bin rate i)) = true
  · simp only [h, if_true]
  · simp only [h, if_false]
    rfl

/-- The buffer `temp` after `improve_papr`, at the bin of carrier `k`. -/
theorem improve_papr_temp (ext : Ext α) (rate : Int) (e : Encoder α) (hr : supportedRate rate)
    (k : Int) (hk0 : -(symbol_len rate / 2) ≤ k) (hk1 : k < symbol_len rate / 2) :
    (improve_papr ext rate e).temp (bin rate k) =
      if ext.norm_nonzero (e.temp (bin rate k)) then
        ext.div_sqrt ((improve_papr ext rate e).fdom4 (bin4 rate k)) (4 * symbol_len rate)
      else 0 := by
  obtain ⟨c1, c2, c3, c4, c5⟩ := carrier_range rate hr
  have ht : (improve_papr ext rate e).temp =
      forLoop ((-symbol_len rate).tdiv 2) ((symbol_len rate).tdiv 2)
        (fun i t =>
          if ext.norm_nonzero (t (bin rate i)) then
            Function.update t (bin rate i)
              (ext.div_sqrt ((improve_papr ext rate e).fdom4 (bin4 rate i)) (4 * symbol_len rate))
          else Function.update t (bin rate i) 0) e.temp := rfl
  rw [ht]
  unfold forLoop
  rw [papr_round, c3, c1]
  have h := loopN_update_same (symbol_len rate).toNat (-(symbol_len rate / 2))
    (fun i => bin rate i)
    (fun (i : Int) (x : α) =>
      if ext.norm_nonzero x then
        ext.div_sqrt ((improve_papr ext rate e).fdom4 (bin4 rate i)) (4 * symbol_len rate)
      else 0) e.temp
    (fun a b ha hb hab => by
      simp only at hab
      rcases bin_cases rate (-(symbol_len rate / 2) + (a : Int)) (by omega) (by omega) with h | h <;>
        rcases bin_cases rate (-(symbol_len rate / 2) + (b : Int)) (by omega) (by omega)
          with h2 | h2 <;> omega)
    (k + symbol_len rate / 2).toNat (by omega)
  have ek : -(symbol_len rate / 2) + (((k + symbol_len rate / 2).toNat : Nat) : Int) = k := by
    omega
  rw [ek] at h
  exact h

/-- C4: `improve_papr` overwrites only occupied bins.  For a supported rate, `bin` is
a bijection from the carriers `[-symbol_len/2, symbol_len/2)` onto
`[0, symbol_len)` and `bin4` is injective on them; for every bin `b`, with `k` the
carrier of `b`: if `temp[b]` was zero before the call it is zero after it, and
otherwise it is `fdom4[bin4(k)] / sqrt(4*symbol_len)`.  The test of the source is
`norm(temp[b])`, taken here to be non-zero exactly for non-zero values. -/
theorem C4_improve_papr_bins (ext : Ext α) (rate : Int) (e : Encoder α)
    (hr : supportedRate rate) (hnorm : ∀ x : α, ext.norm_nonzero x = true ↔ x ≠ 0) :
    ((-symbol_len rate).tdiv 2 = -(symbol_len rate / 2) ∧
      (symbol_len rate).tdiv 2 = symbol_len rate / 2) ∧
    (∀ k : Int, -(symbol_len rate / 2) ≤ k → k < symbol_len rate / 2 →
      0 ≤ bin rate k ∧ bin rate k < symbol_len rate) ∧
    (∀ k1 k2 : Int, -(symbol_len rate / 2) ≤ k1 → k1 < symbol_len rate / 2 →
      -(symbol_len rate / 2) ≤ k2 → k2 < symbol_len rate / 2 →
      (bin rate k1 = bin rate k2 → k1 = k2) ∧ (bin4 rate k1 = bin4 rate k2 → k1 = k2)) ∧
    (∀ b : Int, 0 ≤ b → b < symbol_len rate →
      ∃ k : Int, (-(symbol_len rate / 2) ≤ k ∧ k < symbol_len rate / 2 ∧ bin rate k = b) ∧
        (e.temp b = 0 → (improve_papr ext rate e).temp b = 0) ∧
        (e.temp b ≠ 0 →
          (improve_papr ext rate e).temp b =
            ext.div_sqrt ((improve_papr ext rate e).fdom4 (bin4 rate k))
              (4 * symbol_len rate))) := by
  obtain ⟨c1, c2, _, c4, c5⟩ := carrier_range rate hr
  have hbin : ∀ k : Int, -(symbol_len rate / 2) ≤ k → k < symbol_len rate / 2 →
      (0 ≤ k ∧ bin rate k = k ∧ bin4 rate k = k) ∨
        (k < 0 ∧ bin rate k = k + symbol_len rate ∧ bin4 rate k = k + 4 * symbol_len rate) := by
    intro k h0 h1
    by_cases hk : 0 ≤ k
    · exact Or.inl ⟨hk, bin_of_nonneg rate k hk (by omega), bin4_of_nonneg rate k hk (by omega)⟩
    · exact Or.inr ⟨by omega, bin_of_neg rate k (by omega) (by omega),
        bin4_of_neg rate k (by omega) (by omega)⟩
  refine ⟨⟨c1, c2⟩, ?_, ?_, ?_⟩
  · intro k h0 h1
    rcases hbin k h0 h1 with h | h <;> omega
  · intro k1 k2 h0 h1 g0 g1
    rcases hbin k1 h0 h1 with h | h <;> rcases hbin k2 g0 g1 with h2 | h2 <;>
      constructor <;> intro heq <;> omega
  · intro b hb0 hb1
    by_cases hb : b < symbol_len rate / 2
    · have hk : bin rate b = b := bin_of_nonneg rate b hb0 hb1
      have ht := improve_papr_temp ext rate e hr b (by omega) hb
      rw [hk] at ht
      refine ⟨b, ⟨by omega, hb, hk⟩, ?_, ?_⟩
      · intro hz
        rw [ht, if_neg (by rw [hnorm]; exact not_not.mpr hz)]
      · intro hnz
        rw [ht, if_pos ((hnorm _).mpr hnz)]
    · have hk : bin rate (b - symbol_len rate) = b := by
        rw [bin_of_neg rate _ (by omega) (by omega)]; omega
      have ht := improve_papr_temp ext rate e hr (b - symbol_len rate) (by omega) (by omega)
      rw [hk] at ht
      refine ⟨b - symbol_len rate, ⟨by omega, by omega, hk⟩, ?_, ?_⟩
      · intro hz
        rw [ht, if_neg (by rw [hnorm]; exact not_not.mpr hz)]
      · intro hnz
        rw [ht, if_pos ((hnorm _).mpr hnz)]

/-- C4, witness: rate 8000, the integer instance, whose test is `x ≠ 0`. -/
theorem C4_improve_papr_bins_witness :
    supportedRate 8000 ∧ (∀ x : Int, testExt.norm_nonzero x = true ↔ x ≠ 0) ∧
      (∀ b : Int, 0 ≤ b → b < symbol_len 8000 →
        ∃ k : Int, (-(symbol_len 8000 / 2) ≤ k ∧ k < symbol_len 8000 / 2 ∧ bin 8000 k = b) ∧
          (testEncoder.temp b = 0 → (improve_papr testExt 8000 testEncoder).temp b = 0) ∧
          (testEncoder.temp b ≠ 0 →
            (improve_papr testExt 8000 testEncoder).temp b =
              testExt.div_sqrt ((improve_papr testExt 8000 testEncoder).fdom4 (bin4 8000 k))
                (4 * symbol_len 8000))) :=
  ⟨by decide, fun x => by simp [testExt],
    (C4_improve_papr_bins testExt 8000 testEncoder (by decide)
      (fun x => by simp [testExt])).2.2.2⟩

/-! ## The sync symbol -/

/-- The carriers of the sync symbol of an accepted offset, `mls0_off + 2 * i` for
`-1 ≤ i < 127`, map to even cells of `fdom`, one per carrier. -/
theorem sync_bins {chan rate mode freq_off : Int} {e : Encoder α}
    (hr : supportedRate rate) (hm : validMode mode) (ha : Accepted chan rate mode freq_off)
    (hp : Planned rate freq_off mode e) :
    (∀ i : Int, -1 ≤ i → i < 127 →
      0 ≤ bin rate (2 * i + e.mls0_off) ∧ bin rate (2 * i + e.mls0_off) < symbol_len rate ∧
        bin rate (2 * i + e.mls0_off) % 2 = 0) ∧
    (∀ i j : Int, -1 ≤ i → i < 127 → -1 ≤ j → j < 127 →
      bin rate (2 * i + e.mls0_off) = bin rate (2 * j + e.mls0_off) → i = j) := by
  obtain ⟨q, _, hco, hm0, _, hc0, hc1, _, hlo, hhi⟩ := band_bounds hr hm ha hp
  obtain ⟨hN, hN2, _⟩ := symbol_len_pos rate hr
  constructor
  · intro i hi0 hi1
    rcases bin_cases rate (2 * i + e.mls0_off) (by omega) (by omega) with h | h <;> omega
  · intro i j hi0 hi1 hj0 hj1 heq
    rcases bin_cases rate (2 * i + e.mls0_off) (by omega) (by omega) with h | h <;>
      rcases bin_cases rate (2 * j + e.mls0_off) (by omega) (by omega) with h2 | h2 <;> omega

/-- A cell of `fdom` that is none of the bins of the sync carriers is zero in the
buffer of the sync symbol. -/
theorem schmidl_cox_fill_outside (ext : Ext α) (rate : Int) (e : Encoder α) (b : Int)
    (hb0 : 0 ≤ b) (hb1 : b < symbol_len rate)
    (hout : ∀ i : Int, -1 ≤ i → i < 127 → b ≠ bin rate (2 * i + e.mls0_off)) :
    (schmidl_cox_fill ext rate e).fdom b = 0 := by
  have hf : (schmidl_cox_fill ext rate e).fdom =
      loopN (mls0_len - 0).toNat 0
        (fun i f => Function.update f (bin rate (2 * i + e.mls0_off))
          (f (bin rate (2 * i + e.mls0_off)) * f (bin rate (2 * (i - 1) + e.mls0_off))))
        (loopN (mls0_len - 0).toNat 0
          (fun i f => Function.update f (bin rate (2 * i + e.mls0_off))
            (ext.ofInt (nrz (ext.mls mls0_poly i.toNat))))
          (Function.update
            (loopN (symbol_len rate - 0).toNat 0 (fun i f => Function.update f i 0) e.fdom)
            (bin rate (e.mls0_off - 2)) (ext.sqrt_ratio (2 * symbol_len rate) mls0_len))) := by
    simp only [schmidl_cox_fill, forLoop]
  rw [hf, show (mls0_len - 0).toNat = 127 by decide]
  have hk : ∀ k : Nat, k < 127 → bin rate (2 * ((0 : Int) + (k : Int)) + e.mls0_off) ≠ b :=
    fun k hk heq => hout ((0 : Int) + (k : Int)) (by omega) (by omega) heq.symm
  rw [loopN_update_other 127 0 (fun i => bin rate (2 * i + e.mls0_off))
    (fun i f => f (bin rate (2 * i + e.mls0_off)) * f (bin rate (2 * (i - 1) + e.mls0_off)))
    _ b hk]
  rw [loopN_update_other 127 0 (fun i => bin rate (2 * i + e.mls0_off))
    (fun i _ => ext.ofInt (nrz (ext.mls mls0_poly i.toNat))) _ b hk]
  have ha : b ≠ bin rate (e.mls0_off - 2) := by
    have h := hout (-1) (by omega) (by omega)
    have e2 : 2 * (-1 : Int) + e.mls0_off = e.mls0_off - 2 := by omega
    rw [e2] at h
    exact h
  rw [Function.update_noteq ha]
  exact loopN_zero_fill _ _ b hb0 (by omega)

/-- C5: for every supported rate and every frequency offset that passes the checks of
`main`, the buffer built by `schmidl_cox` has every odd-indexed bin zero: the
anchor carrier `mls0_off - 2` and the 127 carriers `mls0_off + 2*i` all map through
`bin` to even cells of `fdom`, and these are 128 distinct bins. -/
theorem C5_schmidl_cox_odd_bins (ext : Ext α) (chan rate mode freq_off : Int)
    (e : Encoder α) (hr : supportedRate rate) (hm : validMode mode)
    (ha : Accepted chan rate mode freq_off) (hp : Planned rate freq_off mode e) :
    (schmidl_cox ext rate e).fdom = (schmidl_cox_fill ext rate e).fdom ∧
    (∀ b : Int, 0 ≤ b → b < symbol_len rate → b % 2 = 1 →
      (schmidl_cox_fill ext rate e).fdom b = 0) ∧
    (0 ≤ bin rate (e.mls0_off - 2) ∧ bin rate (e.mls0_off - 2) < symbol_len rate ∧
      bin rate (e.mls0_off - 2) % 2 = 0) ∧
    (∀ i : Int, 0 ≤ i → i < mls0_len →
      0 ≤ bin rate (2 * i + e.mls0_off) ∧ bin rate (2 * i + e.mls0_off) < symbol_len rate ∧
        bin rate (2 * i + e.mls0_off) % 2 = 0) ∧
    (∀ i : Int, 0 ≤ i → i < mls0_len →
      bin rate (2 * i + e.mls0_off) ≠ bin rate (e.mls0_off - 2)) ∧
    (∀ i j : Int, 0 ≤ i → i < mls0_len → 0 ≤ j → j < mls0_len →
      bin rate (2 * i + e.mls0_off) = bin rate (2 * j + e.mls0_off) → i = j) := by
  obtain ⟨h1, h2⟩ := sync_bins hr hm ha hp
  have e2 : 2 * (-1 : Int) + e.mls0_off = e.mls0_off - 2 := by omega
  have hl : mls0_len = 127 := rfl
  refine ⟨symbol_fdom ext rate false _, ?_, ?_, ?_, ?_, ?_⟩
  · intro b hb0 hb1 hodd
    apply schmidl_cox_fill_outside ext rate e b hb0 hb1
    intro i hi0 hi1 heq
    have := (h1 i hi0 hi1).2.2
    omega
  · have h := h1 (-1) (by omega) (by omega)
    rw [e2] at h
    exact h
  · intro i hi0 hi1
    exact h1 i (by omega) (by omega)
  · intro i hi0 hi1 heq
    rw [← e2] at heq
    have := h2 i (-1) (by omega) (by omega) (by omega) (by omega) heq
    omega
  · intro i j hi0 hi1 hj0 hj1 heq
    exact h2 i j (by omega) (by omega) (by omega) (by omega) heq

/-- C5, witness: rate 8000, mono, offset 1350 Hz, mode 2. -/
theorem C5_schmidl_cox_odd_bins_witness :
    supportedRate 8000 ∧ validMode 2 ∧ Accepted 1 8000 2 1350 ∧
      Planned 8000 1350 2 testPlanned ∧
      (∀ b : Int, 0 ≤ b → b < symbol_len 8000 → b % 2 = 1 →
        (schmidl_cox_fill testExt 8000 testPlanned).fdom b = 0) :=
  ⟨by decide, by decide, ⟨2700, by decide, by decide, by decide⟩, by rfl,
    (C5_schmidl_cox_odd_bins testExt 1 8000 2 1350 testPlanned (by decide) (by decide)
      ⟨2700, by decide, by decide, by decide⟩ (by rfl)).2.1⟩

/-- C6 (as amended): given a supported rate, a valid mode and a valid call sign,
`main` lets `freq_off` through if and only if it is a multiple of 50 and, when
CHANNELS = 1, `bandwidth/2 ≤ freq_off ≤ RATE/2 - bandwidth/2`, or, when CHANNELS = 2,
`bandwidth/2 - RATE/2 ≤ freq_off ≤ RATE/2 - bandwidth/2` (bandwidth 2700, 2500, 2500,
2250 for modes 2, 3, 4, 5); otherwise `main` returns 1. -/
theorem C6_offset_validation (ext : Ext α) (a : Args) (hargc : 6 ≤ a.argc ∧ a.argc ≤ 9)
    (hr : supportedRate a.output_rate) (hm : validMode (arg_oper_mode a))
    (hcs : call_sign_ok (arg_call_sign a) = true)
    (hch : a.output_chan = 1 ∨ a.output_chan = 2) :
    (main_checks a ≠ none ↔
      (50 ∣ arg_freq_off a ∧
        (a.output_chan = 1 →
          bandwidthHz (arg_oper_mode a) / 2 ≤ arg_freq_off a ∧
            arg_freq_off a ≤ a.output_rate / 2 - bandwidthHz (arg_oper_mode a) / 2) ∧
        (a.output_chan = 2 →
          bandwidthHz (arg_oper_mode a) / 2 - a.output_rate / 2 ≤ arg_freq_off a ∧
            arg_freq_off a ≤ a.output_rate / 2 - bandwidthHz (arg_oper_mode a) / 2))) ∧
    (main_checks a = none →
      ∀ (input_bad : Bool) (input_file heap : Nat → Nat) (e0 : Encoder α),
        (main ext a input_bad input_file heap e0).1 = 1) ∧
    (bandwidthHz 2 = 2700 ∧ bandwidthHz 3 = 2500 ∧ bandwidthHz 4 = 2500 ∧
      bandwidthHz 5 = 2250) := by
  have hr0 : 0 ≤ a.output_rate := by
    rcases hr with h | h | h | h <;> rw [h] <;> norm_num
  have hb0 : 0 ≤ bandwidthHz (arg_oper_mode a) := by
    rcases hm with h | h | h | h <;> rw [h] <;> decide
  have hb1 : 0 ≤ bandwidthHz (arg_oper_mode a) / 2 := Int.ediv_nonneg hb0 (by norm_num)
  have hr1 : 0 ≤ a.output_rate / 2 := Int.ediv_nonneg hr0 (by norm_num)
  refine ⟨?_, fun h ib inp heap e0 => main_rejected ext a ib inp heap e0 h, by decide⟩
  rw [Option.ne_none_iff_exists']
  constructor
  · rintro ⟨ck, hck⟩
    obtain ⟨_, _, _, _, h5, h6, _⟩ := (main_checks_eq_some a ck).mp hck
    rw [freq_range_ok_iff _ _ _ _ hr0 hb0] at h5
    rw [freq_div_ok_iff] at h6
    exact ⟨h6, fun h1 => ⟨h5.1 h1, h5.2.2⟩, fun _ => h5.2⟩
  · rintro ⟨h1, h2, h3⟩
    refine ⟨⟨arg_freq_off a, arg_call_sign a, arg_oper_mode a⟩, ?_⟩
    rw [main_checks_eq_some]
    refine ⟨hargc.1, hargc.2, hcs, hm, ?_, (freq_div_ok_iff _).mpr h1, rfl⟩
    rw [freq_range_ok_iff _ _ _ _ hr0 hb0]
    rcases hch with hc | hc
    · have := h2 hc
      exact ⟨fun _ => this.1, by omega, this.2⟩
    · have := h3 hc
      exact ⟨fun h => by omega, this.1, this.2⟩

/-- C6, witness: RATE 8000, mono, OFFSET 1350, call sign A, mode 2. -/
theorem C6_offset_validation_witness :
    (6 ≤ (9 : Int) ∧ (9 : Int) ≤ 9) ∧ supportedRate 8000 ∧
      validMode (arg_oper_mode ⟨9, 8000, 16, 1, 1350, ['A'], 2⟩) ∧
      call_sign_ok (arg_call_sign ⟨9, 8000, 16, 1, 1350, ['A'], 2⟩) = true ∧
      ((1 : Int) = 1 ∨ (1 : Int) = 2) ∧
      (main_checks ⟨9, 8000, 16, 1, 1350, ['A'], 2⟩ ≠ none ↔
        (50 ∣ arg_freq_off ⟨9, 8000, 16, 1, 1350, ['A'], 2⟩ ∧
          ((1 : Int) = 1 →
            bandwidthHz (arg_oper_mode ⟨9, 8000, 16, 1, 1350, ['A'], 2⟩) / 2 ≤
                arg_freq_off ⟨9, 8000, 16, 1, 1350, ['A'], 2⟩ ∧
              arg_freq_off ⟨9, 8000, 16, 1, 1350, ['A'], 2⟩ ≤
                8000 / 2 - bandwidthHz (arg_oper_mode ⟨9, 8000, 16, 1, 1350, ['A'], 2⟩) / 2) ∧
          ((1 : Int) = 2 →
            bandwidthHz (arg_oper_mode ⟨9, 8000, 16, 1, 1350, ['A'], 2⟩) / 2 - 8000 / 2 ≤
                arg_freq_off ⟨9, 8000, 16, 1, 1350, ['A'], 2⟩ ∧
              arg_freq_off ⟨9, 8000, 16, 1, 1350, ['A'], 2⟩ ≤
                8000 / 2 - bandwidthHz (arg_oper_mode ⟨9, 8000, 16, 1, 1350, ['A'], 2⟩) / 2))) :=
  ⟨by decide, by decide, by decide, by decide, by decide,
    (C6_offset_validation testExt ⟨9, 8000, 16, 1, 1350, ['A'], 2⟩ (by decide) (by decide)
      (by decide) (by decide) (by decide)).1⟩

/-- C6, counterexample: RATE 8000, mono, mode 2, OFFSET 3000 is a multiple of 50 and
at least `bandwidth/2 = 1350`, yet `main` rejects it, because 3000 is above
`RATE/2 - bandwidth/2 = 2650`. -/
theorem C6_counterexample :
    ¬ (main_checks ⟨9, 8000, 16, 1, 3000, ['A'], 2⟩ ≠ none ↔
        (50 ∣ arg_freq_off ⟨9, 8000, 16, 1, 3000, ['A'], 2⟩ ∧
          bandwidthHz (arg_oper_mode ⟨9, 8000, 16, 1, 3000, ['A'], 2⟩) / 2 ≤
            arg_freq_off ⟨9, 8000, 16, 1, 3000, ['A'], 2⟩)) := by
  decide

/-! ## Call signs -/

theorem base37_encoder_accepted (s : List Char) (h1 : s.length ≤ 9)
    (hs : ∀ c ∈ s, isCallChar c) (hne : ∃ c ∈ s, c ≠ ' ') :
    0 < base37_encoder s ∧ base37_encoder s < 37 ^ 9 := by
  obtain ⟨he, _, hlt⟩ := base37_encoder_valid s hs (by omega)
  constructor
  · rw [he]
    unfold base37_fold
    apply foldl_digit_pos s 0 (le_refl 0)
    right
    obtain ⟨c, hc, hsp⟩ := hne
    exact ⟨c, hc, digitValue_pos (hs c hc) hsp⟩
  · exact lt_of_lt_of_le hlt (pow_le_pow_right₀ (by norm_num) h1)

/-- C7: `main` lets a call sign through exactly when its base-37 value `v` has
`0 < v < 37^9`, the literal of the source being `37^9`; so every string of 1 to 9
characters over `A-Z`, `a-z`, `0-9` and space with a non-space character passes, and
the empty string, every string of spaces (value 0) and every string with another
character (value -1) make `main` return 1. -/
theorem C7_call_sign_validation (ext : Ext α) :
    (129961739795077 : Int) = 37 ^ 9 ∧
    (∀ v : Int, call_sign_ok v = true ↔ 0 < v ∧ v < 37 ^ 9) ∧
    (∀ a : Args, 8 ≤ a.argc → a.argc ≤ 9 → validMode (arg_oper_mode a) →
      freq_range_ok a.output_chan a.output_rate (bandwidthHz (arg_oper_mode a))
        (arg_freq_off a) = true →
      freq_div_ok (arg_freq_off a) = true →
      (main_checks a ≠ none ↔
        0 < base37_encoder a.argv7 ∧ base37_encoder a.argv7 < 37 ^ 9)) ∧
    (∀ (a : Args) (input_bad : Bool) (input_file heap : Nat → Nat) (e0 : Encoder α),
      8 ≤ a.argc → ¬ (0 < base37_encoder a.argv7 ∧ base37_encoder a.argv7 < 37 ^ 9) →
      (main ext a input_bad input_file heap e0).1 = 1) ∧
    (∀ s : List Char, 1 ≤ s.length → s.length ≤ 9 → (∀ c ∈ s, isCallChar c) →
      (∃ c ∈ s, c ≠ ' ') → call_sign_ok (base37_encoder s) = true) ∧
    (base37_encoder [] = 0 ∧ call_sign_ok (base37_encoder []) = false) ∧
    (∀ s : List Char, (∀ c ∈ s, c = ' ') →
      base37_encoder s = 0 ∧ call_sign_ok (base37_encoder s) = false) ∧
    (∀ s : List Char, (∀ c ∈ s, c.toNat ≠ 0) → (∃ c ∈ s, ¬ isCallChar c) →
      base37_encoder s = -1 ∧ call_sign_ok (base37_encoder s) = false) := by
  refine ⟨by norm_num, call_sign_ok_iff, ?_, ?_, ?_, ⟨rfl, by decide⟩, ?_, ?_⟩
  · intro a h8 h9 hm hf hd
    have harg : arg_call_sign a = base37_encoder a.argv7 := by
      unfold arg_call_sign; rw [if_pos h8]
    rw [← call_sign_ok_iff, ← harg, Option.ne_none_iff_exists']
    constructor
    · rintro ⟨ck, hck⟩
      exact ((main_checks_eq_some a ck).mp hck).2.2.1
    · intro hcs
      exact ⟨_, (main_checks_eq_some a _).mpr ⟨by omega, h9, hcs, hm, hf, hd, rfl⟩⟩
  · intro a ib inp heap e0 h8 hv
    apply main_rejected
    have harg : arg_call_sign a = base37_encoder a.argv7 := by
      unfold arg_call_sign; rw [if_pos h8]
    rw [← call_sign_ok_iff, ← harg] at hv
    cases hm : main_checks a with
    | none => rfl
    | some ck => exact absurd ((main_checks_eq_some a ck).mp hm).2.2.1 hv
  · intro s _ h9 hs hne
    exact (call_sign_ok_iff _).mpr (base37_encoder_accepted s h9 hs hne)
  · intro s hs
    have h0 : base37_encoder s = 0 := base37_loop_spaces s hs
    rw [h0]
    exact ⟨rfl, by decide⟩
  · intro s hnul hbad
    have h0 : base37_encoder s = -1 := base37_loop_invalid s 0 hnul hbad
    rw [h0]
    exact ⟨rfl, by decide⟩

/-- C7, witness: the call sign `N0CALL` passes, `N0-CALL` does not. -/
theorem C7_call_sign_validation_witness :
    call_sign_ok (base37_encoder ['N', '0', 'C', 'A', 'L', 'L']) = true ∧
      (base37_encoder ['N', '0', '-', 'C', 'A', 'L', 'L'] = -1 ∧
        call_sign_ok (base37_encoder ['N', '0', '-', 'C', 'A', 'L', 'L']) = false) :=
  ⟨(C7_call_sign_validation testExt).2.2.2.2.1 ['N', '0', 'C', 'A', 'L', 'L'] (by decide)
      (by decide) (by decide) (by decide),
    (C7_call_sign_validation testExt).2.2.2.2.2.2.2 ['N', '0', '-', 'C', 'A', 'L', 'L']
      (by decide) (by decide)⟩

/-- C8: for a string of at most 12 characters, `base37_encoder` returns `-1` if a
character is outside `A-Z`, `a-z`, `0-9` and space, and otherwise the left fold
`acc = 37 * acc + v(c)` from 0, with `v('0'..'9') = 1..10`,
`v('A'..'Z') = v('a'..'z') = 11..36`, `v(' ') = 0`; the result is then non-negative
and unchanged when lower-case letters are replaced by upper-case ones. -/
theorem C8_base37_encoder_fold (s : List Char) (hlen : s.length ≤ 12) :
    ((∀ c ∈ s, c.toNat ≠ 0) → (∃ c ∈ s, ¬ isCallChar c) → base37_encoder s = -1) ∧
    ((∀ c ∈ s, isCallChar c) →
      base37_encoder s = s.foldl (fun acc c => 37 * acc + digitValue c) 0 ∧
        0 ≤ base37_encoder s ∧
        base37_encoder (s.map upperChar) = base37_encoder s) ∧
    (digitValue '0' = 1 ∧ digitValue '9' = 10 ∧ digitValue 'A' = 11 ∧ digitValue 'Z' = 36 ∧
      digitValue 'a' = 11 ∧ digitValue 'z' = 36 ∧ digitValue ' ' = 0) ∧
    (∀ c : Char,
      ('0'.toNat ≤ c.toNat ∧ c.toNat ≤ '9'.toNat →
        digitValue c = (c.toNat : Int) - '0'.toNat + 1) ∧
      ('A'.toNat ≤ c.toNat ∧ c.toNat ≤ 'Z'.toNat →
        digitValue c = (c.toNat : Int) - 'A'.toNat + 11) ∧
      ('a'.toNat ≤ c.toNat ∧ c.toNat ≤ 'z'.toNat →
        digitValue c = (c.toNat : Int) - 'a'.toNat + 11)) := by
  refine ⟨fun hnul hbad => base37_loop_invalid s 0 hnul hbad, ?_, by decide, ?_⟩
  · intro hs
    obtain ⟨he, h0, _⟩ := base37_encoder_valid s hs hlen
    refine ⟨he, h0, ?_⟩
    have hs2 : ∀ c ∈ s.map upperChar, isCallChar c := by
      intro c hc
      obtain ⟨d, hd, rfl⟩ := List.mem_map.mp hc
      exact isCallChar_upperChar (hs d hd)
    obtain ⟨he2, _, _⟩ := base37_encoder_valid (s.map upperChar) hs2 (by simpa using hlen)
    rw [he2, he]
    exact foldl_digit_upper s 0
  · intro c
    unfold digitValue
    simp only [Char.reduceToNat]
    refine ⟨fun h => ?_, fun h => ?_, fun h => ?_⟩
    · rw [if_pos h]
    · rw [if_neg (by omega), if_neg (by omega), if_pos h]
    · rw [if_neg (by omega), if_pos h]

/-- C8, witness: the string `aB 9`. -/
theorem C8_base37_encoder_fold_witness :
    ['a', 'B', ' ', '9'].length ≤ 12 ∧
      ((∀ c ∈ ['a', 'B', ' ', '9'], isCallChar c) →
        base37_encoder ['a', 'B', ' ', '9'] =
            ['a', 'B', ' ', '9'].foldl (fun acc c => 37 * acc + digitValue c) 0 ∧
          0 ≤ base37_encoder ['a', 'B', ' ', '9'] ∧
          base37_encoder (['a', 'B', ' ', '9'].map upperChar) =
            base37_encoder ['a', 'B', ' ', '9']) :=
  ⟨by decide, (C8_base37_encoder_fold ['a', 'B', ' ', '9'] (by decide)).2.1⟩

theorem base37_fold_cons_space (s : List Char) : base37_fold (' ' :: s) = base37_fold s := by
  unfold base37_fold
  simp [digitValue_space]

theorem base37_fold_append_space (s : List Char) :
    base37_fold (s ++ [' ']) = 37 * base37_fold s := by
  unfold base37_fold
  simp [List.foldl_append, digitValue_space]

/-- C9 (as amended): the base-37 value is leading-space invariant and trailing-space
sensitive: for every string `s` over the alphabet of at most 11 characters,
`base37_encoder` of a space followed by `s` is `base37_encoder s`, `base37_encoder` of
`s` followed by a space is `37 * base37_encoder s`, and there is such a string for
which the latter differs from `base37_encoder s`. -/
theorem C9_space_sensitivity :
    (∀ s : List Char, s.length ≤ 11 → (∀ c ∈ s, isCallChar c) →
      base37_encoder (' ' :: s) = base37_encoder s ∧
        base37_encoder (s ++ [' ']) = 37 * base37_encoder s) ∧
    (∃ s : List Char, s.length ≤ 11 ∧ (∀ c ∈ s, isCallChar c) ∧
      base37_encoder (s ++ [' ']) ≠ base37_encoder s) := by
  constructor
  · intro s hlen hs
    have hsp : isCallChar ' ' := by decide
    have h1 : ∀ c ∈ ' ' :: s, isCallChar c := by
      intro c hc
      rcases List.mem_cons.mp hc with h | h
      · rw [h]; exact hsp
      · exact hs c h
    have h2 : ∀ c ∈ s ++ [' '], isCallChar c := by
      intro c hc
      rcases List.mem_append.mp hc with h | h
      · exact hs c h
      · rw [List.mem_singleton.mp h]; exact hsp
    rw [(base37_encoder_valid s hs (by omega)).1,
      (base37_encoder_valid (' ' :: s) h1 (by simp only [List.length_cons]; omega)).1,
      (base37_encoder_valid (s ++ [' ']) h2 (by simp; omega)).1]
    exact ⟨base37_fold_cons_space s, base37_fold_append_space s⟩
  · exact ⟨['A'], by decide, by decide, by decide⟩

/-- C9, witness: the string `K1`. -/
theorem C9_space_sensitivity_witness :
    base37_encoder (' ' :: ['K', '1']) = base37_encoder ['K', '1'] ∧
      base37_encoder (['K', '1'] ++ [' ']) = 37 * base37_encoder ['K', '1'] :=
  C9_space_sensitivity.1 ['K', '1'] (by decide) (by decide)

/-- C9, counterexample: `A` is a valid call sign of value 11, and `A` followed by a
space has value 407; a trailing space changes the value. -/
theorem C9_counterexample :
    (∀ c ∈ ['A'], isCallChar c) ∧
      ¬ (base37_encoder (['A'] ++ [' ']) = base37_encoder ['A']) := by
  decide

/-! ## The header word -/

theorem writeBit_testBit (n k : Nat) (val : Bool) (j : Nat) :
    (writeBit n k val).testBit j = if j = k then val else n.testBit j := by
  unfold writeBit
  by_cases h : n.testBit k = val
  · rw [if_pos h]
    by_cases hj : j = k
    · rw [if_pos hj, hj, h]
    · rw [if_neg hj]
  · rw [if_neg h, Nat.testBit_xor, Nat.testBit_two_pow]
    by_cases hj : j = k
    · subst hj
      rw [if_pos rfl]
      cases hv : val <;> cases hn : n.testBit j <;> simp_all
    · rw [if_neg hj]
      have : decide (k = j) = false := by simpa using fun h2 => hj h2.symm
      rw [this]
      simp

theorem get_set_be_bit (buf : Nat → Nat) (p q : Nat) (val : Bool) :
    get_be_bit (set_be_bit buf p val) q = if q = p then val else get_be_bit buf q := by
  unfold get_be_bit set_be_bit
  by_cases hb : q / 8 = p / 8
  · rw [hb, Function.update_same, writeBit_testBit]
    by_cases hq : q = p
    · rw [if_pos hq, if_pos (by rw [hq])]
    · rw [if_neg hq, if_neg (by omega)]
  · rw [Function.update_noteq hb, if_neg (fun h => hb (by rw [h]))]

/-- A loop that stores one bit per round, each round at a different position. -/
theorem bits_loop (n : Nat) (g : Int → Nat) (bv : Int → Bool) (d0 : Nat → Nat)
    (hinj : ∀ j k : Nat, j < n → k < n → g (j : Int) = g (k : Int) → j = k) :
    (∀ k : Nat, k < n →
      get_be_bit (loopN n 0 (fun i d => set_be_bit d (g i) (bv i)) d0) (g (k : Int)) =
        bv (k : Int)) ∧
    (∀ p : Nat, (∀ k : Nat, k < n → g (k : Int) ≠ p) →
      get_be_bit (loopN n 0 (fun i d => set_be_bit d (g i) (bv i)) d0) p = get_be_bit d0 p) := by
  induction n with
  | zero => exact ⟨fun k hk => by omega, fun p _ => rfl⟩
  | succ n ih =>
    obtain ⟨ih1, ih2⟩ := ih (fun j k hj hk h => hinj j k (by omega) (by omega) h)
    constructor
    · intro k hk
      rw [loopN_succ, get_set_be_bit]
      simp only [zero_add]
      by_cases hkn : k = n
      · subst hkn; rw [if_pos rfl]
      · rw [if_neg (fun h => hkn (hinj k n hk (by omega) h))]
        exact ih1 k (by omega)
    · intro p hp
      rw [loopN_succ, get_set_be_bit]
      simp only [zero_add]
      rw [if_neg (fun h => hp n (by omega) h.symm)]
      exact ih2 p (fun k hk => hp k (by omega))

theorem testBit_eq_shift (md i : Nat) : (((md >>> i) &&& 1) != 0) = md.testBit i := by
  unfold Nat.testBit
  rw [Nat.and_comm]

/-- The 55 bits stored by lines 152-153 of `meta_data` are the low bits of `md`, and
the checksum bits stored after them leave them in place. -/
theorem meta_bits_get (ext : Ext α) (md i : Nat) (hi : i < 55) :
    get_be_bit (meta_bits md) i = md.testBit i ∧
      get_be_bit (meta_info ext md) i = md.testBit i := by
  have h1 := (bits_loop 55 (fun i => i.toNat) (fun i => ((md >>> i.toNat) &&& 1) != 0)
    (fun _ => 0) (fun j k _ _ h => by simpa using h)).1 i hi
  beta_reduce at h1
  rw [Int.toNat_ofNat, testBit_eq_shift] at h1
  have h1b : get_be_bit (meta_bits md) i = md.testBit i := by
    unfold meta_bits
    exact h1
  refine ⟨h1b, ?_⟩
  have h2 := (bits_loop 16 (fun i => i.toNat + 55)
    (fun i => (((ext.crc0 ((md <<< 9) % 2 ^ 64) % 2 ^ 16) >>> i.toNat) &&& 1) != 0)
    (meta_bits md) (fun j k _ _ h => by simpa using h)).2 i
    (fun k _ h => by simp only [Int.toNat_ofNat] at h; omega)
  beta_reduce at h2
  rw [← h1b]
  unfold meta_info
  exact h2

/-- The header word of an accepted call sign and a valid mode. -/
theorem meta_word_eq (v : Nat) (m : Int) (hv : v < 37 ^ 9) (hm : validMode m) :
    meta_word v m = 2 ^ 8 * v + m.toNat ∧ m.toNat < 2 ^ 8 ∧
      ((m.toNat : Nat) : Int) = m := by
  have hmt : (m % 2 ^ 64).toNat = m.toNat ∧ m.toNat < 2 ^ 8 ∧ ((m.toNat : Nat) : Int) = m := by
    rcases hm with rfl | rfl | rfl | rfl <;> decide
  unfold meta_word
  rw [hmt.1, Nat.shiftLeft_eq, Nat.mod_eq_of_lt (by norm_num at hv ⊢; omega),
    Nat.mul_comm, ← Nat.mul_add_lt_is_or hmt.2.1]
  exact ⟨rfl, hmt.2⟩

/-- The header word of an accepted call sign and a valid mode, in numbers. -/
theorem meta_word_facts (v m : Int) (hv0 : 0 < v) (hv1 : v < 37 ^ 9) (hm : validMode m) :
    meta_word v.toNat m < 2 ^ 55 ∧ ((meta_word v.toNat m >>> 8 : Nat) : Int) = v ∧
      ((meta_word v.toNat m &&& 255 : Nat) : Int) = m := by
  have hvn : v.toNat < 37 ^ 9 := by
    have h : ((v.toNat : Nat) : Int) < 37 ^ 9 := by rw [Int.toNat_of_nonneg hv0.le]; exact hv1
    exact_mod_cast h
  obtain ⟨hw, hm1, hm2⟩ := meta_word_eq v.toNat m hvn hm
  have h255 : (255 : Nat) = 2 ^ 8 - 1 := by norm_num
  have h8 : (2 : Nat) ^ 8 = 256 := by norm_num
  have h55 : (2 : Nat) ^ 55 = 36028797018963968 := by norm_num
  rw [hw, Nat.shiftRight_eq_div_pow, h255, Nat.and_pow_two_sub_one_eq_mod, h8, h55]
  norm_num at hvn
  rw [h8] at hm1
  refine ⟨by omega, ?_, ?_⟩
  · have : (256 * v.toNat + m.toNat) / 256 = v.toNat := by omega
    rw [this]; omega
  · have : (256 * v.toNat + m.toNat) % 256 = m.toNat := by omega
    rw [this]; exact hm2

/-- Two numbers below `2 ^ 55` with the same 55 low bits are equal. -/
theorem eq_of_low_bits (a b : Nat) (ha : a < 2 ^ 55) (hb : b < 2 ^ 55)
    (h : ∀ i : Nat, i < 55 → a.testBit i = b.testBit i) : a = b := by
  apply Nat.eq_of_testBit_eq
  intro i
  by_cases hi : i < 55
  · exact h i hi
  · have hp : (2 : Nat) ^ 55 ≤ 2 ^ i := Nat.pow_le_pow_right (by norm_num) (by omega)
    rw [Nat.testBit_lt_two_pow (lt_of_lt_of_le ha hp),
      Nat.testBit_lt_two_pow (lt_of_lt_of_le hb hp)]

/-- C10: for an accepted call-sign value `v` (`0 < v < 37^9`) and a mode `m` in
{2,3,4,5}, the word `md = (v << 8) | m` is below `2^55`, `md >> 8 = v`,
`md & 255 = m`, bit `i` of `md` is stored at big-endian bit position `i` of the header
information block for `i < 55`, and these 55 bits determine `md`: two pairs with the
same 55 bits have the same call sign and mode. -/
theorem C10_meta_word (ext : Ext α) (v m : Int) (hv0 : 0 < v) (hv1 : v < 37 ^ 9)
    (hm : validMode m) :
    meta_word v.toNat m < 2 ^ 55 ∧
    ((meta_word v.toNat m >>> 8 : Nat) : Int) = v ∧
    ((meta_word v.toNat m &&& 255 : Nat) : Int) = m ∧
    (∀ i : Nat, i < 55 →
      get_be_bit (meta_bits (meta_word v.toNat m)) i = (meta_word v.toNat m).testBit i ∧
        get_be_bit (meta_info ext (meta_word v.toNat m)) i =
          (meta_word v.toNat m).testBit i) ∧
    (∀ v2 m2 : Int, 0 < v2 → v2 < 37 ^ 9 → validMode m2 →
      (∀ i : Nat, i < 55 →
        get_be_bit (meta_info ext (meta_word v2.toNat m2)) i =
          get_be_bit (meta_info ext (meta_word v.toNat m)) i) →
      meta_word v2.toNat m2 = meta_word v.toNat m ∧ v2 = v ∧ m2 = m) := by
  obtain ⟨h1, h2, h3⟩ := meta_word_facts v m hv0 hv1 hm
  refine ⟨h1, h2, h3, fun i hi => meta_bits_get ext _ i hi, ?_⟩
  intro v2 m2 g0 g1 gm hbits
  obtain ⟨k1, k2, k3⟩ := meta_word_facts v2 m2 g0 g1 gm
  have heq : meta_word v2.toNat m2 = meta_word v.toNat m := by
    apply eq_of_low_bits _ _ k1 h1
    intro i hi
    rw [← (meta_bits_get ext _ i hi).2, ← (meta_bits_get ext _ i hi).2]
    exact hbits i hi
  refine ⟨heq, ?_, ?_⟩
  · rw [← k2, ← h2, heq]
  · rw [← k3, ← h3, heq]

/-- C10, witness: the call sign of value 11 (`A`) in mode 2. -/
theorem C10_meta_word_witness :
    (0 : Int) < 11 ∧ (11 : Int) < 37 ^ 9 ∧ validMode 2 ∧
      meta_word (11 : Int).toNat 2 < 2 ^ 55 ∧
      ((meta_word (11 : Int).toNat 2 >>> 8 : Nat) : Int) = 11 ∧
      ((meta_word (11 : Int).toNat 2 &&& 255 : Nat) : Int) = 2 :=
  ⟨by decide, by norm_num, by decide,
    (C10_meta_word testExt 11 2 (by decide) (by norm_num) (by decide)).1,
    (C10_meta_word testExt 11 2 (by decide) (by norm_num) (by decide)).2.1,
    (C10_meta_word testExt 11 2 (by decide) (by norm_num) (by decide)).2.2.1⟩

/-! ## The mode tables and the symbol geometry -/

/-- C11: the mode table `main` validates with agrees with the one the constructor
modulates with: for every mode in {2,3,4,5} (`code_cols` 432, 400, 400, 360;
`mod_bits` 3, 3, 2, 2; bandwidth 2700, 2500, 2500, 2250 Hz) and every supported rate
`R`, `band_width * symbol_len = code_cols * R`. -/
theorem C11_mode_tables_agree (rate mode : Int) (hr : supportedRate rate)
    (hm : validMode mode) :
    ∃ bw cols bits : Int, band_width mode = some bw ∧ mode_table mode = some (cols, bits) ∧
      bw * symbol_len rate = cols * rate ∧
      ((mode = 2 ∧ cols = 432 ∧ bits = 3 ∧ bw = 2700) ∨
        (mode = 3 ∧ cols = 400 ∧ bits = 3 ∧ bw = 2500) ∨
        (mode = 4 ∧ cols = 400 ∧ bits = 2 ∧ bw = 2500) ∨
        (mode = 5 ∧ cols = 360 ∧ bits = 2 ∧ bw = 2250)) := by
  rcases hm with rfl | rfl | rfl | rfl <;> rcases hr with rfl | rfl | rfl | rfl <;>
    exact ⟨_, _, _, rfl, rfl, by decide, by decide⟩

/-- C11, witness: rate 44100, mode 5. -/
theorem C11_mode_tables_agree_witness :
    supportedRate 44100 ∧ validMode 5 ∧
      ∃ bw cols bits : Int, band_width 5 = some bw ∧ mode_table 5 = some (cols, bits) ∧
        bw * symbol_len 44100 = cols * 44100 ∧
        (((5 : Int) = 2 ∧ cols = 432 ∧ bits = 3 ∧ bw = 2700) ∨
          ((5 : Int) = 3 ∧ cols = 400 ∧ bits = 3 ∧ bw = 2500) ∨
          ((5 : Int) = 4 ∧ cols = 400 ∧ bits = 2 ∧ bw = 2500) ∨
          ((5 : Int) = 5 ∧ cols = 360 ∧ bits = 2 ∧ bw = 2250)) :=
  ⟨by decide, by decide, C11_mode_tables_agree 44100 5 (by decide) (by decide)⟩

/-- For an offset `main` lets through, the product of encode.cc:228 fits an `int`. -/
theorem bin_offset_no_overflow {chan rate mode freq_off : Int}
    (ha : Accepted chan rate mode freq_off) (hr : supportedRate rate) (hm : validMode mode) :
    -2 ^ 31 ≤ freq_off * symbol_len rate ∧ freq_off * symbol_len rate < 2 ^ 31 := by
  obtain ⟨q, hf, _, h1, h2, _⟩ := ha.bounds hr hm
  subst hf
  rcases hm with rfl | rfl | rfl | rfl <;> rcases hr with rfl | rfl | rfl | rfl <;>
    simp only [symbol_len_values.1, symbol_len_values.2.1, symbol_len_values.2.2.1,
      symbol_len_values.2.2.2, show bandwidthHz 2 = 2700 from rfl,
      show bandwidthHz 3 = 2500 from rfl, show bandwidthHz 4 = 2500 from rfl,
      show bandwidthHz 5 = 2250 from rfl] at h1 h2 ⊢ <;>
    omega

/-- C13: for every supported rate `R`, `symbol_len = (1280*R)/8000` and
`guard_len = symbol_len/8` are exact quotients (1280/160, 2560/320, 7056/882,
7680/960, so `25*symbol_len = 4*R` and `8*guard_len = symbol_len`), and for every
`freq_off` divisible by 50, of either sign, the bin offset
`(freq_off * symbol_len) / rate` is exact: `offset * R = freq_off * symbol_len`. -/
theorem C13_exact_quotients (rate : Int) (hr : supportedRate rate) :
    8000 * symbol_len rate = 1280 * rate ∧ 8 * guard_len rate = symbol_len rate ∧
    25 * symbol_len rate = 4 * rate ∧
    ((rate = 8000 ∧ symbol_len rate = 1280 ∧ guard_len rate = 160) ∨
      (rate = 16000 ∧ symbol_len rate = 2560 ∧ guard_len rate = 320) ∨
      (rate = 44100 ∧ symbol_len rate = 7056 ∧ guard_len rate = 882) ∨
      (rate = 48000 ∧ symbol_len rate = 7680 ∧ guard_len rate = 960)) ∧
    (∀ freq_off : Int, freq_off.tmod 50 = 0 →
      bin_offset rate freq_off * rate = freq_off * symbol_len rate ∧
        (freq_off * symbol_len rate).tmod rate = 0) ∧
    (∀ chan mode freq_off : Int, validMode mode → Accepted chan rate mode freq_off →
      -2 ^ 31 ≤ freq_off * symbol_len rate ∧ freq_off * symbol_len rate < 2 ^ 31) := by
  have h25 : 25 * symbol_len rate = 4 * rate := by
    rcases hr with rfl | rfl | rfl | rfl <;> decide
  refine ⟨?_, ?_, h25, ?_, ?_, fun chan mode f hm ha => bin_offset_no_overflow ha hr hm⟩
  · rcases hr with rfl | rfl | rfl | rfl <;> decide
  · rcases hr with rfl | rfl | rfl | rfl <;> decide
  · rcases hr with rfl | rfl | rfl | rfl <;> decide
  · intro f hf
    obtain ⟨q, rfl⟩ := Int.dvd_of_tmod_eq_zero hf
    have hmul : 50 * q * symbol_len rate = 8 * q * rate := by
      have : 50 * q * symbol_len rate = 2 * q * (25 * symbol_len rate) := by ring
      rw [this, h25]; ring
    rw [bin_offset_mul50 rate q hr]
    refine ⟨hmul.symm, ?_⟩
    rw [hmul]
    exact Int.mul_tmod_left _ _

/-- C13, witness: rate 44100, offset -1350 Hz. -/
theorem C13_exact_quotients_witness :
    supportedRate 44100 ∧ (-1350 : Int).tmod 50 = 0 ∧
      bin_offset 44100 (-1350) * 44100 = -1350 * symbol_len 44100 ∧
      (-1350 * symbol_len 44100).tmod 44100 = 0 :=
  ⟨by decide, by decide, (C13_exact_quotients 44100 (by decide)).2.2.2.2.1 (-1350) (by decide)⟩

/-! ## The frame divisions and the frequency plan -/

/-- C19: for every mode in {2,3,4,5} and every bin offset, the carriers `schmidl_cox`
fills (`mls0_off - 2` and `mls0_off + 2*i`, `0 ≤ i < 127`) and those `meta_data` fills
(`mls1_off - 1` and `mls1_off + i`, `0 ≤ i < 255`) lie in the data band
`[code_off, code_off + code_cols) = [offset - code_cols/2, offset + code_cols/2)` of
`pilot_block` and the data symbols. -/
theorem C19_preamble_in_band (rate freq_off mode : Int) (e : Encoder α)
    (hm : validMode mode) (hp : Planned rate freq_off mode e) :
    (e.code_off = bin_offset rate freq_off - e.code_cols / 2 ∧
      e.code_off + e.code_cols = bin_offset rate freq_off + e.code_cols / 2) ∧
    (e.code_off ≤ e.mls0_off - 2 ∧ e.mls0_off - 2 < e.code_off + e.code_cols) ∧
    (∀ i : Int, 0 ≤ i → i < mls0_len →
      e.code_off ≤ 2 * i + e.mls0_off ∧ 2 * i + e.mls0_off < e.code_off + e.code_cols) ∧
    (e.code_off ≤ e.mls1_off - 1 ∧ e.mls1_off - 1 < e.code_off + e.code_cols) ∧
    (∀ i : Int, 0 ≤ i → i < mls1_len →
      e.code_off ≤ i + e.mls1_off ∧ i + e.mls1_off < e.code_off + e.code_cols) := by
  obtain ⟨_, hv, h1, h2, h3⟩ := hp.values hm
  have hl0 : mls0_len = 127 := rfl
  have hl1 : mls1_len = 255 := rfl
  rw [hl0, hl1]
  generalize e.code_cols = cols at *
  generalize e.code_off = off at *
  generalize e.mls0_off = m0 at *
  generalize e.mls1_off = m1 at *
  generalize bin_offset rate freq_off = o at *
  rcases hv with ⟨_, _, _, rfl, _⟩ | ⟨_, _, _, rfl, _⟩ | ⟨_, _, _, rfl, _⟩ | ⟨_, _, _, rfl, _⟩ <;>
    simp only [show (432 : Int).tdiv 2 = 216 from rfl, show (400 : Int).tdiv 2 = 200 from rfl,
      show (360 : Int).tdiv 2 = 180 from rfl] at h1 <;>
    refine ⟨⟨by omega, by omega⟩, ⟨by omega, by omega⟩, fun i hi0 hi1 => ⟨by omega, by omega⟩,
      ⟨by omega, by omega⟩, fun i hi0 hi1 => ⟨by omega, by omega⟩⟩

/-- C19, witness: the frame plan of rate 8000, offset 1350 Hz, mode 2. -/
theorem C19_preamble_in_band_witness :
    validMode 2 ∧ Planned 8000 1350 2 testPlanned ∧
      (testPlanned.code_off ≤ testPlanned.mls0_off - 2 ∧
        testPlanned.mls0_off - 2 < testPlanned.code_off + testPlanned.code_cols) :=
  ⟨by decide, by rfl, (C19_preamble_in_band 8000 1350 2 testPlanned (by decide) (by rfl)).2.1⟩

/-! ## The defaults and the carrier range -/

theorem anonymous_accepted :
    0 < base37_encoder "ANONYMOUS".toList ∧ base37_encoder "ANONYMOUS".toList < 37 ^ 9 := by
  have hl : "ANONYMOUS".toList = ['A', 'N', 'O', 'N', 'Y', 'M', 'O', 'U', 'S'] := by decide
  rw [hl]
  exact base37_encoder_accepted _ (by decide) (by decide) ⟨'A', by decide, by decide⟩

/-- C17: the documented defaults pass validation: for every supported rate and
CHANNELS in {1, 2}, with no optional argument (`freq_off` 2000 when mono else 0, call
sign `ANONYMOUS`, mode 2), the call-sign test, the mode test, the offset range test
and the divisibility test of `main` all succeed. -/
theorem C17_defaults_pass (a : Args) (hargc : a.argc = 6) (hr : supportedRate a.output_rate)
    (hch : a.output_chan = 1 ∨ a.output_chan = 2) :
    arg_freq_off a = (if a.output_chan = 1 then 2000 else 0) ∧
    arg_call_sign a = base37_encoder "ANONYMOUS".toList ∧ arg_oper_mode a = 2 ∧
    (0 < arg_call_sign a ∧ arg_call_sign a < 37 ^ 9) ∧
    call_sign_ok (arg_call_sign a) = true ∧ oper_mode_ok (arg_oper_mode a) = true ∧
    band_width (arg_oper_mode a) = some 2700 ∧
    freq_range_ok a.output_chan a.output_rate 2700 (arg_freq_off a) = true ∧
    freq_div_ok (arg_freq_off a) = true ∧
    main_checks a = some ⟨arg_freq_off a, arg_call_sign a, arg_oper_mode a⟩ := by
  have hf : arg_freq_off a = (if a.output_chan = 1 then 2000 else 0) := by
    unfold arg_freq_off; rw [if_neg (by omega)]
  have hc : arg_call_sign a = base37_encoder "ANONYMOUS".toList := by
    unfold arg_call_sign; rw [if_neg (by omega)]
  have hm : arg_oper_mode a = 2 := by
    unfold arg_oper_mode; rw [if_neg (by omega)]
  have hcs : 0 < arg_call_sign a ∧ arg_call_sign a < 37 ^ 9 := by
    rw [hc]; exact anonymous_accepted
  have hcok := (call_sign_ok_iff _).mpr hcs
  have hrange : freq_range_ok a.output_chan a.output_rate 2700 (arg_freq_off a) = true := by
    rw [hf]
    rcases hr with h | h | h | h <;> rcases hch with g | g <;> rw [h, g] <;> decide
  have hdiv : freq_div_ok (arg_freq_off a) = true := by
    rw [hf]
    rcases hch with g | g <;> rw [g] <;> decide
  have hv : validMode (arg_oper_mode a) := by rw [hm]; decide
  refine ⟨hf, hc, hm, hcs, hcok, oper_mode_ok_of_valid hv, by rw [hm]; rfl, hrange, hdiv, ?_⟩
  rw [main_checks_eq_some]
  refine ⟨by omega, by omega, hcok, hv, ?_, hdiv, rfl⟩
  rw [hm]
  exact hrange

/-- C17, witness: `encode OUTPUT 44100 16 2 INPUT`. -/
theorem C17_defaults_pass_witness :
    (6 : Int) = 6 ∧ supportedRate 44100 ∧ ((2 : Int) = 1 ∨ (2 : Int) = 2) ∧
      main_checks ⟨6, 44100, 16, 2, 0, [], 0⟩ =
        some ⟨arg_freq_off ⟨6, 44100, 16, 2, 0, [], 0⟩, arg_call_sign ⟨6, 44100, 16, 2, 0, [], 0⟩,
          arg_oper_mode ⟨6, 44100, 16, 2, 0, [], 0⟩⟩ :=
  ⟨rfl, by decide, by decide,
    (C17_defaults_pass ⟨6, 44100, 16, 2, 0, [], 0⟩ rfl (by decide)
      (by decide)).2.2.2.2.2.2.2.2.2⟩

/-- C18: for every supported rate, mode in {2,3,4,5}, channel count and frequency
offset that `main` lets through, the data band lies inside the carrier range:
`-symbol_len/2 ≤ code_off` and `code_off + code_cols ≤ symbol_len/2`, and
`code_off ≥ 0` when CHANNELS = 1; so every carrier `c` passed to `bin` has
`c + symbol_len ≥ 0`, `bin(c)` is in `[0, symbol_len)` (the remainder is never
negative), and distinct data carriers map to distinct bins. -/
theorem C18_band_in_carrier_range (chan rate mode freq_off : Int) (e : Encoder α)
    (hr : supportedRate rate) (hm : validMode mode) (ha : Accepted chan rate mode freq_off)
    (hp : Planned rate freq_off mode e) :
    (-(symbol_len rate / 2) ≤ e.code_off ∧ e.code_off + e.code_cols ≤ symbol_len rate / 2) ∧
    (chan = 1 → 0 ≤ e.code_off) ∧
    ((-symbol_len rate).tdiv 2 = -(symbol_len rate / 2) ∧
      (symbol_len rate).tdiv 2 = symbol_len rate / 2) ∧
    (∀ c : Int, -(symbol_len rate / 2) ≤ c → c < symbol_len rate / 2 →
      0 ≤ c + symbol_len rate ∧ bin rate c = (c + symbol_len rate) % symbol_len rate ∧
        0 ≤ bin rate c ∧ bin rate c < symbol_len rate) ∧
    (∀ c : Int, e.code_off ≤ c → c < e.code_off + e.code_cols →
      -(symbol_len rate / 2) ≤ c ∧ c < symbol_len rate / 2) ∧
    ((-(symbol_len rate / 2) ≤ e.mls0_off - 2 ∧ e.mls0_off - 2 < symbol_len rate / 2) ∧
      (∀ i : Int, 0 ≤ i → i < mls0_len →
        -(symbol_len rate / 2) ≤ 2 * i + e.mls0_off ∧ 2 * i + e.mls0_off < symbol_len rate / 2) ∧
      (∀ i : Int, -1 ≤ i → i < mls1_len →
        -(symbol_len rate / 2) ≤ i + e.mls1_off ∧ i + e.mls1_off < symbol_len rate / 2)) ∧
    (∀ c d : Int, e.code_off ≤ c → c < e.code_off + e.code_cols → e.code_off ≤ d →
      d < e.code_off + e.code_cols → bin rate c = bin rate d → c = d) := by
  obtain ⟨q, hq, hco, hm0, hm1, hc0, hc1, hc2, hlo, hhi⟩ := band_bounds hr hm ha hp
  obtain ⟨q2, _, hq2, _, _, hmono⟩ := ha.bounds hr hm
  obtain ⟨c1, c2, _, c4, c5⟩ := carrier_range rate hr
  have hl0 : mls0_len = 127 := rfl
  have hl1 : mls1_len = 255 := rfl
  have hqq : q2 = q := by omega
  subst hqq
  have hbin : ∀ c : Int, -(symbol_len rate / 2) ≤ c → c < symbol_len rate / 2 →
      0 ≤ c + symbol_len rate ∧ bin rate c = (c + symbol_len rate) % symbol_len rate ∧
        0 ≤ bin rate c ∧ bin rate c < symbol_len rate := by
    intro c h0 h1
    have hb : bin rate c = (c + symbol_len rate) % symbol_len rate := by
      unfold bin
      exact Int.tmod_eq_emod (by omega) (by omega)
    refine ⟨by omega, hb, ?_, ?_⟩
    · rw [hb]; exact Int.emod_nonneg _ (by omega)
    · rw [hb]; exact Int.emod_lt_of_pos _ c5
  refine ⟨⟨hlo, hhi⟩, ?_, ⟨c1, c2⟩, hbin, fun c h0 h1 => ⟨by omega, by omega⟩,
    ⟨⟨by omega, by omega⟩, fun i h0 h1 => ⟨by omega, by omega⟩,
      fun i h0 h1 => ⟨by omega, by omega⟩⟩, ?_⟩
  · intro hch
    have hb := hmono hch
    obtain ⟨_, hv, _⟩ := hp.values hm
    generalize e.code_cols = cols at *
    generalize e.code_off = off at *
    rcases hv with ⟨rfl, _, _, rfl, _⟩ | ⟨rfl, _, _, rfl, _⟩ | ⟨rfl, _, _, rfl, _⟩ |
        ⟨rfl, _, _, rfl, _⟩ <;>
      simp only [show bandwidthHz 2 = 2700 from rfl, show bandwidthHz 3 = 2500 from rfl,
        show bandwidthHz 4 = 2500 from rfl, show bandwidthHz 5 = 2250 from rfl] at hb <;>
      omega
  · intro c d hc0' hc1' hd0 hd1 heq
    have h := (band_bins hr hm ha hp).2 (c - e.code_off) (d - e.code_off) (by omega) (by omega)
      (by omega) (by omega)
    have ec : c - e.code_off + e.code_off = c := by omega
    have ed : d - e.code_off + e.code_off = d := by omega
    rw [ec, ed] at h
    have := h heq
    omega

/-- C18, witness: rate 8000, mono, offset 1350 Hz, mode 2. -/
theorem C18_band_in_carrier_range_witness :
    supportedRate 8000 ∧ validMode 2 ∧ Accepted 1 8000 2 1350 ∧
      Planned 8000 1350 2 testPlanned ∧
      (-(symbol_len 8000 / 2) ≤ testPlanned.code_off ∧
        testPlanned.code_off + testPlanned.code_cols ≤ symbol_len 8000 / 2) ∧
      ((1 : Int) = 1 → 0 ≤ testPlanned.code_off) :=
  ⟨by decide, by decide, ⟨2700, by decide, by decide, by decide⟩, by rfl,
    (C18_band_in_carrier_range 1 8000 2 1350 testPlanned (by decide) (by decide)
      ⟨2700, by decide, by decide, by decide⟩ (by rfl)).1,
    (C18_band_in_carrier_range 1 8000 2 1350 testPlanned (by decide) (by decide)
      ⟨2700, by decide, by decide, by decide⟩ (by rfl)).2.1⟩

/-! ## Loops over arrays of any index type, and differential loops -/

/-- A loop of writes leaves every cell it never addresses as it was. -/
theorem loopN_write_other {ι β : Type} [DecidableEq ι] (n : Nat) (lo : Int) (f : Int → ι)
    (v : Int → (ι → β) → β) (a0 : ι → β) (x : ι)
    (hx : ∀ k : Nat, k < n → f (lo + (k : Int)) ≠ x) :
    loopN n lo (fun i a => Function.update a (f i) (v i a)) a0 x = a0 x := by
  induction n with
  | zero => rfl
  | succ n ih =>
    rw [loopN_succ]
    have h1 : x ≠ f (lo + (n : Int)) := fun h => hx n (Nat.lt_succ_self n) h.symm
    rw [Function.update_noteq h1]
    exact ih (fun k hk => hx k (Nat.lt_succ_of_lt hk))

/-- A loop that rewrites one cell per round, each round a different cell, applies to
every addressed cell the update of its round. -/
theorem loopN_write_same {ι β : Type} [DecidableEq ι] (n : Nat) (lo : Int) (f : Int → ι)
    (w : Int → β → β) (a0 : ι → β)
    (hinj : ∀ j k : Nat, j < n → k < n → f (lo + (j : Int)) = f (lo + (k : Int)) → j = k)
    (k : Nat) (hk : k < n) :
    loopN n lo (fun i a => Function.update a (f i) (w i (a (f i)))) a0 (f (lo + (k : Int))) =
      w (lo + (k : Int)) (a0 (f (lo + (k : Int)))) := by
  induction n with
  | zero => omega
  | succ n ih =>
    rw [loopN_succ]
    by_cases hkn : k = n
    · subst hkn
      rw [Function.update_same]
      congr 1
      exact loopN_write_other k lo f (fun i a => w i (a (f i))) a0 _
        (fun j hj h => absurd (hinj j k (Nat.lt_succ_of_lt hj) (Nat.lt_succ_self k) h)
          (Nat.ne_of_lt hj))
    · have hne : f (lo + (k : Int)) ≠ f (lo + (n : Int)) := fun h =>
        hkn (hinj k n hk (Nat.lt_succ_self n) h)
      rw [Function.update_noteq hne]
      exact ih (fun j k hj hk2 h => hinj j k (Nat.lt_succ_of_lt hj) (Nat.lt_succ_of_lt hk2) h)
        (by omega)

theorem loopN_succ_zero {σ : Type} (n : Nat) (body : Int → σ → σ) (s : σ) :
    loopN (n + 1) 0 body s = body (n : Int) (loopN n 0 body s) := by
  rw [loopN_succ, zero_add]

/-- The differential loop `f[g i] *= f[g (i-1)]`, `i = 0 .. n-1`, over distinct cells
`g (-1), g 0, .., g (n-1)`: cell `g k` ends up with the anchor value times the
first `k + 1` original values. -/
theorem loopN_diff {R : Type} [CommRing R] (n : Nat) (g : Int → Int) (a0 : Int → R)
    (hinj : ∀ i j : Int, -1 ≤ i → i < n → -1 ≤ j → j < n → g i = g j → i = j) :
    ∀ k : Nat, k < n →
      loopN n 0 (fun i f => Function.update f (g i) (f (g i) * f (g (i - 1)))) a0 (g (k : Int)) =
        a0 (g (-1)) * Finset.prod (Finset.range (k + 1)) (fun j => a0 (g (j : Int))) := by
  induction n with
  | zero => intro k hk; omega
  | succ n ih =>
    intro k hk
    have hinj2 : ∀ i j : Int, -1 ≤ i → i < n → -1 ≤ j → j < n → g i = g j → i = j :=
      fun i j hi0 hi1 hj0 hj1 h => hinj i j hi0 (by push_cast; omega) hj0 (by push_cast; omega) h
    have hother : ∀ x : Int, (∀ j : Nat, j < n → g ((0 : Int) + (j : Int)) ≠ x) →
        loopN n 0 (fun i f => Function.update f (g i) (f (g i) * f (g (i - 1)))) a0 x = a0 x :=
      fun x hx => loopN_update_other n 0 g (fun i f => f (g i) * f (g (i - 1))) a0 x hx
    rw [loopN_succ_zero]
    by_cases hkn : k = n
    · subst hkn
      rw [Function.update_same]
      have h1 := hother (g (k : Int)) (fun j hj h => by
        have := hinj ((0 : Int) + (j : Int)) (k : Int) (by omega) (by push_cast; omega)
          (by omega) (by push_cast; omega) h
        omega)
      rw [h1]
      cases k with
      | zero =>
        have e1 : ((0 : Nat) : Int) - 1 = -1 := by omega
        rw [e1]
        simp only [loopN_zero, Nat.cast_zero, zero_add, Finset.prod_range_one]
        ring
      | succ m =>
        have e1 : (((m + 1 : Nat)) : Int) - 1 = (m : Int) := by push_cast; omega
        rw [e1, ih hinj2 m (by omega), Finset.prod_range_succ _ (m + 1)]
        ring
    · have hne : g (k : Int) ≠ g (n : Int) := fun h => by
        have := hinj (k : Int) (n : Int) (by omega) (by push_cast; omega) (by omega)
          (by push_cast; omega) h
        omega
      rw [Function.update_noteq hne]
      exact ih hinj2 k (by omega)

/-! ## The payload and scenario S1 -/

theorem read_input_eq (ext : Ext α) (input_file heap : Nat → Nat) :
    read_input ext input_file heap =
      loopN (data_len - 0).toNat 0
        (fun i b => Function.update b i.toNat ((b i.toNat ^^^ ext.scrambler i.toNat) % 256))
        (loopN (data_len - 0).toNat 0
          (fun i b => Function.update b i.toNat (input_file i.toNat % 256)) heap) := by
  simp only [read_input, forLoop, data_len, code_len]

theorem bch_encode_eq (ext : Ext α) (inp : Nat → Nat) :
    bch_encode ext inp =
      loopN bch1_parity_bytes 0
        (fun i b => Function.update b ((data_bits.tdiv 8).toNat + i.toNat)
          (ext.bchenc1 inp data_bits i.toNat)) inp := by
  simp only [bch_encode]

/-- The bytes `main` hands to the constructor: `data_len` scrambled payload bytes, each
reduced to a `uint8_t`, and the fresh buffer after them. -/
theorem read_input_bytes (ext : Ext α) (input_file heap : Nat → Nat) :
    (∀ p : Nat, p < 5380 →
      read_input ext input_file heap p =
        ((input_file p % 256) ^^^ ext.scrambler p) % 256) ∧
    (∀ p : Nat, 5380 ≤ p → read_input ext input_file heap p = heap p) := by
  have hd : (data_len - 0).toNat = 5380 := by decide
  constructor
  · intro p hp
    rw [read_input_eq, hd]
    have h := loopN_write_same 5380 0 (fun i : Int => i.toNat)
      (fun i x => (x ^^^ ext.scrambler i.toNat) % 256)
      (loopN 5380 0 (fun i b => Function.update b i.toNat (input_file i.toNat % 256)) heap)
      (fun j k _ _ h => by simp only [zero_add, Int.toNat_ofNat] at h; exact h) p hp
    simp only [zero_add, Int.toNat_ofNat] at h
    rw [h]
    have h2 := loopN_write_same 5380 0 (fun i : Int => i.toNat)
      (fun i _ => input_file i.toNat % 256) heap
      (fun j k _ _ h => by simp only [zero_add, Int.toNat_ofNat] at h; exact h) p hp
    simp only [zero_add, Int.toNat_ofNat] at h2
    rw [h2]
  · intro p hp
    rw [read_input_eq, hd]
    rw [loopN_write_other 5380 0 (fun i : Int => i.toNat)
        (fun i b => (b i.toNat ^^^ ext.scrambler i.toNat) % 256) _ p
        (fun k hk h => by simp only [zero_add, Int.toNat_ofNat] at h; omega),
      loopN_write_other 5380 0 (fun i : Int => i.toNat) (fun i _ => input_file i.toNat % 256)
        _ p (fun k hk h => by simp only [zero_add, Int.toNat_ofNat] at h; omega)]

/-- The bytes after line 237 of the constructor: the parity bytes of the outer code at
5380..5399, the input elsewhere. -/
theorem bch_encode_bytes (ext : Ext α) (inp : Nat → Nat) :
    (∀ p : Nat, 5380 ≤ p → p < 5400 →
      bch_encode ext inp p = ext.bchenc1 inp data_bits (p - 5380)) ∧
    (∀ p : Nat, p < 5380 ∨ 5400 ≤ p → bch_encode ext inp p = inp p) := by
  have hb : (data_bits.tdiv 8).toNat = 5380 := by decide
  have hpb : bch1_parity_bytes = 20 := by decide
  constructor
  · intro p hp0 hp1
    rw [bch_encode_eq, hb, hpb]
    have h := loopN_write_same 20 0 (fun i : Int => 5380 + i.toNat)
      (fun i _ => ext.bchenc1 inp data_bits i.toNat) inp
      (fun j k _ _ h => by simp only [zero_add, Int.toNat_ofNat] at h; omega) (p - 5380)
      (by omega)
    simp only [zero_add, Int.toNat_ofNat] at h
    have e1 : 5380 + (p - 5380) = p := by omega
    rw [e1] at h
    exact h
  · intro p hp
    rw [bch_encode_eq, hb, hpb]
    exact loopN_write_other 20 0 (fun i : Int => 5380 + i.toNat)
      (fun i _ => ext.bchenc1 inp data_bits i.toNat) inp p
      (fun k hk h => by simp only [zero_add, Int.toNat_ofNat] at h; omega)

/-- The array `code` after lines 237-241 of the constructor, as its two loops. -/
theorem Encoder_coding_code (ext : Ext α) (inp : Nat → Nat) (e : Encoder α) :
    (Encoder_coding ext inp e).code =
      loopN (ldpc_bits - bch_bits - 0).toNat 0
        (fun i c => Function.update c (bch_bits + i)
          (ext.ldpcenc
            (loopN (bch_bits - 0).toNat 0
              (fun i c => Function.update c i (nrz (get_le_bit (bch_encode ext inp) i.toNat)))
              e.code) i))
        (loopN (bch_bits - 0).toNat 0
          (fun i c => Function.update c i (nrz (get_le_bit (bch_encode ext inp) i.toNat)))
          e.code) := by
  simp only [Encoder_coding, interleave, forLoop]

/-- The read loop of encode.cc:238-239: cell `i` of `code`, `0 ≤ i < bch_bits`, is the
NRZ value of little-endian bit `i` of the buffer, and the inner code leaves it. -/
theorem Encoder_coding_info_bits (ext : Ext α) (inp : Nat → Nat) (e : Encoder α) (i : Int)
    (h0 : 0 ≤ i) (h1 : i < bch_bits) :
    (Encoder_coding ext inp e).code i = nrz (get_le_bit (bch_encode ext inp) i.toNat) := by
  have hb : bch_bits = 43200 := by decide
  have hn : (bch_bits - 0).toNat = 43200 := by decide
  have hi : i.toNat < 43200 := by rw [hb] at h1; omega
  have ei : (0 : Int) + ((i.toNat : Nat) : Int) = i := by omega
  rw [Encoder_coding_code, hn]
  rw [loopN_update_other (ldpc_bits - bch_bits - 0).toNat 0 (fun i => bch_bits + i)
    (fun i _ => ext.ldpcenc
      (loopN 43200 0
        (fun i c => Function.update c i (nrz (get_le_bit (bch_encode ext inp) i.toNat)))
        e.code) i) _ i
    (fun k _ h => by
      have h2 : bch_bits + (0 + (k : Int)) = i := h
      rw [hb] at h1 h2
      omega)]
  have h := loopN_update_same 43200 0 (fun i => i)
    (fun i _ => nrz (get_le_bit (bch_encode ext inp) i.toNat)) e.code
    (fun j k _ _ h => by
      have h2 : (0 : Int) + (j : Int) = 0 + (k : Int) := h
      omega) i.toNat hi
  rw [ei] at h
  exact h

/-- The cells of `code` the inner code writes, encode.cc:240: the 21600 parity values
at `bch_bits ..`. -/
theorem Encoder_coding_parity_bits (ext : Ext α) (inp : Nat → Nat) (e : Encoder α) (i : Int)
    (h0 : 0 ≤ i) (h1 : i < ldpc_bits - bch_bits) :
    (Encoder_coding ext inp e).code (bch_bits + i) =
      ext.ldpcenc
        (loopN (bch_bits - 0).toNat 0
          (fun i c => Function.update c i (nrz (get_le_bit (bch_encode ext inp) i.toNat)))
          e.code) i := by
  have hn : (ldpc_bits - bch_bits - 0).toNat = 21600 := by decide
  have hl : ldpc_bits - bch_bits = 21600 := by decide
  have hi : i.toNat < 21600 := by rw [hl] at h1; omega
  have ei : (0 : Int) + ((i.toNat : Nat) : Int) = i := by omega
  rw [Encoder_coding_code, hn]
  have h := loopN_update_same 21600 0 (fun i => bch_bits + i)
    (fun i _ => ext.ldpcenc
      (loopN (bch_bits - 0).toNat 0
        (fun i c => Function.update c i (nrz (get_le_bit (bch_encode ext inp) i.toNat)))
        e.code) i)
    (loopN (bch_bits - 0).toNat 0
      (fun i c => Function.update c i (nrz (get_le_bit (bch_encode ext inp) i.toNat)))
      e.code)
    (fun j k _ _ h => by
      have h2 : bch_bits + ((0 : Int) + (j : Int)) = bch_bits + (0 + (k : Int)) := h
      omega) i.toNat hi
  rw [ei] at h
  exact h

/-- C12: the payload length `main` reads is the encoder's `data_bits/8`:
`data_len = 64800/8 - (10*16 + 21600)/8 = 5380 = data_bits/8` with `data_bits = 43040`
and `bch_bits = 43200`; the 160 parity bits of the outer code, put at byte offset
`data_bits/8`, occupy bytes 5380..5399, so payload and parity fill exactly the
`bch_bits/8 = 5400` bytes the constructor reads as the 43200 information bits of the
inner code, all inside the 8100-byte input buffer.  The read loop of the constructor
puts bit `k` of byte `p` of that buffer, `p < 5400`, in `code[8*p + k]`. -/
theorem C12_payload_layout (ext : Ext α) (input_file heap inp : Nat → Nat) (e : Encoder α) :
    (code_len = 8100 ∧ data_len = 5380 ∧ data_len = data_bits.tdiv 8 ∧ data_bits = 43040 ∧
      bch_bits = 43200 ∧ bch_bits.tdiv 8 = 5400 ∧ data_bits.tmod 8 = 0 ∧
      bch_bits.tmod 8 = 0) ∧
    (bch1_parity_bytes = 20 ∧ 8 * (bch1_parity_bytes : Int) = 160 ∧
      8 * (bch1_parity_bytes : Int) = bch_bits - data_bits) ∧
    (∀ p : Nat, p < 5380 →
      read_input ext input_file heap p =
        ((input_file p % 256) ^^^ ext.scrambler p) % 256) ∧
    (∀ p : Nat, 5380 ≤ p → read_input ext input_file heap p = heap p) ∧
    (∀ p : Nat, 5380 ≤ p → p < 5400 →
      bch_encode ext inp p = ext.bchenc1 inp data_bits (p - 5380)) ∧
    (∀ p : Nat, p < 5380 ∨ 5400 ≤ p → bch_encode ext inp p = inp p) ∧
    (∀ p : Nat, p < 5380 →
      bch_encode ext (read_input ext input_file heap) p =
        ((input_file p % 256) ^^^ ext.scrambler p) % 256) ∧
    (∀ i : Int, 0 ≤ i → i < bch_bits →
      (Encoder_coding ext inp e).code i = nrz (get_le_bit (bch_encode ext inp) i.toNat) ∧
        i.toNat / 8 < 5400 ∧ 5400 ≤ code_len.toNat) ∧
    (∀ p k : Nat, p < 5400 → k < 8 →
      (0 ≤ 8 * (p : Int) + (k : Int) ∧ 8 * (p : Int) + (k : Int) < bch_bits) ∧
        (Encoder_coding ext inp e).code (8 * (p : Int) + (k : Int)) =
          nrz ((bch_encode ext inp p).testBit k)) ∧
    (∀ i : Int, 0 ≤ i → i < bch_bits →
      ∃ p k : Nat, p < 5400 ∧ k < 8 ∧ i = 8 * (p : Int) + (k : Int)) ∧
    (∀ inp2 : Nat → Nat, (∀ p : Nat, p < 5400 → bch_encode ext inp2 p = bch_encode ext inp p) →
      ∀ i : Int, 0 ≤ i → i < bch_bits →
        (Encoder_coding ext inp2 e).code i = (Encoder_coding ext inp e).code i) := by
  have hbb : bch_bits = 43200 := by decide
  have hcl : code_len.toNat = 8100 := by decide
  obtain ⟨r1, r2⟩ := read_input_bytes ext input_file heap
  obtain ⟨b1, b2⟩ := bch_encode_bytes ext inp
  refine ⟨by decide, by decide, r1, r2, b1, b2, ?_, ?_, ?_, ?_, ?_⟩
  · intro p hp
    rw [(bch_encode_bytes ext (read_input ext input_file heap)).2 p (Or.inl hp)]
    exact r1 p hp
  · intro i hi0 hi1
    refine ⟨Encoder_coding_info_bits ext inp e i hi0 hi1, ?_, ?_⟩
    · rw [hbb] at hi1; omega
    · rw [hcl]; omega
  · intro p k hp hk
    have hr : 0 ≤ 8 * (p : Int) + (k : Int) ∧ 8 * (p : Int) + (k : Int) < bch_bits := by
      rw [hbb]; omega
    refine ⟨hr, ?_⟩
    rw [Encoder_coding_info_bits ext inp e _ hr.1 hr.2]
    unfold get_le_bit
    have e1 : (8 * (p : Int) + (k : Int)).toNat / 8 = p := by omega
    have e2 : (8 * (p : Int) + (k : Int)).toNat % 8 = k := by omega
    rw [e1, e2]
  · intro i hi0 hi1
    rw [hbb] at hi1
    exact ⟨i.toNat / 8, i.toNat % 8, by omega, by omega, by omega⟩
  · intro inp2 hagree i hi0 hi1
    rw [Encoder_coding_info_bits ext inp2 e i hi0 hi1,
      Encoder_coding_info_bits ext inp e i hi0 hi1]
    unfold get_le_bit
    rw [hagree (i.toNat / 8) (by rw [hbb] at hi1; omega)]

/-- C12, witness: bit 3 of byte 5380, the first parity byte, over the integer
instance. -/
theorem C12_payload_layout_witness :
    (5380 : Nat) < 5400 ∧ (3 : Nat) < 8 ∧
      ((0 ≤ 8 * ((5380 : Nat) : Int) + ((3 : Nat) : Int) ∧
          8 * ((5380 : Nat) : Int) + ((3 : Nat) : Int) < bch_bits) ∧
        (Encoder_coding testExt (fun _ => 0) testEncoder).code
            (8 * ((5380 : Nat) : Int) + ((3 : Nat) : Int)) =
          nrz ((bch_encode testExt (fun _ => 0) 5380).testBit 3)) :=
  ⟨by decide, by decide,
    (C12_payload_layout testExt (fun _ => 0) (fun _ => 0) (fun _ => 0)
      testEncoder).2.2.2.2.2.2.2.2.1 5380 3 (by decide) (by decide)⟩

/-- The exit code and the number of samples of a run of `main` that passes the
checks, with a readable input and a supported rate. -/
theorem main_samples (ext : Ext α) (a : Args) (input_file heap : Nat → Nat) (e0 : Encoder α)
    (ck : Checked) (hck : main_checks a = some ck) (hr : supportedRate a.output_rate) :
    (main ext a false input_file heap e0).1 = 0 ∧
      ((main ext a false input_file heap e0).2.length : Int) =
        2 * a.output_rate +
          (8 + codeRows ck.oper_mode) * (symbol_len a.output_rate + guard_len a.output_rate) := by
  have hm : validMode ck.oper_mode := (main_checks_accepted a ck hck).2
  rw [main_accepted ext a input_file heap e0 ck hck hr]
  refine ⟨rfl, ?_⟩
  obtain ⟨_, _, frame, h1, h2⟩ :=
    Encoder_ctor_appends ext a.output_rate
      { e0 with pcm := List.replicate a.output_rate.toNat 0 }
      (read_input ext input_file heap) ck.freq_off ck.call_sign.toNat ck.oper_mode hm
  simp only at h1
  rw [h1]
  simp only [List.length_append, List.length_replicate, h2]
  push_cast
  rw [symbol_samples_cast _ hr, codeRows_cast _ hm, rate_cast _ hr]
  ring

theorem scenarioS1_checks :
    main_checks scenarioS1 = some ⟨1350, base37_encoder "ANONYMOUS".toList, 2⟩ := by
  rw [main_checks_eq_some]
  have hc : arg_call_sign scenarioS1 = base37_encoder "ANONYMOUS".toList := by
    unfold arg_call_sign
    rw [if_pos (by decide)]
    rfl
  refine ⟨by decide, by decide, ?_, by decide, by decide, by decide, ?_⟩
  · rw [hc]; exact (call_sign_ok_iff _).mpr anonymous_accepted
  · rw [hc]; rfl

/-- C14 (as amended): scenario S1 (rate 8000, mode 2, offset 1350 Hz, call sign
`ANONYMOUS`, mono) passes the checks of `main`, and the output has
`8000 + 8*(1280+160) + 50*(1280+160) + 8000` samples. -/
theorem C14_scenario_S1 (ext : Ext α) (input_file heap : Nat → Nat) (e0 : Encoder α) :
    main_checks scenarioS1 = some ⟨1350, base37_encoder "ANONYMOUS".toList, 2⟩ ∧
    (main ext scenarioS1 false input_file heap e0).1 = 0 ∧
    ((main ext scenarioS1 false input_file heap e0).2.length : Int) =
      8000 + 8 * (1280 + 160) + 50 * (1280 + 160) + 8000 := by
  obtain ⟨h1, h2⟩ := main_samples ext scenarioS1 input_file heap e0 _ scenarioS1_checks
    (by decide)
  refine ⟨scenarioS1_checks, h1, ?_⟩
  rw [h2]
  decide

/-- C14, counterexample: over the integer instance, the output of scenario S1 does
not have `8000 + 9*(1280+160) + 216*(1280+160) + 8000 = 340000` samples; it has
99520. -/
theorem C14_counterexample :
    ¬ (((main testExt scenarioS1 false (fun _ => 0) (fun _ => 0) testEncoder).2.length : Int) =
        8000 + 9 * (1280 + 160) + 216 * (1280 + 160) + 8000) := by
  obtain ⟨_, h2⟩ := main_samples testExt scenarioS1 (fun _ => 0) (fun _ => 0) testEncoder _
    scenarioS1_checks (by decide)
  rw [h2]
  decide

/-! ## The header symbol -/

/-- The carriers of the header symbol of an accepted offset, `i + mls1_off` for
`-1 ≤ i < 255`, map to cells of `fdom`, one per carrier. -/
theorem header_bins {chan rate mode freq_off : Int} {e : Encoder α}
    (hr : supportedRate rate) (hm : validMode mode) (ha : Accepted chan rate mode freq_off)
    (hp : Planned rate freq_off mode e) :
    (∀ i : Int, -1 ≤ i → i < 255 →
      0 ≤ bin rate (i + e.mls1_off) ∧ bin rate (i + e.mls1_off) < symbol_len rate) ∧
    (∀ i j : Int, -1 ≤ i → i < 255 → -1 ≤ j → j < 255 →
      bin rate (i + e.mls1_off) = bin rate (j + e.mls1_off) → i = j) := by
  obtain ⟨q, _, hco, _, hm1, hc0, hc1, _, hlo, hhi⟩ := band_bounds hr hm ha hp
  obtain ⟨hN, hN2, _⟩ := symbol_len_pos rate hr
  constructor
  · intro i hi0 hi1
    rcases bin_cases rate (i + e.mls1_off) (by omega) (by omega) with h | h <;> omega
  · intro i j hi0 hi1 hj0 hj1 heq
    rcases bin_cases rate (i + e.mls1_off) (by omega) (by omega) with h | h <;>
      rcases bin_cases rate (j + e.mls1_off) (by omega) (by omega) with h2 | h2 <;> omega

/-- The buffer of the header symbol as the six loops of encode.cc:161-171. -/
theorem meta_fill_fdom (ext : Ext α) (rate : Int) (md : Nat) (e : Encoder α) :
    (meta_fill ext rate md e).fdom =
      loopN 255 0
        (fun i f => Function.update f (bin rate (i + e.mls1_off))
          (f (bin rate (i + e.mls1_off)) * ext.ofInt (nrz (ext.mls mls1_poly i.toNat))))
        (loopN 255 0
          (fun i f => Function.update f (bin rate (i + e.mls1_off))
            (f (bin rate (i + e.mls1_off)) * f (bin rate (i - 1 + e.mls1_off))))
          (loopN 184 71
            (fun i f => Function.update f (bin rate (i + e.mls1_off))
              (ext.ofInt (nrz (get_be_bit (ext.bchenc0 (meta_info ext md)) (i - 71).toNat))))
            (loopN 71 0
              (fun i f => Function.update f (bin rate (i + e.mls1_off))
                (ext.ofInt (nrz (get_be_bit (meta_info ext md) i.toNat))))
              (Function.update
                (loopN (symbol_len rate - 0).toNat 0 (fun i f => Function.update f i 0) e.fdom)
                (bin rate (e.mls1_off - 1)) (ext.sqrt_ratio (symbol_len rate) mls1_len))))) := by
  have h1 : (mls1_len - 0).toNat = 255 := by decide
  have h2 : (mls1_len - 71).toNat = 184 := by decide
  have h3 : ((71 : Int) - 0).toNat = 71 := by decide
  simp only [meta_fill, forLoop, h1, h2, h3]

/-- The two loops of encode.cc:164-167 store the NRZ values of the 255 codeword bits
in the 255 header cells and leave every other cell as it was. -/
theorem header_codeword_cells (ext : Ext α) (md : Nat) (g : Int → Int) (a : Int → α)
    (hinj : ∀ i j : Int, -1 ≤ i → i < 255 → -1 ≤ j → j < 255 → g i = g j → i = j) :
    (∀ k : Nat, k < 255 →
      loopN 184 71
        (fun i f => Function.update f (g i)
          (ext.ofInt (nrz (get_be_bit (ext.bchenc0 (meta_info ext md)) (i - 71).toNat))))
        (loopN 71 0
          (fun i f => Function.update f (g i)
            (ext.ofInt (nrz (get_be_bit (meta_info ext md) i.toNat)))) a) (g (k : Int)) =
        ext.ofInt (nrz (header_bit ext md k))) ∧
    (∀ x : Int, (∀ i : Int, 0 ≤ i → i < 255 → g i ≠ x) →
      loopN 184 71
        (fun i f => Function.update f (g i)
          (ext.ofInt (nrz (get_be_bit (ext.bchenc0 (meta_info ext md)) (i - 71).toNat))))
        (loopN 71 0
          (fun i f => Function.update f (g i)
            (ext.ofInt (nrz (get_be_bit (meta_info ext md) i.toNat)))) a) x = a x) := by
  constructor
  · intro k hk
    by_cases hk71 : k < 71
    · rw [loopN_update_other 184 71 g _ _ (g (k : Int)) (fun j hj h => by
        have := hinj ((71 : Int) + (j : Int)) (k : Int) (by omega) (by omega) (by omega)
          (by omega) h
        omega)]
      have h := loopN_update_same 71 0 g
        (fun i _ => ext.ofInt (nrz (get_be_bit (meta_info ext md) i.toNat))) a
        (fun i j hi hj h => by
          have := hinj ((0 : Int) + (i : Int)) ((0 : Int) + (j : Int)) (by omega) (by omega)
            (by omega) (by omega) h
          omega) k hk71
      simp only [zero_add, Int.toNat_ofNat] at h
      rw [h]
      unfold header_bit
      rw [if_pos hk71]
    · have h := loopN_update_same 184 71 g
        (fun i _ => ext.ofInt (nrz (get_be_bit (ext.bchenc0 (meta_info ext md)) (i - 71).toNat)))
        (loopN 71 0
          (fun i f => Function.update f (g i)
            (ext.ofInt (nrz (get_be_bit (meta_info ext md) i.toNat)))) a)
        (fun i j hi hj h => by
          have := hinj ((71 : Int) + (i : Int)) ((71 : Int) + (j : Int)) (by omega) (by omega)
            (by omega) (by omega) h
          omega) (k - 71) (by omega)
      have e1 : (71 : Int) + ((k - 71 : Nat) : Int) = (k : Int) := by omega
      rw [e1] at h
      beta_reduce at h
      have e2 : ((k : Int) - 71).toNat = k - 71 := by omega
      rw [e2] at h
      rw [h]
      unfold header_bit
      rw [if_neg hk71]
  · intro x hx
    rw [loopN_update_other 184 71 g _ _ x (fun j hj => hx _ (by omega) (by omega)),
      loopN_update_other 71 0 g _ _ x (fun j hj => hx _ (by omega) (by omega))]

/-- The whitening loop of encode.cc:170-171 multiplies each of its cells by the value
of its round and leaves every other cell as it was. -/
theorem scale_cells (n : Nat) (g : Int → Int) (m : Int → α) (a : Int → α)
    (hinj : ∀ i j : Int, -1 ≤ i → i < n → -1 ≤ j → j < n → g i = g j → i = j) :
    (∀ k : Nat, k < n →
      loopN n 0 (fun i f => Function.update f (g i) (f (g i) * m i)) a (g (k : Int)) =
        a (g (k : Int)) * m (k : Int)) ∧
    (∀ x : Int, (∀ i : Int, 0 ≤ i → i < n → g i ≠ x) →
      loopN n 0 (fun i f => Function.update f (g i) (f (g i) * m i)) a x = a x) := by
  constructor
  · intro k hk
    have h := loopN_update_same n 0 g (fun i x => x * m i) a
      (fun i j hi hj h => by
        have := hinj ((0 : Int) + (i : Int)) ((0 : Int) + (j : Int)) (by omega) (by omega)
          (by omega) (by omega) h
        omega) k hk
    simp only [zero_add] at h
    exact h
  · intro x hx
    exact loopN_update_other n 0 g (fun i f => f (g i) * m i) a x
      (fun j hj => hx _ (by omega) (by omega))

theorem nrz_cases (b : Bool) : nrz b = 1 ∨ nrz b = -1 := by
  cases b
  · left; decide
  · right; decide

/-- The cells of the buffer of the header symbol, for an accepted offset: the anchor,
the 255 codeword cells, and zero elsewhere. -/
theorem header_cells {R : Type} [CommRing R] (ext : Ext R) (chan rate mode freq_off : Int)
    (md : Nat) (e : Encoder R) (hr : supportedRate rate) (hm : validMode mode)
    (ha : Accepted chan rate mode freq_off) (hp : Planned rate freq_off mode e) :
    (meta_fill ext rate md e).fdom (bin rate (e.mls1_off - 1)) =
      ext.sqrt_ratio (symbol_len rate) mls1_len ∧
    (∀ k : Nat, k < 255 →
      (meta_fill ext rate md e).fdom (bin rate ((k : Int) + e.mls1_off)) =
        ext.sqrt_ratio (symbol_len rate) mls1_len *
            Finset.prod (Finset.range (k + 1)) (fun j => ext.ofInt (nrz (header_bit ext md j))) *
          ext.ofInt (nrz (ext.mls mls1_poly k))) ∧
    (∀ b : Int, 0 ≤ b → b < symbol_len rate →
      (∀ i : Int, -1 ≤ i → i < 255 → bin rate (i + e.mls1_off) ≠ b) →
      (meta_fill ext rate md e).fdom b = 0) := by
  obtain ⟨hrange, hinj⟩ := header_bins hr hm ha hp
  have hinjN : ∀ i j : Int, -1 ≤ i → i < ((255 : Nat) : Int) → -1 ≤ j →
      j < ((255 : Nat) : Int) →
      (fun i => bin rate (i + e.mls1_off)) i = (fun i => bin rate (i + e.mls1_off)) j → i = j :=
    fun i j a b c d h => hinj i j a (by omega) c (by omega) h
  have ea : bin rate (e.mls1_off - 1) = bin rate (-1 + e.mls1_off) := by
    congr 1; omega
  have hanchor : ∀ i : Int, 0 ≤ i → i < 255 →
      (fun i => bin rate (i + e.mls1_off)) i ≠ bin rate (-1 + e.mls1_off) := by
    intro i h0 h1 h
    have := hinj i (-1) (by omega) h1 (by omega) (by omega) h
    omega
  rw [meta_fill_fdom, ea]
  refine ⟨?_, ?_, ?_⟩
  · rw [(scale_cells 255 (fun i => bin rate (i + e.mls1_off))
        (fun i => ext.ofInt (nrz (ext.mls mls1_poly i.toNat))) _ hinjN).2 _
        (fun i h0 h1 => hanchor i h0 (by omega)),
      loopN_update_other 255 0 (fun i => bin rate (i + e.mls1_off))
        (fun i f => f (bin rate (i + e.mls1_off)) * f (bin rate (i - 1 + e.mls1_off))) _ _
        (fun j hj => hanchor _ (by omega) (by omega)),
      (header_codeword_cells ext md (fun i => bin rate (i + e.mls1_off)) _ hinj).2 _ hanchor,
      Function.update_same]
  · intro k hk
    rw [(scale_cells 255 (fun i => bin rate (i + e.mls1_off))
        (fun i => ext.ofInt (nrz (ext.mls mls1_poly i.toNat))) _ hinjN).1 k hk]
    have hd := loopN_diff 255 (fun i => bin rate (i + e.mls1_off))
      (loopN 184 71
        (fun i f => Function.update f (bin rate (i + e.mls1_off))
          (ext.ofInt (nrz (get_be_bit (ext.bchenc0 (meta_info ext md)) (i - 71).toNat))))
        (loopN 71 0
          (fun i f => Function.update f (bin rate (i + e.mls1_off))
            (ext.ofInt (nrz (get_be_bit (meta_info ext md) i.toNat))))
          (Function.update
            (loopN (symbol_len rate - 0).toNat 0 (fun i f => Function.update f i 0) e.fdom)
            (bin rate (-1 + e.mls1_off)) (ext.sqrt_ratio (symbol_len rate) mls1_len))))
      hinjN k hk
    beta_reduce at hd
    rw [hd, (header_codeword_cells ext md (fun i => bin rate (i + e.mls1_off)) _ hinj).2 _ hanchor,
      Function.update_same, Int.toNat_ofNat]
    congr 2
    apply Finset.prod_congr rfl
    intro j hj
    have hj2 : j < 255 := by
      have := Finset.mem_range.mp hj
      omega
    exact (header_codeword_cells ext md (fun i => bin rate (i + e.mls1_off)) _ hinj).1 j hj2
  · intro b hb0 hb1 hout
    have hout2 : ∀ i : Int, 0 ≤ i → i < 255 → (fun i => bin rate (i + e.mls1_off)) i ≠ b :=
      fun i h0 h1 => hout i (by omega) h1
    rw [(scale_cells 255 (fun i => bin rate (i + e.mls1_off))
        (fun i => ext.ofInt (nrz (ext.mls mls1_poly i.toNat))) _ hinjN).2 b
        (fun i h0 h1 => hout2 i h0 (by omega)),
      loopN_update_other 255 0 (fun i => bin rate (i + e.mls1_off))
        (fun i f => f (bin rate (i + e.mls1_off)) * f (bin rate (i - 1 + e.mls1_off))) _ b
        (fun j hj => hout2 _ (by omega) (by omega)),
      (header_codeword_cells ext md (fun i => bin rate (i + e.mls1_off)) _ hinj).2 b hout2,
      Function.update_noteq (fun h => hout (-1) (by omega) (by omega) h.symm)]
    exact loopN_zero_fill _ _ b hb0 (by omega)

theorem nrz_cast_cases {R : Type} [CommRing R] (b : Bool) :
    ((nrz b : Int) : R) = 1 ∨ ((nrz b : Int) : R) = -1 := by
  rcases nrz_cases b with h | h <;> rw [h]
  · left; simp
  · right; simp

theorem prod_signs {R : Type} [CommRing R] (c : Nat → Bool) (n : Nat) :
    Finset.prod (Finset.range n) (fun j => ((nrz (c j) : Int) : R)) = 1 ∨
      Finset.prod (Finset.range n) (fun j => ((nrz (c j) : Int) : R)) = -1 := by
  induction n with
  | zero => left; simp
  | succ n ih =>
    rw [Finset.prod_range_succ]
    rcases ih with h | h <;> rcases nrz_cast_cases (R := R) (c n) with g | g <;> rw [h, g] <;>
      simp

/-- C15: for the 255-bit header codeword `cw` (71 information bits of `data`, then
184 parity bits) and the whitening bits `m` of the MLS generator, the buffer built by
`meta_data` has the anchor `fdom[bin(mls1_off - 1)] = mls1_fac` and, for `i` in
`[0, 255)`, `fdom[bin(mls1_off + i)] = mls1_fac * nrz(m_i) * ∏_{j ≤ i} nrz(cw_j)`; so
every header bin is `mls1_fac` or `-mls1_fac`, the 256 bins are pairwise distinct,
and all other bins are zero.  Sample values form a commutative ring here, and the
offset is one `main` lets through. -/
theorem C15_header_bins {R : Type} [CommRing R] (ext : Ext R) (chan rate mode freq_off : Int)
    (md : Nat) (e : Encoder R) (hr : supportedRate rate) (hm : validMode mode)
    (ha : Accepted chan rate mode freq_off) (hp : Planned rate freq_off mode e)
    (hofInt : ∀ z : Int, ext.ofInt z = (z : R)) :
    (meta_data ext rate md e).fdom = (meta_fill ext rate md e).fdom ∧
    (meta_fill ext rate md e).fdom (bin rate (e.mls1_off - 1)) =
      ext.sqrt_ratio (symbol_len rate) mls1_len ∧
    (∀ i : Nat, i < 255 →
      (meta_fill ext rate md e).fdom (bin rate ((i : Int) + e.mls1_off)) =
        ext.sqrt_ratio (symbol_len rate) mls1_len * ((nrz (ext.mls mls1_poly i) : Int) : R) *
          Finset.prod (Finset.range (i + 1)) (fun j => ((nrz (header_bit ext md j) : Int) : R))) ∧
    (∀ i : Nat, i < 255 →
      (meta_fill ext rate md e).fdom (bin rate ((i : Int) + e.mls1_off)) =
          ext.sqrt_ratio (symbol_len rate) mls1_len ∨
        (meta_fill ext rate md e).fdom (bin rate ((i : Int) + e.mls1_off)) =
          -ext.sqrt_ratio (symbol_len rate) mls1_len) ∧
    (∀ i : Int, -1 ≤ i → i < 255 →
      0 ≤ bin rate (i + e.mls1_off) ∧ bin rate (i + e.mls1_off) < symbol_len rate) ∧
    (∀ i j : Int, -1 ≤ i → i < 255 → -1 ≤ j → j < 255 →
      bin rate (i + e.mls1_off) = bin rate (j + e.mls1_off) → i = j) ∧
    (∀ b : Int, 0 ≤ b → b < symbol_len rate →
      (∀ i : Int, -1 ≤ i → i < 255 → bin rate (i + e.mls1_off) ≠ b) →
      (meta_fill ext rate md e).fdom b = 0) := by
  obtain ⟨h1, h2, h3⟩ := header_cells ext chan rate mode freq_off md e hr hm ha hp
  obtain ⟨hrange, hinj⟩ := header_bins hr hm ha hp
  have hval : ∀ i : Nat, i < 255 →
      (meta_fill ext rate md e).fdom (bin rate ((i : Int) + e.mls1_off)) =
        ext.sqrt_ratio (symbol_len rate) mls1_len * ((nrz (ext.mls mls1_poly i) : Int) : R) *
          Finset.prod (Finset.range (i + 1))
            (fun j => ((nrz (header_bit ext md j) : Int) : R)) := by
    intro i hi
    rw [h2 i hi, hofInt]
    have hp2 : Finset.prod (Finset.range (i + 1))
        (fun j => ext.ofInt (nrz (header_bit ext md j))) =
        Finset.prod (Finset.range (i + 1))
          (fun j => ((nrz (header_bit ext md j) : Int) : R)) :=
      Finset.prod_congr rfl (fun j _ => hofInt _)
    rw [hp2]
    ring
  refine ⟨symbol_fdom ext rate true _, h1, hval, ?_, hrange, hinj, h3⟩
  intro i hi
  rw [hval i hi]
  rcases prod_signs (R := R) (header_bit ext md) (i + 1) with h | h <;>
    rcases nrz_cast_cases (R := R) (ext.mls mls1_poly i) with g | g <;> rw [h, g]
  · left; ring
  · right; ring
  · right; ring
  · left; ring

/-- C15, witness: rate 8000, mono, offset 1350 Hz, mode 2, over the integers. -/
theorem C15_header_bins_witness :
    supportedRate 8000 ∧ validMode 2 ∧ Accepted 1 8000 2 1350 ∧
      Planned 8000 1350 2 testPlanned ∧ (∀ z : Int, testExt.ofInt z = ((z : Int) : Int)) ∧
      (meta_fill testExt 8000 (meta_word 11 2) testPlanned).fdom
          (bin 8000 (testPlanned.mls1_off - 1)) =
        testExt.sqrt_ratio (symbol_len 8000) mls1_len :=
  ⟨by decide, by decide, ⟨2700, by decide, by decide, by decide⟩, by rfl, fun _ => rfl,
    (C15_header_bins testExt 1 8000 2 1350 (meta_word 11 2) testPlanned (by decide) (by decide)
      ⟨2700, by decide, by decide, by decide⟩ (by rfl) (fun _ => rfl)).2.1⟩

end Modem
